import Mathlib

/-!
# Versioned schema migration engine (`backend/cmd/migrate/main.go`)

A shallow embedding of the migration runner and a verification of its
specification.

Modelling conventions.

* Go strings are Lean strings; byte-wise comparison of valid UTF-8 coincides
  with the lexicographic comparison of the code points (`strLt`).
* The database is a state machine `State`: an abstract schema acted upon by the
  migration statements (through `Env.exec`), the rows of `schema_migrations`,
  and the history of the statements the database was asked to run.  The
  statements of a migration act on the schema only.  The unique key on
  `version` compares versions under the collation of the table,
  `utf8mb4_unicode_ci`, given by `Env.weightString`, while the Go map of the
  applied versions compares them byte by byte.  Connectivity failures are not
  modelled: a query or a ledger write fails only when the database rejects it.
* The file system is a tree `Node`, as `os.Lstat`, `os.ReadDir` and
  `os.ReadFile` present it.
* The lines written by `log.Printf` and `log.Println` are collected, oldest
  first, in `State.log`, each as the message and the version it is about
  (`LogEntry`); `LogEntry.text` is the text printed.
-/

namespace Migrate

/-! ## Strings -/

/-- Go's `<` on strings. -/
def strLt (a b : String) : Prop := a.data < b.data

instance strLtDecidable (a b : String) : Decidable (strLt a b) := by
  unfold strLt; infer_instance

/-- Go's `<=` on strings, as `!(b < a)`. -/
def strLe (a b : String) : Prop := ¬ strLt b a

instance strLeDecidable (a b : String) : Decidable (strLe a b) := by
  unfold strLe; infer_instance

/-- The rune mapping of `strings.ToLower`.  Runes outside ASCII are left as they
are: none of them lowers to a character of `.up.sql` or `.down.sql`, the only
suffixes the result is compared with. -/
def lowerRune (c : Char) : Char :=
  if 65 ≤ c.toNat ∧ c.toNat ≤ 90 then Char.ofNat (c.toNat + 32) else c

/-- The function `strings.ToLower`. -/
def toLower (s : String) : String := String.mk (s.data.map lowerRune)

/-- The function `strings.HasSuffix`. -/
def hasSuffix (s suffix : String) : Bool := suffix.data.isSuffixOf s.data

/-- The function `strings.TrimSuffix`. -/
def trimSuffix (s suffix : String) : String :=
  if hasSuffix s suffix then String.mk (s.data.take (s.data.length - suffix.data.length))
  else s

/-- The predicate `unicode.IsSpace` (the `White_Space` property). -/
def isSpace (c : Char) : Bool :=
  let n := c.toNat
  (9 ≤ n ∧ n ≤ 13) ∨ n = 32 ∨ n = 133 ∨ n = 160 ∨ n = 5760 ∨ (8192 ≤ n ∧ n ≤ 8202) ∨
    n = 8232 ∨ n = 8233 ∨ n = 8239 ∨ n = 8287 ∨ n = 12288

/-- The function `strings.TrimSpace`. -/
def trimSpace (s : String) : String :=
  String.mk ((s.data.dropWhile isSpace).rdropWhile isSpace)

/-- The function `filepath.Base`. -/
def base (path : String) : String :=
  if path.data = [] then "."
  else
    let p := path.data.rdropWhile (fun c => c = '/')
    if p = [] then "/"
    else String.mk ((p.reverse.takeWhile (fun c => c ≠ '/')).reverse)

/-- The function `filepath.Join` of a clean directory path and one entry name. -/
def joinPath (dir name : String) : String := dir ++ "/" ++ name

/-! ## Data model -/

/-- The constant `migrationsDir`. -/
def migrationsDir : String := "migrations"

/-- The struct `migration`. -/
structure migration where
  version : String
  path : String
  checksum : String
  content : String
deriving DecidableEq

/-- The struct `migrationStatus`. -/
structure migrationStatus where
  version : String
  applied : Bool
  checksumMatch : Bool
  appliedChecksum : String
  currentChecksum : String
deriving DecidableEq

/-! ## External collaborators -/

/-- The collaborators outside the repository: the SQL engine that runs the
statements of a migration against the schema, the unique key of the table
`schema_migrations`, and `sha256.Sum256`. -/
structure Env where
  /-- the states of the schema -/
  Schema : Type
  /-- running one statement: the new schema, or the database error -/
  exec : Schema → String → Except String Schema
  /-- the digest of a byte sequence -/
  sum256 : String → List (Fin 256)
  /-- a digest has 32 bytes -/
  sum256_length : ∀ content, (sum256 content).length = 32
  /-- the weight string of a version under the collation of the column `version`,
  `utf8mb4_unicode_ci`: the unique key takes two versions for the same exactly
  when their weight strings are equal -/
  weightString : String → String
  /-- the error the driver returns for an insert the unique key rejects -/
  duplicateEntry : String → String

/-- One request made to the database that may change it. -/
inductive DbCall where
  /-- `db.Exec(stmt)` of a migration statement, and whether it succeeded -/
  | exec (stmt : String) (ok : Bool)
  /-- the `INSERT INTO schema_migrations`, and whether it succeeded -/
  | insert (version checksum : String) (ok : Bool)
  /-- the `DELETE FROM schema_migrations WHERE version = ?` -/
  | delete (version : String)
deriving DecidableEq

/-- One line written to the log: the message and its argument. -/
inductive LogEntry where
  /-- `log.Println("⊘ No migrations found")` -/
  | noMigrations
  /-- `log.Println("⊘ No down migrations found")` -/
  | noDownMigrations
  /-- `log.Println("⊘ No migrations found in", migrationsDir)` -/
  | noMigrationsIn (dir : String)
  /-- `log.Printf("⊘ Skipping %s (already applied)", m.version)` -/
  | skipApplied (version : String)
  /-- `log.Printf("→ Applying %s...", m.version)` -/
  | applying (version : String)
  /-- `log.Printf("✓ Applied %s", m.version)` -/
  | applied (version : String)
  /-- `log.Printf("⊘ Skipping %s (not applied)", m.version)` -/
  | skipNotApplied (version : String)
  /-- `log.Printf("→ Rolling back %s...", m.version)` -/
  | rollingBack (version : String)
  /-- `log.Printf("✓ Rolled back %s", m.version)` -/
  | rolledBack (version : String)
deriving DecidableEq

/-- The text of a log line. -/
def LogEntry.text : LogEntry → String
  | .noMigrations => "⊘ No migrations found"
  | .noDownMigrations => "⊘ No down migrations found"
  | .noMigrationsIn dir => "⊘ No migrations found in " ++ dir
  | .skipApplied version => "⊘ Skipping " ++ version ++ " (already applied)"
  | .applying version => "→ Applying " ++ version ++ "..."
  | .applied version => "✓ Applied " ++ version
  | .skipNotApplied version => "⊘ Skipping " ++ version ++ " (not applied)"
  | .rollingBack version => "→ Rolling back " ++ version ++ "..."
  | .rolledBack version => "✓ Rolled back " ++ version

/-- The database and the log of the process. -/
structure State (E : Env) where
  /-- the schema the migrations act upon -/
  schema : E.Schema
  /-- the rows `(version, checksum)` of `schema_migrations` -/
  ledger : List (String × String)
  /-- the requests made so far, oldest first -/
  history : List DbCall
  /-- the lines written by `log.Printf` and `log.Println`, oldest first -/
  log : List LogEntry

deriving instance DecidableEq for Except

/-- The result of an operation: its `error` value and the state it leaves. -/
abbrev Outcome (E : Env) := Except String Unit × State E

/-- A call of `log.Printf` or `log.Println`. -/
def State.logLine {E : Env} (st : State E) (line : LogEntry) : State E :=
  { st with log := st.log ++ [line] }

/-! ## File system -/

/-- A node of the file system: a file with the result of `os.ReadFile`, or a
directory with the result of `os.ReadDir` (the entries read, sorted by file
name, and the error if reading failed). -/
inductive Node where
  | file (name : String) (content : Except String String)
  | dir (name : String) (readErr : Option String) (entries : List Node)

/-- The name of a node (`d.Name()`). -/
def Node.name : Node → String
  | .file name _ => name
  | .dir name _ _ => name

/-- The test `d.IsDir()`. -/
def Node.isDir : Node → Bool
  | .file _ _ => false
  | .dir _ _ _ => true

/-- The node found at the root path carries the last element of that path as its name. -/
def Node.withName (name : String) : Node → Node
  | .file _ content => .file name content
  | .dir _ readErr entries => .dir name readErr entries

/-- The file system: what `os.Lstat` finds at the root path. -/
abbrev FS := Except String Node

mutual
/-- The function `walkDir` of `path/filepath`, for a callback `fn` that threads
the slice it appends to and never returns `SkipDir`. -/
def walkDir (fn : List String → String → String → Bool → Option String → Except String (List String))
    (path : String) : Node → List String → Except String (List String)
  | .file name _, files => fn files path name false none
  | .dir name readErr entries, files =>
    match fn files path name true none with
    | .error e => .error e
    | .ok files1 =>
      match readErr with
      | some e =>
        match fn files1 path name true (some e) with
        | .error e1 => .error e1
        | .ok files2 => walkEntries fn path entries files2
      | none => walkEntries fn path entries files1
/-- The loop of `walkDir` over the entries of a directory. -/
def walkEntries (fn : List String → String → String → Bool → Option String → Except String (List String))
    (path : String) : List Node → List String → Except String (List String)
  | [], files => .ok files
  | d1 :: rest, files =>
    match walkDir fn (joinPath path d1.name) d1 files with
    | .error e => .error e
    | .ok files1 => walkEntries fn path rest files1
end

/-- The function `filepath.WalkDir`. -/
def WalkDir (fs : FS) (root : String)
    (fn : List String → String → String → Bool → Option String → Except String (List String))
    (files : List String) : Except String (List String) :=
  match fs with
  | .error e => fn files root "" false (some e)
  | .ok node => walkDir fn root (node.withName (base root)) files

mutual
/-- The files below a node, each with its path and the result of reading it. -/
def Node.files (path : String) : Node → List (String × Except String String)
  | .file _ content => [(path, content)]
  | .dir _ _ entries => Node.filesOfEntries path entries
/-- The files below the entries of a directory. -/
def Node.filesOfEntries (path : String) : List Node → List (String × Except String String)
  | [] => []
  | d1 :: rest => Node.files (joinPath path d1.name) d1 ++ Node.filesOfEntries path rest
end

/-- The function `os.ReadFile`, in the tree found at `root`. -/
def readFile (fs : FS) (root path : String) : Except String String :=
  match fs with
  | .error e => .error e
  | .ok node =>
    match (node.files root).lookup path with
    | some r => r
    | none => .error ("open " ++ path ++ ": no such file or directory")

/-! ## Migration Loader -/

/-- The callback given to `filepath.WalkDir` by `listSQLWithSuffix`; `files` is
the slice it appends to. -/
def listSQLWithSuffixFn (suffix : String) (files : List String) (path name : String)
    (isDir : Bool) (err : Option String) : Except String (List String) :=
  match err with
  | some e => .error e
  | none =>
    if isDir then .ok files
    else if hasSuffix (toLower name) suffix then .ok (files ++ [path])
    else .ok files

/-- The function `listSQLWithSuffix`: the qualifying paths, sorted by `sort.Strings`. -/
def listSQLWithSuffix (fs : FS) (dir suffix : String) : Except String (List String) :=
  match WalkDir fs dir (listSQLWithSuffixFn suffix) [] with
  | .error err => .error err
  | .ok files => .ok (files.insertionSort strLe)

/-- A hexadecimal digit, lower case. -/
def hexDigit (n : Nat) : Char :=
  if n < 10 then Char.ofNat (48 + n) else Char.ofNat (87 + n)

/-- The two digits `%x` prints for one byte. -/
def hexByte (b : Fin 256) : List Char := [hexDigit (b.val / 16), hexDigit (b.val % 16)]

/-- The function `calculateChecksum`. -/
def calculateChecksum (E : Env) (content : String) : String :=
  String.mk ((E.sum256 content).map hexByte).flatten

/-- The loop of `loadMigrations` over the listed paths. -/
def loadFiles (E : Env) (fs : FS) (dir suffix : String) :
    List String → List migration → Except String (List migration)
  | [], migrations => .ok migrations
  | path :: rest, migrations =>
    match readFile fs dir path with
    | .error err => .error ("read " ++ path ++ ": " ++ err)
    | .ok content =>
      let filename := base path
      let version := trimSuffix filename suffix
      let checksum := calculateChecksum E content
      loadFiles E fs dir suffix rest
        (migrations ++ [{ version := version, path := path, checksum := checksum, content := content }])

/-- The function `loadMigrations`. -/
def loadMigrations (E : Env) (fs : FS) (dir suffix : String) : Except String (List migration) :=
  match listSQLWithSuffix fs dir suffix with
  | .error err => .error err
  | .ok files => loadFiles E fs dir suffix files []

/-! ## Ledger Store -/

/-- The assignment `m[k] = v` on a Go map, kept as an association list. -/
def mapSet (m : List (String × String)) (k v : String) : List (String × String) :=
  if m.any (fun e => e.1 == k) then m.map (fun e => if e.1 = k then (k, v) else e)
  else m ++ [(k, v)]

/-- The loop of `getAppliedMigrations` over the rows the query returns. -/
def scanRows (rows : List (String × String)) (applied : List (String × String)) :
    List (String × String) :=
  rows.foldl (fun applied row => mapSet applied row.1 row.2) applied

/-- The function `getAppliedMigrations`: the rows of the ledger as a map. -/
def getAppliedMigrations {E : Env} (st : State E) : Except String (List (String × String)) :=
  .ok (scanRows st.ledger [])

/-- The function `recordMigration`: the column `version` is declared `UNIQUE` in a
table of collation `utf8mb4_unicode_ci`, so the insert is rejected when the
table holds a version equal to the new one under that collation, one that
differs from it in case only for instance. -/
def recordMigration {E : Env} (st : State E) (version checksum : String) : Outcome E :=
  if st.ledger.any (fun row => E.weightString row.1 == E.weightString version) then
    (.error (E.duplicateEntry version),
      { st with history := st.history ++ [.insert version checksum false] })
  else
    (.ok (),
      { st with
        ledger := st.ledger ++ [(version, checksum)]
        history := st.history ++ [.insert version checksum true] })

/-- The function `removeMigrationRecord`, called by `migrateDown` for a version the
map `applied` holds: the row of that version is the one row of the table the
`WHERE` clause matches, the versions of the rows being pairwise different
under the collation of the unique key. -/
def removeMigrationRecord {E : Env} (st : State E) (version : String) : Outcome E :=
  (.ok (),
    { st with
      ledger := st.ledger.filter (fun row => row.1 != version)
      history := st.history ++ [.delete version] })

/-! ## Apply Engine -/

/-- The function `splitStatements`. -/
def splitStatements (sql : String) : List String :=
  (sql.data.splitOn ';').map String.mk

/-- The call `db.Exec(stmt)` of a migration statement. -/
def dbExec (E : Env) (st : State E) (stmt : String) : Outcome E :=
  match E.exec st.schema stmt with
  | .ok schema1 =>
    (.ok (), { st with schema := schema1, history := st.history ++ [.exec stmt true] })
  | .error err => (.error err, { st with history := st.history ++ [.exec stmt false] })

/-- The loop of `applyMigration` over the pieces of the content. -/
def applyStatements (E : Env) : List String → State E → Outcome E
  | [], st => (.ok (), st)
  | piece :: rest, st =>
    let stmt := trimSpace piece
    if stmt = "" then applyStatements E rest st
    else
      match dbExec E st stmt with
      | (.error err, st1) => (.error ("statement failed: " ++ err ++ "\nSQL: " ++ stmt), st1)
      | (.ok _, st1) => applyStatements E rest st1

/-- The function `applyMigration`. -/
def applyMigration (E : Env) (st : State E) (m : migration) : Outcome E :=
  applyStatements E (splitStatements m.content) st

/-- The error `migrateUp` returns on a checksum mismatch. -/
def checksumMismatchError (version appliedChecksum currentChecksum : String) : String :=
  "❌ CHECKSUM MISMATCH for " ++ version ++ "\nApplied: " ++ appliedChecksum ++
    "\nCurrent: " ++ currentChecksum ++ "\nMigration file was modified after being applied!"

/-- The loop of `migrateUp` over the loaded migrations; `applied` is the map read
before the loop. -/
def migrateUpLoop (E : Env) (applied : List (String × String)) :
    List migration → State E → Outcome E
  | [], st => (.ok (), st)
  | m :: rest, st =>
    match applied.lookup m.version with
    | some appliedChecksum =>
      if appliedChecksum ≠ m.checksum then
        (.error (checksumMismatchError m.version appliedChecksum m.checksum), st)
      else
        migrateUpLoop E applied rest (st.logLine (.skipApplied m.version))
    | none =>
      match applyMigration E (st.logLine (.applying m.version)) m with
      | (.error err, st1) => (.error ("failed to apply " ++ m.version ++ ": " ++ err), st1)
      | (.ok _, st1) =>
        match recordMigration st1 m.version m.checksum with
        | (.error err, st2) => (.error ("failed to record " ++ m.version ++ ": " ++ err), st2)
        | (.ok _, st2) =>
          migrateUpLoop E applied rest (st2.logLine (.applied m.version))

/-- The function `migrateUp`. -/
def migrateUp (E : Env) (fs : FS) (st : State E) : Outcome E :=
  match loadMigrations E fs migrationsDir ".up.sql" with
  | .error err => (.error err, st)
  | .ok migrations =>
    if migrations.length = 0 then (.ok (), st.logLine .noMigrations)
    else
      match getAppliedMigrations st with
      | .error err => (.error err, st)
      | .ok applied => migrateUpLoop E applied migrations st

/-- The loop of `migrateDown`; the list holds the migrations still to visit, last
index first. -/
def migrateDownLoop (E : Env) (applied : List (String × String)) :
    List migration → State E → Outcome E
  | [], st => (.ok (), st)
  | m :: rest, st =>
    match applied.lookup m.version with
    | none =>
      migrateDownLoop E applied rest (st.logLine (.skipNotApplied m.version))
    | some _ =>
      match applyMigration E (st.logLine (.rollingBack m.version)) m with
      | (.error err, st1) => (.error ("failed to rollback " ++ m.version ++ ": " ++ err), st1)
      | (.ok _, st1) =>
        match removeMigrationRecord st1 m.version with
        | (.error err, st2) => (.error ("failed to remove record " ++ m.version ++ ": " ++ err), st2)
        | (.ok _, st2) =>
          migrateDownLoop E applied rest (st2.logLine (.rolledBack m.version))

/-- The function `migrateDown`: the loop runs from the last index down to 0. -/
def migrateDown (E : Env) (fs : FS) (st : State E) : Outcome E :=
  match loadMigrations E fs migrationsDir ".down.sql" with
  | .error err => (.error err, st)
  | .ok migrations =>
    if migrations.length = 0 then (.ok (), st.logLine .noDownMigrations)
    else
      match getAppliedMigrations st with
      | .error err => (.error err, st)
      | .ok applied => migrateDownLoop E applied migrations.reverse st

/-! ## Status Reporter -/

/-- The status built by the first loop of `showStatus` for one loaded file. -/
def fileStatus (applied : List (String × String)) (m : migration) : migrationStatus :=
  let status : migrationStatus :=
    { version := m.version, currentChecksum := m.checksum, applied := false,
      checksumMatch := true, appliedChecksum := "" }
  match applied.lookup m.version with
  | some appliedChecksum =>
    { status with
      applied := true
      appliedChecksum := appliedChecksum
      checksumMatch := decide (appliedChecksum = m.checksum) }
  | none => status

/-- The second loop of `showStatus`, over the entries of the map `applied`: the
statuses appended for the versions that have no loaded file. -/
def orphanStatuses (migrations : List migration) : List (String × String) → List migrationStatus
  | [] => []
  | (version, checksum) :: rest =>
    let found := migrations.any (fun m => m.version == version)
    if !found then
      { version := version, applied := true, appliedChecksum := checksum,
        checksumMatch := false, currentChecksum := "" } :: orphanStatuses migrations rest
    else orphanStatuses migrations rest

/-- The comparison given to `sort.Slice`, as a total preorder: `a` may stand
before `b` when `b.version < a.version` does not hold. -/
def statusLe (a b : migrationStatus) : Prop := strLe a.version b.version

instance statusLeDecidable (a b : migrationStatus) : Decidable (statusLe a b) := by
  unfold statusLe; infer_instance

/-- The slice `statuses` of `showStatus` after `sort.Slice`. -/
def buildStatuses (migrations : List migration) (applied : List (String × String)) :
    List migrationStatus :=
  ((migrations.map (fileStatus applied)) ++ orphanStatuses migrations applied).insertionSort statusLe

/-- The classification printed for one status: the columns STATUS and CHECKSUM. -/
def statusColumns (s : migrationStatus) : String × String :=
  if !s.applied then ("⏳ PENDING", "—")
  else if !s.checksumMatch then ("❌ APPLIED", "⚠️  MISMATCH")
  else ("✓ APPLIED", "OK")

/-- The counters `pendingCount`, `appliedCount` and `mismatchCount` of `showStatus`. -/
structure statusCounts where
  pendingCount : Nat
  appliedCount : Nat
  mismatchCount : Nat
deriving DecidableEq

/-- The printing loop of `showStatus`, as far as the counters go. -/
def countStatuses : List migrationStatus → statusCounts → statusCounts
  | [], counts => counts
  | s :: rest, counts =>
    if !s.applied then
      countStatuses rest { counts with pendingCount := counts.pendingCount + 1 }
    else if !s.checksumMatch then
      countStatuses rest { counts with mismatchCount := counts.mismatchCount + 1 }
    else
      countStatuses rest { counts with appliedCount := counts.appliedCount + 1 }

/-- What `showStatus` prints: the rows of the table, the summary line, and
whether the mismatch warning and the pending hint follow. -/
structure statusReport where
  /-- the slice `statuses`, sorted -/
  statuses : List migrationStatus
  /-- the printed rows: VERSION, STATUS, CHECKSUM -/
  rows : List (String × String × String)
  /-- the value printed as Total -/
  total : Nat
  /-- the value printed as Applied -/
  appliedCount : Nat
  /-- the value printed as Pending -/
  pendingCount : Nat
  /-- the value printed as Mismatches -/
  mismatchCount : Nat
  /-- whether the checksum-mismatch warning is printed -/
  warning : Bool
  /-- whether the hint to run `migrate up` is printed -/
  hint : Bool
deriving DecidableEq

/-- The table and summary `showStatus` prints for the sorted statuses. -/
def printStatuses (statuses : List migrationStatus) : statusReport :=
  let counts := countStatuses statuses { pendingCount := 0, appliedCount := 0, mismatchCount := 0 }
  { statuses := statuses
    rows := statuses.map (fun s => (s.version, (statusColumns s).1, (statusColumns s).2))
    total := statuses.length
    appliedCount := counts.appliedCount
    pendingCount := counts.pendingCount
    mismatchCount := counts.mismatchCount
    warning := decide (counts.mismatchCount > 0)
    hint := decide (counts.pendingCount > 0) }

/-- The function `showStatus`: its `error` value, the report it prints (none
when it returns before the table), and the state it leaves. -/
def showStatus (E : Env) (fs : FS) (st : State E) :
    Except String (Option statusReport) × State E :=
  match loadMigrations E fs migrationsDir ".up.sql" with
  | .error err => (.error err, st)
  | .ok migrations =>
    if migrations.length = 0 then
      (.ok none, st.logLine (.noMigrationsIn migrationsDir))
    else
      match getAppliedMigrations st with
      | .error err => (.error err, st)
      | .ok applied => (.ok (some (printStatuses (buildStatuses migrations applied))), st)

/-! ## Vocabulary of the specification -/

/-- The keys of a table or map. -/
def keys (rows : List (String × String)) : List String := rows.map Prod.fst

/-- The statements `applyMigration` sends to the database for the pieces of a
content: the trimmed pieces that are not empty. -/
def statementsOf (pieces : List String) : List String :=
  (pieces.map trimSpace).filter (fun stmt => stmt ≠ "")

/-- The loaded files `migrateUp` finds no entry for in the map `applied`. -/
def pendingFiles (applied : List (String × String)) (ms : List migration) : List migration :=
  ms.filter (fun m => (applied.lookup m.version).isNone)

/-- The requests a successful application of one forward migration makes. -/
def upCalls (m : migration) : List DbCall :=
  (statementsOf (splitStatements m.content)).map (fun stmt => DbCall.exec stmt true) ++
    [DbCall.insert m.version m.checksum true]

/-- The lines a successful visit of one forward migration logs. -/
def upLines (applied : List (String × String)) (m : migration) : List LogEntry :=
  if (applied.lookup m.version).isNone then [.applying m.version, .applied m.version]
  else [.skipApplied m.version]

/-- The reverse files `migrateDown` finds an entry for in the map `applied`. -/
def appliedFiles (applied : List (String × String)) (ms : List migration) : List migration :=
  ms.filter (fun m => (applied.lookup m.version).isSome)

/-- The requests a successful roll-back of one reverse migration makes. -/
def downCalls (m : migration) : List DbCall :=
  (statementsOf (splitStatements m.content)).map (fun stmt => DbCall.exec stmt true) ++
    [DbCall.delete m.version]

/-- The lines a successful visit of one reverse migration logs. -/
def downLines (applied : List (String × String)) (m : migration) : List LogEntry :=
  if (applied.lookup m.version).isSome then [.rollingBack m.version, .rolledBack m.version]
  else [.skipNotApplied m.version]

/-- The checksum the map read by `getAppliedMigrations` holds for a version:
the ledger as a mapping from versions to checksums. -/
def ledgerChecksum (rows : List (String × String)) (version : String) : Option String :=
  (scanRows rows []).lookup version

/-- The rows a successful `migrateUp` appends to the ledger. -/
def newRows (rows : List (String × String)) (ms : List migration) : List (String × String) :=
  (ms.filter (fun m => decide (m.version ∉ keys rows))).map (fun m => (m.version, m.checksum))

/-- Whether one of the loaded files has the version. -/
def hasFile (ms : List migration) (version : String) : Bool :=
  ms.any (fun m => m.version == version)

/-- The versions whose application or roll-back was started, in the order of the log. -/
def startedVersions (log : List LogEntry) : List String :=
  log.filterMap (fun entry =>
    match entry with
    | .applying version => some version
    | .rollingBack version => some version
    | _ => none)

/-- Whether the ledger holds, for the version of a forward file, a checksum other
than the checksum of the file. -/
def fileMismatch (rows : List (String × String)) (m : migration) : Bool :=
  match ledgerChecksum rows m.version with
  | some appliedChecksum => appliedChecksum != m.checksum
  | none => false

/-- The versions `migrateUp` has to apply: the loaded versions without a ledger
entry, in the order of the loaded list. -/
def upTargets (rows : List (String × String)) (ms : List migration) : List String :=
  (ms.filter (fun m => decide (m.version ∉ keys rows))).map (fun m => m.version)

/-- The versions `migrateDown` has to roll back: the loaded versions with a ledger
entry, from the last of the loaded list to the first. -/
def downTargets (rows : List (String × String)) (ms : List migration) : List String :=
  (ms.reverse.filter (fun m => decide (m.version ∈ keys rows))).map (fun m => m.version)

/-- The report `showStatus` prints for the loaded forward files and the rows of
the ledger. -/
def statusReportOf (ms : List migration) (rows : List (String × String)) : statusReport :=
  printStatuses (buildStatuses ms (scanRows rows []))

/-- The comparison of `sort.Slice` in `showStatus`: `a.version < b.version`. -/
def statusLt (a b : migrationStatus) : Prop := strLt a.version b.version

/-- What `loadMigrations` records for one listed path: the version is the base
name without the suffix, the content is what `os.ReadFile` returns, and the
checksum is the checksum of that content. -/
def loadedFrom (E : Env) (fs : FS) (dir suffix : String) (m : migration) : Prop :=
  m.version = trimSuffix (base m.path) suffix ∧
    readFile fs dir m.path = .ok m.content ∧
    m.checksum = calculateChecksum E m.content

mutual
/-- Whether every directory of the tree can be read. -/
def Node.readable : Node → Bool
  | .file _ _ => true
  | .dir _ readErr entries => readErr.isNone && Node.allReadable entries
/-- Whether every directory below the entries can be read. -/
def Node.allReadable : List Node → Bool
  | [] => true
  | d1 :: rest => d1.readable && Node.allReadable rest
end

mutual
/-- The entries of the tree that are not directories, at any depth, each with
its path and its name. -/
def Node.leaves (path : String) : Node → List (String × String)
  | .file name _ => [(path, name)]
  | .dir _ _ entries => Node.leavesOfEntries path entries
/-- The entries that are not directories below the entries of a directory. -/
def Node.leavesOfEntries (path : String) : List Node → List (String × String)
  | [] => []
  | d1 :: rest => Node.leaves (joinPath path d1.name) d1 ++ Node.leavesOfEntries path rest
end

/-- The paths of the entries that are not directories and whose name, lower-cased,
ends with the suffix. -/
def qualifyingPaths (suffix path : String) (node : Node) : List String :=
  ((node.leaves path).filter (fun e => hasSuffix (toLower e.2) suffix)).map Prod.fst

/-- The same for the entries of a directory. -/
def qualifyingPathsOfEntries (suffix path : String) (entries : List Node) : List String :=
  ((Node.leavesOfEntries path entries).filter (fun e => hasSuffix (toLower e.2) suffix)).map Prod.fst

/-- The value of a lower-case hexadecimal digit. -/
def hexValue (c : Char) : Option Nat :=
  if 48 ≤ c.toNat ∧ c.toNat ≤ 57 then some (c.toNat - 48)
  else if 97 ≤ c.toNat ∧ c.toNat ≤ 102 then some (c.toNat - 87)
  else none

/-- The bytes a string of lower-case hexadecimal digits encodes, two digits a byte. -/
def decodeHex : List Char → Option (List Nat)
  | [] => some []
  | [_] => none
  | hi :: lo :: rest =>
    match hexValue hi, hexValue lo, decodeHex rest with
    | some h, some l, some bytes => some ((16 * h + l) :: bytes)
    | _, _, _ => none

/-- The schema after the database has run the statements in order, when every
one of them succeeds. -/
def runStatements (E : Env) : E.Schema → List String → Option E.Schema
  | schema, [] => some schema
  | schema, stmt :: rest =>
    match E.exec schema stmt with
    | .ok schema1 => runStatements E schema1 rest
    | .error _ => none

/-- The error `applyMigration` returns when the database rejects a statement. -/
def statementError (err stmt : String) : String :=
  "statement failed: " ++ err ++ "\nSQL: " ++ stmt

/-- Whether the unique key of the table finds the version among the rows: one of
them has a version equal to it under the collation. -/
def holdsKey (E : Env) (rows : List (String × String)) (version : String) : Bool :=
  rows.any (fun row => E.weightString row.1 == E.weightString version)

/-- The versions of the rows are pairwise different under the collation of the
unique key. -/
def keysDistinct (E : Env) (rows : List (String × String)) : Prop :=
  (rows.map (fun row => E.weightString row.1)).Nodup

/-- The requests made to the database between two states of a run. -/
def callsSince {E : Env} (before after : State E) : List DbCall :=
  after.history.drop before.history.length

/-- The function `strings.Join`: the pieces, with the separator between them. -/
def joinStrings (pieces : List String) (sep : String) : String :=
  String.mk (sep.data.intercalate (pieces.map String.data))

/-- The text `part` stands somewhere in the text `text`. -/
def containsText (text part : String) : Prop :=
  ∃ before after : String, text = before ++ part ++ after

/-- Every insert among the requests was accepted by the ledger: none of them was
made for a version that had an entry. -/
def insertsAccepted (calls : List DbCall) : Prop :=
  ∀ c ∈ calls, ∀ v cs ok, c = DbCall.insert v cs ok → ok = true

/-! ## A concrete environment -/

/-- A database that rejects the statement `BOOM` and records every other one, with
a digest that repeats the length of the content, and a unique key that
ignores the case of the letters `A` to `Z`. -/
def sampleEnv : Env where
  Schema := List String
  exec := fun schema stmt => if stmt = "BOOM" then .error "syntax error" else .ok (schema ++ [stmt])
  sum256 := fun content => List.replicate 32 ⟨content.data.length % 256, Nat.mod_lt _ (by decide)⟩
  sum256_length := fun _ => List.length_replicate _ _
  weightString := toLower
  duplicateEntry := fun version =>
    "Error 1062 (23000): Duplicate entry " ++ version ++ " for key schema_migrations.version"

/-- A fresh database with the given ledger rows. -/
def sampleState (rows : List (String × String)) : State sampleEnv :=
  { schema := [], ledger := rows, history := [], log := [] }

/-- A migrations directory with three forward and two reverse files. -/
def fsThree : FS :=
  .ok (.dir "migrations" none
    [.file "0001_init.down.sql" (.ok "DROP TABLE products;"),
     .file "0001_init.up.sql" (.ok "CREATE TABLE products (id INT);"),
     .file "0002_users.down.sql" (.ok "DROP TABLE users;"),
     .file "0002_users.up.sql" (.ok "CREATE TABLE users (id INT); CREATE INDEX i ON users (id);"),
     .file "0003_images.up.sql" (.ok "CREATE TABLE images (id INT);")])

/-- The migration `loadMigrations` builds for a file of the migrations directory. -/
def sampleMigration (version suffix content : String) : migration :=
  { version := version
    path := "migrations/" ++ version ++ suffix
    checksum := calculateChecksum sampleEnv content
    content := content }

/-- The forward migrations of `fsThree`. -/
def upsThree : List migration :=
  [sampleMigration "0001_init" ".up.sql" "CREATE TABLE products (id INT);",
   sampleMigration "0002_users" ".up.sql" "CREATE TABLE users (id INT); CREATE INDEX i ON users (id);",
   sampleMigration "0003_images" ".up.sql" "CREATE TABLE images (id INT);"]

/-- The reverse migrations of `fsThree`. -/
def downsThree : List migration :=
  [sampleMigration "0001_init" ".down.sql" "DROP TABLE products;",
   sampleMigration "0002_users" ".down.sql" "DROP TABLE users;"]

/-- A migrations directory in which the order of the paths is not the order of
the versions: `0001-a` sorts before `0001.` as a file name, after `0001` as a
version. -/
def fsOrder : FS :=
  .ok (.dir "migrations" none
    [.file "0001-a.down.sql" (.ok "DROP TABLE a;"),
     .file "0001-a.up.sql" (.ok "CREATE TABLE a (id INT);"),
     .file "0001.down.sql" (.ok "DROP TABLE b;"),
     .file "0001.up.sql" (.ok "CREATE TABLE b (id INT);")])

/-- A migrations directory with a reverse file that has no forward file. -/
def fsStray : FS :=
  .ok (.dir "migrations" none
    [.file "0000_seed.down.sql" (.ok "DROP TABLE seed;"),
     .file "0001_init.down.sql" (.ok "DROP TABLE products;"),
     .file "0001_init.up.sql" (.ok "CREATE TABLE products (id INT);")])

/-- A migrations directory without any file. -/
def fsEmpty : FS := .ok (.dir "migrations" none [])

/-- A migrations directory with the same file name in two subdirectories. -/
def fsTwin : FS :=
  .ok (.dir "migrations" none
    [.dir "a" none [.file "0001_init.up.sql" (.ok "CREATE TABLE products (id INT);")],
     .dir "b" none [.file "0001_init.up.sql" (.ok "CREATE TABLE products (id INT);")]])

/-- The forward migrations of `fsTwin`. -/
def upsTwin : List migration :=
  [{ version := "0001_init", path := "migrations/a/0001_init.up.sql",
     checksum := calculateChecksum sampleEnv "CREATE TABLE products (id INT);",
     content := "CREATE TABLE products (id INT);" },
   { version := "0001_init", path := "migrations/b/0001_init.up.sql",
     checksum := calculateChecksum sampleEnv "CREATE TABLE products (id INT);",
     content := "CREATE TABLE products (id INT);" }]

/-- The second forward migration of `fsThree`. -/
def usersUp : migration :=
  sampleMigration "0002_users" ".up.sql" "CREATE TABLE users (id INT); CREATE INDEX i ON users (id);"

/-- A ledger for `fsThree`: the first version applied, the second applied from
another content, the third pending, and one version without a file. -/
def driftLedger : List (String × String) :=
  [("0000_legacy", "feed"),
   ("0001_init", calculateChecksum sampleEnv "CREATE TABLE products (id INT);"),
   ("0002_users", "stale")]

/-- A ledger for `fsThree`: every forward file applied with its checksum, and one
version, applied from a file that is gone, without a file. -/
def legacyLedger : List (String × String) :=
  ("0000_legacy", calculateChecksum sampleEnv "CREATE TABLE legacy (id INT);") ::
    upsThree.map (fun m => (m.version, m.checksum))

/-- A ledger for `fsStray`: the version whose forward file is gone. -/
def seedLedger : List (String × String) :=
  [("0000_seed", calculateChecksum sampleEnv "CREATE TABLE seed (id INT);")]

/-- A migrations directory with forward files in two subdirectories. -/
def fsNested : FS :=
  .ok (.dir "migrations" none
    [.dir "2023" none [.file "0002_users.up.sql" (.ok "CREATE TABLE users (id INT);")],
     .dir "2024" none [.file "0001_init.up.sql" (.ok "CREATE TABLE products (id INT);")]])

/-- A tree with qualifying files at two depths, in either case of the suffix, and
with files that do not qualify. -/
def treeMixed : Node :=
  .dir "migrations" none
    [.file "0001_INIT.UP.SQL" (.ok "CREATE TABLE products (id INT);"),
     .dir "2023" none
       [.file "0002_users.down.sql" (.ok "DROP TABLE users;"),
        .file "0002_users.up.sql" (.ok "CREATE TABLE users (id INT);"),
        .dir "old" none [.file "0000_seed.up.sql" (.ok "CREATE TABLE seed (id INT);")]],
     .file "README.md" (.ok "notes"),
     .dir "x.up.sql" none []]

/-- A migrations directory with the suffixes in upper case. -/
def fsUpper : FS :=
  .ok (.dir "migrations" none
    [.file "0001_INIT.DOWN.SQL" (.ok "DROP TABLE products;"),
     .file "0001_INIT.UP.SQL" (.ok "CREATE TABLE products (id INT);")])

/-- A migrations directory with a subdirectory that cannot be read. -/
def fsLocked : FS :=
  .ok (.dir "migrations" none
    [.file "0001_init.up.sql" (.ok "CREATE TABLE products (id INT);"),
     .dir "private" (some "open migrations/private: permission denied") []])

/-- A migrations directory with a forward file that cannot be read. -/
def fsBroken : FS :=
  .ok (.dir "migrations" none
    [.file "0001_init.up.sql" (.ok "CREATE TABLE products (id INT);"),
     .file "0002_users.up.sql" (.error "open migrations/0002_users.up.sql: permission denied")])

/-- A migration whose second statement the database rejects. -/
def badMigration : migration :=
  { version := "0004_bad"
    path := "migrations/0004_bad.up.sql"
    checksum := calculateChecksum sampleEnv "CREATE TABLE a (id INT);\n BOOM ;CREATE TABLE b (id INT);"
    content := "CREATE TABLE a (id INT);\n BOOM ;CREATE TABLE b (id INT);" }

/-- The ledger `plainLedger` with two more entries, for versions without a file. -/
def strayLedger : List (String × String) :=
  [("0000_legacy", calculateChecksum sampleEnv "CREATE TABLE legacy (id INT);"),
   ("0001_init", calculateChecksum sampleEnv "CREATE TABLE products (id INT);"),
   ("0009_other", calculateChecksum sampleEnv "CREATE TABLE other (id INT);")]

/-- A migrations directory whose second forward file holds a statement the
database rejects. -/
def fsFailing : FS :=
  .ok (.dir "migrations" none
    [.file "0001_init.up.sql" (.ok "CREATE TABLE products (id INT);"),
     .file "0002_bad.up.sql" (.ok "CREATE TABLE a (id INT); BOOM;"),
     .file "0003_users.up.sql" (.ok "CREATE TABLE users (id INT);")])

/-- A ledger for `fsFailing`: the third version applied. -/
def usersLedger : List (String × String) :=
  [("0003_users", calculateChecksum sampleEnv "CREATE TABLE users (id INT);")]

/-- The forward migrations of `fsFailing`. -/
def upsFailing : List migration :=
  [sampleMigration "0001_init" ".up.sql" "CREATE TABLE products (id INT);",
   sampleMigration "0002_bad" ".up.sql" "CREATE TABLE a (id INT); BOOM;",
   sampleMigration "0003_users" ".up.sql" "CREATE TABLE users (id INT);"]

/-- A ledger with the first two versions of `fsThree`, each with the checksum of
its forward file. -/
def cleanLedger : List (String × String) :=
  [("0001_init", calculateChecksum sampleEnv "CREATE TABLE products (id INT);"),
   ("0002_users",
     calculateChecksum sampleEnv "CREATE TABLE users (id INT); CREATE INDEX i ON users (id);")]

/-- A ledger with the versions of `cleanLedger`, in another order and with
checksums of no file. -/
def forgedLedger : List (String × String) :=
  [("0002_users", "stale"), ("0001_init", "bogus")]

/-- The second forward migration of `fsFailing`. -/
def badUp : migration :=
  sampleMigration "0002_bad" ".up.sql" "CREATE TABLE a (id INT); BOOM;"

/-- The database when `migrateUp`, run on `fsFailing` from an empty ledger, reaches
the second file. -/
def failingReached : State sampleEnv :=
  { schema := ["CREATE TABLE products (id INT)"]
    ledger := [("0001_init", calculateChecksum sampleEnv "CREATE TABLE products (id INT);")]
    history :=
      [.exec "CREATE TABLE products (id INT)" true,
       .insert "0001_init" (calculateChecksum sampleEnv "CREATE TABLE products (id INT);") true]
    log := [.applying "0001_init", .applied "0001_init"] }

/-- The database when that run has failed in the second file. -/
def failingFinal : State sampleEnv :=
  { schema := ["CREATE TABLE products (id INT)", "CREATE TABLE a (id INT)"]
    ledger := [("0001_init", calculateChecksum sampleEnv "CREATE TABLE products (id INT);")]
    history :=
      [.exec "CREATE TABLE products (id INT)" true,
       .insert "0001_init" (calculateChecksum sampleEnv "CREATE TABLE products (id INT);") true,
       .exec "CREATE TABLE a (id INT)" true, .exec "BOOM" false]
    log := [.applying "0001_init", .applied "0001_init", .applying "0002_bad"] }

/-! ## Lemmas -/

theorem lookup_cons_ite (a b v : String) (rest : List (String × String)) :
    ((a, b) :: rest).lookup v = if v = a then some b else rest.lookup v := by
  rw [List.lookup_cons]
  by_cases h : v = a
  · simp [h]
  · have : (v == a) = false := by simpa using h
    simp [h, this]

theorem mem_keys_cons (a b v : String) (rest : List (String × String)) :
    v ∈ keys ((a, b) :: rest) ↔ v = a ∨ v ∈ keys rest := by
  simp [keys]

theorem lookup_eq_none_iff_not_mem_keys (m : List (String × String)) (v : String) :
    m.lookup v = none ↔ v ∉ keys m := by
  induction m with
  | nil => simp [keys]
  | cons e rest ih =>
    obtain ⟨a, b⟩ := e
    rw [lookup_cons_ite, mem_keys_cons]
    by_cases h : v = a
    · simp [h]
    · simp [h, ih]

theorem any_key_eq_true_iff (m : List (String × String)) (v : String) :
    m.any (fun e => e.1 == v) = true ↔ v ∈ keys m := by
  simp [keys]

theorem lookup_map_replace (m : List (String × String)) (k c v : String) :
    (m.map (fun e => if e.1 = k then (k, c) else e)).lookup v =
      if v = k then (if k ∈ keys m then some c else none) else m.lookup v := by
  induction m with
  | nil => simp [keys]
  | cons e rest ih =>
    obtain ⟨a, b⟩ := e
    have hk : (k ∈ keys ((a, b) :: rest)) = (k = a ∨ k ∈ keys rest) :=
      propext (mem_keys_cons a b k rest)
    simp only [List.map_cons, hk]
    by_cases hak : a = k
    · subst hak
      simp only [if_true, lookup_cons_ite, ih]
      by_cases hv : v = a
      · simp [hv]
      · simp [hv]
    · simp only [if_neg hak, lookup_cons_ite, ih]
      by_cases hv : v = k
      · subst hv
        simp [hak, Ne.symm hak]
      · simp [hv]

theorem lookup_mapSet (m : List (String × String)) (k c v : String) :
    (mapSet m k c).lookup v = if v = k then some c else m.lookup v := by
  unfold mapSet
  by_cases h : m.any (fun e => e.1 == k) = true
  · rw [if_pos h, lookup_map_replace]
    have hk : k ∈ keys m := (any_key_eq_true_iff m k).1 h
    simp [hk]
  · rw [if_neg h, List.lookup_append]
    have hk : k ∉ keys m := fun hk => h ((any_key_eq_true_iff m k).2 hk)
    by_cases hv : v = k
    · subst hv
      simp [(lookup_eq_none_iff_not_mem_keys m v).2 hk]
    · simp [hv, lookup_cons_ite]

theorem lookup_scanRows (rows m : List (String × String)) (v : String) :
    (scanRows rows m).lookup v = (rows.reverse.lookup v).or (m.lookup v) := by
  induction rows generalizing m with
  | nil => simp [scanRows]
  | cons r rest ih =>
    have : scanRows (r :: rest) m = scanRows rest (mapSet m r.1 r.2) := rfl
    rw [this, ih, lookup_mapSet]
    simp only [List.reverse_cons, List.lookup_append]
    obtain ⟨a, b⟩ := r
    by_cases hv : v = a
    · subst hv; cases h : List.lookup v rest.reverse <;> simp
    · cases h : List.lookup v rest.reverse <;> simp [hv, lookup_cons_ite]

theorem applyStatements_ledger (E : Env) (pieces : List String) (st : State E) :
    (applyStatements E pieces st).2.ledger = st.ledger ∧
      (applyStatements E pieces st).2.log = st.log := by
  induction pieces generalizing st with
  | nil => simp [applyStatements]
  | cons piece rest ih =>
    simp only [applyStatements]
    split
    · exact ih st
    · unfold dbExec
      cases h : E.exec st.schema (trimSpace piece) with
      | error err => simp
      | ok schema1 =>
        simp only
        have := ih { st with schema := schema1, history := st.history ++ [.exec (trimSpace piece) true] }
        simpa using this

theorem applyStatements_ok_history (E : Env) (pieces : List String) (st st1 : State E)
    (h : applyStatements E pieces st = (.ok (), st1)) :
    st1.history = st.history ++ (statementsOf pieces).map (fun stmt => DbCall.exec stmt true) := by
  induction pieces generalizing st with
  | nil =>
    simp [applyStatements] at h
    simp [statementsOf, ← h]
  | cons piece rest ih =>
    simp only [applyStatements] at h
    split at h
    · rename_i hempty
      rw [ih st h]
      simp [statementsOf, hempty]
    · rename_i hne
      unfold dbExec at h
      cases hx : E.exec st.schema (trimSpace piece) with
      | error err => simp [hx] at h
      | ok schema1 =>
        simp only [hx] at h
        rw [ih _ h]
        simp [statementsOf, hne]

theorem holdsKey_of_mem_keys (E : Env) (rows : List (String × String)) (v : String)
    (h : v ∈ keys rows) : holdsKey E rows v = true := by
  obtain ⟨c, hc⟩ := List.mem_map.1 h
  unfold holdsKey
  rw [List.any_eq_true]
  exact ⟨c, hc.1, by simp [hc.2]⟩

theorem holdsKey_append (E : Env) (rows more : List (String × String)) (v : String) :
    holdsKey E (rows ++ more) v = (holdsKey E rows v || holdsKey E more v) := by
  unfold holdsKey
  rw [List.any_append]

theorem holdsKey_singleton (E : Env) (row : String × String) (v : String) :
    holdsKey E [row] v = true ↔ E.weightString row.1 = E.weightString v := by
  simp [holdsKey]

theorem recordMigration_ok_fresh {E : Env} (st st2 : State E) (v c : String)
    (h : recordMigration st v c = (.ok (), st2)) : holdsKey E st.ledger v = false := by
  unfold recordMigration at h
  split at h
  · simp at h
  · rename_i hany
    simpa [holdsKey] using hany

theorem recordMigration_ok {E : Env} (st st2 : State E) (v c : String)
    (h : recordMigration st v c = (.ok (), st2)) :
    v ∉ keys st.ledger ∧ st2.ledger = st.ledger ++ [(v, c)] ∧
      st2.history = st.history ++ [.insert v c true] ∧ st2.log = st.log ∧
      st2.schema = st.schema := by
  unfold recordMigration at h
  split at h
  · simp at h
  · rename_i hany
    simp only [Prod.mk.injEq, true_and] at h
    subst h
    refine ⟨fun hk => hany (holdsKey_of_mem_keys E _ _ hk), rfl, rfl, rfl, rfl⟩

theorem migrateUpLoop_ok (E : Env) (applied : List (String × String)) (ms : List migration)
    (st st' : State E) (h : migrateUpLoop E applied ms st = (.ok (), st')) :
    st'.ledger = st.ledger ++ (pendingFiles applied ms).map (fun m => (m.version, m.checksum)) ∧
    (∀ m ∈ ms, ∀ c, applied.lookup m.version = some c → c = m.checksum) ∧
    (∀ m ∈ pendingFiles applied ms, m.version ∉ keys st.ledger) ∧
    ((pendingFiles applied ms).map (fun m => m.version)).Nodup ∧
    st'.history = st.history ++ ((pendingFiles applied ms).map upCalls).flatten ∧
    st'.log = st.log ++ (ms.map (upLines applied)).flatten := by
  induction ms generalizing st with
  | nil =>
    simp only [migrateUpLoop, Prod.mk.injEq, true_and] at h
    subst h
    simp [pendingFiles]
  | cons m rest ih =>
    simp only [migrateUpLoop] at h
    cases hl : applied.lookup m.version with
    | some c =>
      simp only [hl] at h
      split at h
      · simp at h
      · rename_i hc
        have hc : c = m.checksum := by simpa using hc
        obtain ⟨h1, h2, h3, h4, h5, h6⟩ := ih _ h
        have hp : pendingFiles applied (m :: rest) = pendingFiles applied rest := by
          simp [pendingFiles, hl]
        rw [hp]
        refine ⟨h1, ?_, h3, h4, h5, ?_⟩
        · intro m' hm' c' hc'
          rcases List.mem_cons.1 hm' with rfl | hm'
          · rw [hl] at hc'; cases hc'; exact hc
          · exact h2 m' hm' c' hc'
        · rw [h6]; simp [upLines, hl, State.logLine]
    | none =>
      simp only [hl] at h
      have hp : pendingFiles applied (m :: rest) = m :: pendingFiles applied rest := by
        simp [pendingFiles, hl]
      rcases ha : applyMigration E (st.logLine (.applying m.version)) m with ⟨_ | _, st1⟩
      · simp [ha] at h
      · simp only [ha] at h
        rcases hr : recordMigration st1 m.version m.checksum with ⟨_ | _, st2⟩
        · simp [hr] at h
        · simp only [hr] at h
          obtain ⟨h1, h2, h3, h4, h5, h6⟩ := ih _ h
          obtain ⟨r1, r2, r3, r4, _⟩ := recordMigration_ok st1 st2 _ _ hr
          have a1 := applyStatements_ledger E (splitStatements m.content) (st.logLine (.applying m.version))
          have a3 := applyStatements_ok_history E (splitStatements m.content) _ _ ha
          unfold applyMigration at ha
          rw [ha] at a1
          simp only [State.logLine] at a1 a3 h1 h3 h5 h6
          rw [hp]
          refine ⟨?_, ?_, ?_, ?_, ?_, ?_⟩
          · rw [h1, r2, a1.1]; simp
          · intro m' hm' c' hc'
            rcases List.mem_cons.1 hm' with rfl | hm'
            · rw [hl] at hc'; cases hc'
            · exact h2 m' hm' c' hc'
          · intro m' hm'
            rcases List.mem_cons.1 hm' with rfl | hm'
            · rw [← a1.1]; exact r1
            · have := h3 m' hm'
              rw [r2, a1.1] at this
              intro hk; apply this
              simp only [keys, List.map_append, List.mem_append] at hk ⊢
              exact Or.inl hk
          · rw [List.map_cons, List.nodup_cons]
            refine ⟨?_, h4⟩
            intro hmem
            obtain ⟨m', hm', hv⟩ := List.mem_map.1 hmem
            have := h3 m' hm'
            rw [r2] at this
            apply this
            simp [keys, hv]
          · rw [h5, r3, a3]; simp [upCalls]
          · rw [h6, r4, a1.2]; simp [upLines, hl]

theorem migrateUpLoop_append (E : Env) (applied : List (String × String))
    (pre rest : List migration) (st stp : State E)
    (h : migrateUpLoop E applied pre st = (.ok (), stp)) :
    migrateUpLoop E applied (pre ++ rest) st = migrateUpLoop E applied rest stp := by
  induction pre generalizing st with
  | nil =>
    simp only [migrateUpLoop, Prod.mk.injEq, true_and] at h
    subst h; rfl
  | cons m pre ih =>
    simp only [migrateUpLoop, List.cons_append] at h ⊢
    cases hl : applied.lookup m.version with
    | some c =>
      simp only [hl] at h ⊢
      split at h
      · simp at h
      · rename_i hc
        rw [if_neg hc]
        exact ih _ h
    | none =>
      simp only [hl] at h ⊢
      rcases ha : applyMigration E (st.logLine (.applying m.version)) m with ⟨_ | _, st1⟩
      · simp [ha] at h
      · simp only [ha] at h ⊢
        rcases hr : recordMigration st1 m.version m.checksum with ⟨_ | _, st2⟩
        · simp [hr] at h
        · simp only [hr] at h ⊢
          exact ih _ h

theorem migrateUpLoop_all_applied (E : Env) (applied : List (String × String))
    (ms : List migration) (st : State E)
    (h : ∀ m ∈ ms, applied.lookup m.version = some m.checksum) :
    migrateUpLoop E applied ms st =
      (.ok (), { st with log := st.log ++ ms.map (fun m => LogEntry.skipApplied m.version) }) := by
  induction ms generalizing st with
  | nil => simp [migrateUpLoop]
  | cons m rest ih =>
    simp only [migrateUpLoop, h m (List.mem_cons_self _ _)]
    rw [if_neg (by simp), ih _ (fun m' hm' => h m' (List.mem_cons_of_mem _ hm'))]
    simp [State.logLine]

theorem migrateDownLoop_ok (E : Env) (applied : List (String × String)) (ms : List migration)
    (st st' : State E) (h : migrateDownLoop E applied ms st = (.ok (), st')) :
    st'.ledger =
      st.ledger.filter (fun row => !((appliedFiles applied ms).any (fun m => m.version == row.1))) ∧
    st'.history = st.history ++ ((appliedFiles applied ms).map downCalls).flatten ∧
    st'.log = st.log ++ (ms.map (downLines applied)).flatten := by
  induction ms generalizing st with
  | nil =>
    simp only [migrateDownLoop, Prod.mk.injEq, true_and] at h
    subst h
    simp [appliedFiles]
  | cons m rest ih =>
    simp only [migrateDownLoop] at h
    cases hl : applied.lookup m.version with
    | none =>
      simp only [hl] at h
      obtain ⟨h1, h2, h3⟩ := ih _ h
      have hp : appliedFiles applied (m :: rest) = appliedFiles applied rest := by
        simp [appliedFiles, hl]
      rw [hp]
      refine ⟨h1, h2, ?_⟩
      rw [h3]; simp [downLines, hl, State.logLine]
    | some c =>
      simp only [hl] at h
      have hp : appliedFiles applied (m :: rest) = m :: appliedFiles applied rest := by
        simp [appliedFiles, hl]
      rcases ha : applyMigration E (st.logLine (.rollingBack m.version)) m with ⟨_ | _, st1⟩
      · simp [ha] at h
      · simp only [ha, removeMigrationRecord] at h
        obtain ⟨h1, h2, h3⟩ := ih _ h
        have a1 := applyStatements_ledger E (splitStatements m.content) (st.logLine (.rollingBack m.version))
        have a3 := applyStatements_ok_history E (splitStatements m.content) _ _ ha
        unfold applyMigration at ha
        rw [ha] at a1
        simp only [State.logLine] at a1 a3 h1 h2 h3
        rw [hp]
        refine ⟨?_, ?_, ?_⟩
        · rw [h1, a1.1, List.filter_filter]
          apply List.filter_congr
          intro row _
          simp only [List.any_cons, Bool.not_or, bne]
          by_cases hv : row.1 = m.version
          · simp [hv]
          · have b1 : (row.1 == m.version) = false := by simpa using hv
            have b2 : (m.version == row.1) = false := by simpa using fun e => hv (Eq.symm e)
            rw [b1, b2]; simp
        · rw [h2, a3]; simp [downCalls]
        · rw [h3, a1.2]; simp [downLines, hl]

theorem migrateDownLoop_none_applied (E : Env) (applied : List (String × String))
    (ms : List migration) (st : State E)
    (h : ∀ m ∈ ms, applied.lookup m.version = none) :
    migrateDownLoop E applied ms st =
      (.ok (), { st with log := st.log ++ ms.map (fun m => LogEntry.skipNotApplied m.version) }) := by
  induction ms generalizing st with
  | nil => simp [migrateDownLoop]
  | cons m rest ih =>
    simp only [migrateDownLoop, h m (List.mem_cons_self _ _)]
    rw [ih _ (fun m' hm' => h m' (List.mem_cons_of_mem _ hm'))]
    simp [State.logLine]

theorem ledgerChecksum_eq (rows : List (String × String)) (v : String) :
    ledgerChecksum rows v = rows.reverse.lookup v := by
  unfold ledgerChecksum
  rw [lookup_scanRows]
  cases List.lookup v rows.reverse <;> simp

theorem keys_reverse (rows : List (String × String)) (v : String) :
    v ∈ keys rows.reverse ↔ v ∈ keys rows := by
  simp [keys]

theorem ledgerChecksum_eq_none_iff (rows : List (String × String)) (v : String) :
    ledgerChecksum rows v = none ↔ v ∉ keys rows := by
  rw [ledgerChecksum_eq, lookup_eq_none_iff_not_mem_keys, keys_reverse]

theorem ledgerChecksum_append (l p : List (String × String)) (v : String) :
    ledgerChecksum (l ++ p) v = (ledgerChecksum p v).or (ledgerChecksum l v) := by
  simp only [ledgerChecksum_eq, List.reverse_append, List.lookup_append]

theorem lookup_of_mem_of_nodup (l : List (String × String)) (k c : String)
    (hmem : (k, c) ∈ l) (hnd : (keys l).Nodup) : l.lookup k = some c := by
  induction l with
  | nil => cases hmem
  | cons e rest ih =>
    obtain ⟨a, b⟩ := e
    rw [lookup_cons_ite]
    have hnd2 : a ∉ keys rest ∧ (keys rest).Nodup := by
      simpa [keys] using hnd
    rcases List.mem_cons.1 hmem with heq | hrest
    · cases heq; simp
    · have hka : k ≠ a := by
        intro e; subst e
        exact hnd2.1 (by simp only [keys, List.mem_map]; exact ⟨(k, c), hrest, rfl⟩)
      rw [if_neg hka]
      exact ih hrest hnd2.2

theorem ledgerChecksum_of_mem_of_nodup (l : List (String × String)) (k c : String)
    (hmem : (k, c) ∈ l) (hnd : (keys l).Nodup) : ledgerChecksum l k = some c := by
  rw [ledgerChecksum_eq]
  apply lookup_of_mem_of_nodup
  · simpa using hmem
  · simpa [keys] using hnd

theorem lookup_filter_key (l : List (String × String)) (p : String → Bool) (v : String) :
    (l.filter (fun row => p row.1)).lookup v = if p v then l.lookup v else none := by
  induction l with
  | nil => simp
  | cons e rest ih =>
    obtain ⟨a, b⟩ := e
    by_cases hpa : p a = true
    · rw [List.filter_cons_of_pos (by simpa using hpa), lookup_cons_ite, lookup_cons_ite, ih]
      by_cases hv : v = a
      · subst hv; simp [hpa]
      · simp [hv]
    · rw [List.filter_cons_of_neg (by simpa using hpa), lookup_cons_ite, ih]
      by_cases hv : v = a
      · subst hv; simp [hpa]
      · simp [hv]

theorem ledgerChecksum_filter_key (l : List (String × String)) (p : String → Bool) (v : String) :
    ledgerChecksum (l.filter (fun row => p row.1)) v = if p v then ledgerChecksum l v else none := by
  simp only [ledgerChecksum_eq, ← List.filter_reverse, lookup_filter_key]

theorem getAppliedMigrations_eq {E : Env} (st : State E) :
    getAppliedMigrations st = .ok (scanRows st.ledger []) := rfl

theorem pendingFiles_eq (rows : List (String × String)) (ms : List migration) :
    pendingFiles (scanRows rows []) ms =
      ms.filter (fun m => decide (m.version ∉ keys rows)) := by
  unfold pendingFiles
  apply List.filter_congr
  intro m _
  have := ledgerChecksum_eq_none_iff rows m.version
  unfold ledgerChecksum at this
  cases h : List.lookup m.version (scanRows rows []) with
  | none => simp [this.1 h]
  | some c =>
    have : ¬ (m.version ∉ keys rows) := fun hk => by
      rw [this.2 hk] at h; cases h
    simp [this]

theorem mem_keys_iff (l : List (String × String)) (v : String) :
    v ∈ keys l ↔ ∃ c, (v, c) ∈ l := by
  simp [keys]

theorem mem_newRows (rows : List (String × String)) (ms : List migration) (v c : String) :
    (v, c) ∈ newRows rows ms ↔
      ∃ m ∈ ms, m.version ∉ keys rows ∧ m.version = v ∧ m.checksum = c := by
  unfold newRows
  rw [List.mem_map]
  constructor
  · rintro ⟨m, hm, heq⟩
    rw [List.mem_filter, decide_eq_true_eq] at hm
    cases heq
    exact ⟨m, hm.1, hm.2, rfl, rfl⟩
  · rintro ⟨m, hm, hk, rfl, rfl⟩
    exact ⟨m, by rw [List.mem_filter, decide_eq_true_eq]; exact ⟨hm, hk⟩, rfl⟩

theorem keys_newRows (rows : List (String × String)) (ms : List migration) :
    keys (newRows rows ms) =
      (ms.filter (fun m => decide (m.version ∉ keys rows))).map (fun m => m.version) := by
  unfold newRows
  rw [keys, List.map_map]
  rfl

theorem migrateUp_ok_spec (E : Env) (fs : FS) (st st' : State E) (ms : List migration)
    (hload : loadMigrations E fs migrationsDir ".up.sql" = .ok ms)
    (hrun : migrateUp E fs st = (.ok (), st')) :
    st'.ledger = st.ledger ++ newRows st.ledger ms ∧
    (∀ m ∈ ms, ledgerChecksum st'.ledger m.version = some m.checksum) ∧
    (∀ v c, ledgerChecksum st.ledger v = some c → ledgerChecksum st'.ledger v = some c) ∧
    (∀ v, v ∈ keys st'.ledger → v ∈ keys st.ledger ∨ ∃ m ∈ ms, m.version = v) ∧
    (∀ v, v ∈ keys (newRows st.ledger ms) → v ∉ keys st.ledger) ∧
    (keys (newRows st.ledger ms)).Nodup := by
  unfold migrateUp at hrun
  rw [hload] at hrun
  simp only [getAppliedMigrations_eq] at hrun
  by_cases hlen : ms.length = 0
  · have hnil : ms = [] := List.length_eq_zero.1 hlen
    subst hnil
    simp only [List.length_nil, if_true, Prod.mk.injEq, true_and] at hrun
    subst hrun
    simp [newRows, State.logLine, keys]
  · rw [if_neg hlen] at hrun
    obtain ⟨h1, h2, h3, h4, _, _⟩ := migrateUpLoop_ok E _ ms st st' hrun
    rw [pendingFiles_eq] at h1 h3 h4
    have hnew : ∀ v, v ∈ keys (newRows st.ledger ms) → v ∉ keys st.ledger := by
      intro v hv
      obtain ⟨c, hc⟩ := (mem_keys_iff _ _).1 hv
      obtain ⟨m, _, hk, rfl, _⟩ := (mem_newRows _ _ _ _).1 hc
      exact hk
    have hnd : (keys (newRows st.ledger ms)).Nodup := by
      rw [keys_newRows]; exact h4
    have hledger : st'.ledger = st.ledger ++ newRows st.ledger ms := h1
    refine ⟨hledger, ?_, ?_, ?_, hnew, hnd⟩
    · intro m hm
      rw [hledger, ledgerChecksum_append]
      by_cases hk : m.version ∈ keys st.ledger
      · have hsome : ledgerChecksum st.ledger m.version ≠ none := fun hn =>
          (ledgerChecksum_eq_none_iff _ _).1 hn hk
        have hnone : ledgerChecksum (newRows st.ledger ms) m.version = none :=
          (ledgerChecksum_eq_none_iff _ _).2 (fun hv => hnew _ hv hk)
        rw [hnone]
        cases hc : ledgerChecksum st.ledger m.version with
        | none => exact absurd hc hsome
        | some c =>
          have := h2 m hm c hc
          simp [this]
      · have hmem : (m.version, m.checksum) ∈ newRows st.ledger ms :=
          (mem_newRows _ _ _ _).2 ⟨m, hm, hk, rfl, rfl⟩
        rw [ledgerChecksum_of_mem_of_nodup _ _ _ hmem hnd]
        simp
    · intro v c hc
      rw [hledger, ledgerChecksum_append]
      have hk : v ∈ keys st.ledger := by
        by_contra hk
        rw [(ledgerChecksum_eq_none_iff _ _).2 hk] at hc; cases hc
      have hnone : ledgerChecksum (newRows st.ledger ms) v = none :=
        (ledgerChecksum_eq_none_iff _ _).2 (fun hv => hnew _ hv hk)
      rw [hnone, hc]; simp
    · intro v hv
      rw [hledger] at hv
      obtain ⟨c, hc⟩ := (mem_keys_iff _ _).1 hv
      rcases List.mem_append.1 hc with hc | hc
      · exact Or.inl ((mem_keys_iff _ _).2 ⟨c, hc⟩)
      · obtain ⟨m, hm, _, rfl, _⟩ := (mem_newRows _ _ _ _).1 hc
        exact Or.inr ⟨m, hm, rfl⟩

theorem appliedFiles_eq (rows : List (String × String)) (ms : List migration) :
    appliedFiles (scanRows rows []) ms = ms.filter (fun m => decide (m.version ∈ keys rows)) := by
  unfold appliedFiles
  apply List.filter_congr
  intro m _
  have := ledgerChecksum_eq_none_iff rows m.version
  unfold ledgerChecksum at this
  cases h : List.lookup m.version (scanRows rows []) with
  | none => simp [this.1 h]
  | some c =>
    have : m.version ∈ keys rows := by
      by_contra hk
      rw [this.2 hk] at h; cases h
    simp [this]

theorem hasFile_iff (ms : List migration) (v : String) :
    hasFile ms v = true ↔ ∃ m ∈ ms, m.version = v := by
  simp [hasFile]

theorem migrateDown_ok_spec (E : Env) (fs : FS) (st st' : State E) (ms : List migration)
    (hload : loadMigrations E fs migrationsDir ".down.sql" = .ok ms)
    (hrun : migrateDown E fs st = (.ok (), st')) :
    st'.ledger = st.ledger.filter (fun row => !hasFile ms row.1) := by
  unfold migrateDown at hrun
  rw [hload] at hrun
  simp only [getAppliedMigrations_eq] at hrun
  by_cases hlen : ms.length = 0
  · have hnil : ms = [] := List.length_eq_zero.1 hlen
    subst hnil
    simp only [List.length_nil, if_true, Prod.mk.injEq, true_and] at hrun
    subst hrun
    simp [hasFile, State.logLine]
  · rw [if_neg hlen] at hrun
    obtain ⟨h1, _, _⟩ := migrateDownLoop_ok E _ _ st st' hrun
    rw [h1, appliedFiles_eq]
    apply List.filter_congr
    intro row hrow
    have hk : row.1 ∈ keys st.ledger := (mem_keys_iff _ _).2 ⟨row.2, hrow⟩
    congr 1
    rw [Bool.eq_iff_iff, List.any_eq_true, hasFile_iff]
    constructor
    · rintro ⟨m, hm, hv⟩
      rw [List.mem_filter, List.mem_reverse] at hm
      exact ⟨m, hm.1, by simpa using hv⟩
    · rintro ⟨m, hm, hv⟩
      refine ⟨m, ?_, by simpa using hv⟩
      rw [List.mem_filter, List.mem_reverse]
      exact ⟨hm, by rw [hv]; simpa using hk⟩

theorem startedVersions_append (l1 l2 : List LogEntry) :
    startedVersions (l1 ++ l2) = startedVersions l1 ++ startedVersions l2 := by
  simp [startedVersions, List.filterMap_append]

theorem recordMigration_log {E : Env} (st : State E) (v c : String) :
    (recordMigration st v c).2.log = st.log := by
  unfold recordMigration
  split <;> rfl

theorem migrateUpLoop_started (E : Env) (applied : List (String × String)) (ms : List migration)
    (st : State E) :
    ∃ pre rest, (pendingFiles applied ms).map (fun m => m.version) = pre ++ rest ∧
      startedVersions (migrateUpLoop E applied ms st).2.log = startedVersions st.log ++ pre ∧
      ((migrateUpLoop E applied ms st).1 = .ok () → rest = []) := by
  induction ms generalizing st with
  | nil => exact ⟨[], [], by simp [pendingFiles], by simp [migrateUpLoop], fun _ => rfl⟩
  | cons m rest ih =>
    simp only [migrateUpLoop]
    cases hl : applied.lookup m.version with
    | some c =>
      have hp : pendingFiles applied (m :: rest) = pendingFiles applied rest := by
        simp [pendingFiles, hl]
      rw [hp]
      simp only
      split
      · exact ⟨[], (pendingFiles applied rest).map (fun m => m.version), by simp, by simp, fun h => by simp at h⟩
      · obtain ⟨pre, rst, h1, h2, h3⟩ := ih (st.logLine (.skipApplied m.version))
        refine ⟨pre, rst, h1, ?_, h3⟩
        rw [h2]; simp [State.logLine, startedVersions]
    | none =>
      have hp : pendingFiles applied (m :: rest) = m :: pendingFiles applied rest := by
        simp [pendingFiles, hl]
      rw [hp]
      simp only
      have a1 := (applyStatements_ledger E (splitStatements m.content)
        (st.logLine (.applying m.version))).2
      rcases ha : applyMigration E (st.logLine (.applying m.version)) m with ⟨_ | _, st1⟩
      · unfold applyMigration at ha
        rw [ha] at a1
        simp only at a1 ⊢
        refine ⟨[m.version], (pendingFiles applied rest).map (fun m => m.version), by simp, ?_, fun h => by simp at h⟩
        rw [a1]; simp [State.logLine, startedVersions]
      · unfold applyMigration at ha
        rw [ha] at a1
        simp only at a1 ⊢
        have r1 := recordMigration_log st1 m.version m.checksum
        rcases hr : recordMigration st1 m.version m.checksum with ⟨_ | _, st2⟩
        · rw [hr] at r1
          simp only at r1 ⊢
          refine ⟨[m.version], (pendingFiles applied rest).map (fun m => m.version), by simp, ?_, fun h => by simp at h⟩
          rw [r1, a1]; simp [State.logLine, startedVersions]
        · rw [hr] at r1
          simp only at r1 ⊢
          obtain ⟨pre, rst, h1, h2, h3⟩ := ih (st2.logLine (.applied m.version))
          refine ⟨m.version :: pre, rst, by simp [h1], ?_, h3⟩
          rw [h2]; simp [State.logLine, startedVersions, r1, a1]

theorem migrateDownLoop_started (E : Env) (applied : List (String × String)) (ms : List migration)
    (st : State E) :
    ∃ pre rest, (appliedFiles applied ms).map (fun m => m.version) = pre ++ rest ∧
      startedVersions (migrateDownLoop E applied ms st).2.log = startedVersions st.log ++ pre ∧
      ((migrateDownLoop E applied ms st).1 = .ok () → rest = []) := by
  induction ms generalizing st with
  | nil => exact ⟨[], [], by simp [appliedFiles], by simp [migrateDownLoop], fun _ => rfl⟩
  | cons m rest ih =>
    simp only [migrateDownLoop]
    cases hl : applied.lookup m.version with
    | none =>
      have hp : appliedFiles applied (m :: rest) = appliedFiles applied rest := by
        simp [appliedFiles, hl]
      rw [hp]
      simp only
      obtain ⟨pre, rst, h1, h2, h3⟩ := ih (st.logLine (.skipNotApplied m.version))
      refine ⟨pre, rst, h1, ?_, h3⟩
      rw [h2]; simp [State.logLine, startedVersions]
    | some c =>
      have hp : appliedFiles applied (m :: rest) = m :: appliedFiles applied rest := by
        simp [appliedFiles, hl]
      rw [hp]
      simp only
      have a1 := (applyStatements_ledger E (splitStatements m.content)
        (st.logLine (.rollingBack m.version))).2
      rcases ha : applyMigration E (st.logLine (.rollingBack m.version)) m with ⟨_ | _, st1⟩
      · unfold applyMigration at ha
        rw [ha] at a1
        simp only at a1 ⊢
        refine ⟨[m.version], (appliedFiles applied rest).map (fun m => m.version), by simp, ?_, fun h => by simp at h⟩
        rw [a1]; simp [State.logLine, startedVersions]
      · unfold applyMigration at ha
        rw [ha] at a1
        simp only [removeMigrationRecord] at a1 ⊢
        obtain ⟨pre, rst, h1, h2, h3⟩ := ih
          (State.logLine { st1 with
            ledger := st1.ledger.filter (fun row => row.1 != m.version)
            history := st1.history ++ [.delete m.version] } (.rolledBack m.version))
        refine ⟨m.version :: pre, rst, by simp [h1], ?_, h3⟩
        rw [h2]; simp [State.logLine, startedVersions, a1]

theorem migrateDown_ok_loop (E : Env) (fs : FS) (st st' : State E) (ms : List migration)
    (hload : loadMigrations E fs migrationsDir ".down.sql" = .ok ms)
    (hrun : migrateDown E fs st = (.ok (), st')) :
    st'.history = st.history ++
      ((ms.reverse.filter (fun m => decide (m.version ∈ keys st.ledger))).map downCalls).flatten ∧
    (∀ m ∈ ms, m.version ∉ keys st.ledger → LogEntry.skipNotApplied m.version ∈ st'.log) := by
  unfold migrateDown at hrun
  rw [hload] at hrun
  simp only [getAppliedMigrations_eq] at hrun
  by_cases hlen : ms.length = 0
  · have hnil : ms = [] := List.length_eq_zero.1 hlen
    subst hnil
    simp only [List.length_nil, if_true, Prod.mk.injEq, true_and] at hrun
    subst hrun
    simp [State.logLine]
  · rw [if_neg hlen] at hrun
    obtain ⟨_, h2, h3⟩ := migrateDownLoop_ok E _ _ st st' hrun
    rw [appliedFiles_eq] at h2
    refine ⟨h2, ?_⟩
    intro m hm hk
    rw [h3]
    apply List.mem_append_right
    rw [List.mem_flatten]
    refine ⟨downLines (scanRows st.ledger []) m, List.mem_map.2 ⟨m, List.mem_reverse.2 hm, rfl⟩, ?_⟩
    have hnone : List.lookup m.version (scanRows st.ledger []) = none :=
      (ledgerChecksum_eq_none_iff st.ledger m.version).2 hk
    simp [downLines, hnone]

theorem upTargets_eq (rows : List (String × String)) (ms : List migration) :
    (pendingFiles (scanRows rows []) ms).map (fun m => m.version) = upTargets rows ms := by
  rw [pendingFiles_eq]; rfl

theorem downTargets_eq (rows : List (String × String)) (ms : List migration) :
    (appliedFiles (scanRows rows []) ms.reverse).map (fun m => m.version) = downTargets rows ms := by
  rw [appliedFiles_eq]; rfl

theorem ledgerChecksum_after_down (rows : List (String × String)) (ms : List migration)
    (v : String) :
    ledgerChecksum (rows.filter (fun row => !hasFile ms row.1)) v =
      if hasFile ms v then none else ledgerChecksum rows v := by
  rw [ledgerChecksum_filter_key rows (fun k => !hasFile ms k) v]
  cases hasFile ms v <;> simp

theorem showStatus_eq (E : Env) (fs : FS) (st : State E) (ms : List migration)
    (hload : loadMigrations E fs migrationsDir ".up.sql" = .ok ms) (hne : ms ≠ []) :
    showStatus E fs st = (.ok (some (statusReportOf ms st.ledger)), st) := by
  unfold showStatus
  rw [hload]
  have hlen : ¬ ms.length = 0 := fun h => hne (List.length_eq_zero.1 h)
  simp only [getAppliedMigrations_eq]
  rw [if_neg hlen]
  rfl

theorem buildStatuses_perm (ms : List migration) (applied : List (String × String)) :
    List.Perm (buildStatuses ms applied)
      (ms.map (fileStatus applied) ++ orphanStatuses ms applied) :=
  List.perm_insertionSort _ _

theorem fileStatus_mem (ms : List migration) (rows : List (String × String)) (m : migration)
    (hm : m ∈ ms) :
    fileStatus (scanRows rows []) m ∈ (statusReportOf ms rows).statuses := by
  unfold statusReportOf printStatuses
  simp only
  rw [(buildStatuses_perm ms _).mem_iff]
  exact List.mem_append_left _ (List.mem_map.2 ⟨m, hm, rfl⟩)

theorem statusColumns_pending (s : migrationStatus) (h : s.applied = false) :
    statusColumns s = ("⏳ PENDING", "—") := by
  simp [statusColumns, h]

theorem statusColumns_mismatch (s : migrationStatus) (h1 : s.applied = true)
    (h2 : s.checksumMatch = false) :
    statusColumns s = ("❌ APPLIED", "⚠️  MISMATCH") := by
  simp [statusColumns, h1, h2]

theorem statusColumns_ok (s : migrationStatus) (h1 : s.applied = true)
    (h2 : s.checksumMatch = true) :
    statusColumns s = ("✓ APPLIED", "OK") := by
  simp [statusColumns, h1, h2]

theorem keys_mapSet (m : List (String × String)) (k c : String) :
    keys (mapSet m k c) = if k ∈ keys m then keys m else keys m ++ [k] := by
  unfold mapSet
  by_cases h : m.any (fun e => e.1 == k) = true
  · have hk : k ∈ keys m := (any_key_eq_true_iff m k).1 h
    rw [if_pos h, if_pos hk]
    unfold keys
    rw [List.map_map]
    apply List.map_congr_left
    intro e _
    by_cases he : e.1 = k
    · simp [he]
    · simp [he]
  · have hk : k ∉ keys m := fun hk => h ((any_key_eq_true_iff m k).2 hk)
    rw [if_neg h, if_neg hk]
    simp [keys]

theorem keys_scanRows_nodup (rows m : List (String × String)) (hm : (keys m).Nodup) :
    (keys (scanRows rows m)).Nodup := by
  induction rows generalizing m with
  | nil => exact hm
  | cons r rest ih =>
    have : scanRows (r :: rest) m = scanRows rest (mapSet m r.1 r.2) := rfl
    rw [this]
    apply ih
    rw [keys_mapSet]
    by_cases hk : r.1 ∈ keys m
    · rw [if_pos hk]; exact hm
    · rw [if_neg hk]
      rw [List.nodup_append]
      refine ⟨hm, List.nodup_singleton _, ?_⟩
      intro a ha hb
      rw [List.mem_singleton] at hb
      subst hb
      exact hk ha

theorem mem_keys_scanRows (rows : List (String × String)) (v : String) :
    v ∈ keys (scanRows rows []) ↔ v ∈ keys rows := by
  have h1 := lookup_eq_none_iff_not_mem_keys (scanRows rows []) v
  have h2 := ledgerChecksum_eq_none_iff rows v
  unfold ledgerChecksum at h2
  constructor
  · intro h
    by_contra hk
    exact (h1.1 (h2.2 hk)) h
  · intro h
    by_contra hk
    exact (h2.1 (h1.2 hk)) h

theorem orphanStatuses_versions (ms : List migration) (applied : List (String × String)) :
    (orphanStatuses ms applied).map (fun s => s.version) =
      (keys applied).filter (fun v => !hasFile ms v) := by
  induction applied with
  | nil => rfl
  | cons e rest ih =>
    obtain ⟨v, c⟩ := e
    simp only [orphanStatuses]
    have hk : keys ((v, c) :: rest) = v :: keys rest := rfl
    rw [hk]
    by_cases hf : hasFile ms v = true
    · have hf2 : (ms.any (fun m => m.version == v)) = true := hf
      rw [List.filter_cons_of_neg (by simp [hf])]
      simp only [hf2, Bool.not_true, Bool.false_eq_true, if_false]
      exact ih
    · have hf2 : (ms.any (fun m => m.version == v)) = false := by
        simpa [hasFile] using hf
      rw [List.filter_cons_of_pos (by simpa using hf)]
      simp only [hf2, Bool.not_false, if_true, List.map_cons]
      rw [ih]

theorem fileStatus_version (applied : List (String × String)) (m : migration) :
    (fileStatus applied m).version = m.version := by
  unfold fileStatus
  cases List.lookup m.version applied <;> rfl

theorem statuses_versions_perm (ms : List migration) (rows : List (String × String)) :
    List.Perm ((statusReportOf ms rows).statuses.map (fun s => s.version))
      (ms.map (fun m => m.version) ++
        (keys (scanRows rows [])).filter (fun v => !hasFile ms v)) := by
  have h := (buildStatuses_perm ms (scanRows rows [])).map (fun s => s.version)
  rw [List.map_append, List.map_map, orphanStatuses_versions] at h
  have hf : (fun s : migrationStatus => s.version) ∘ fileStatus (scanRows rows []) =
      fun m => m.version := by
    funext m; exact fileStatus_version _ m
  rw [hf] at h
  exact h

theorem countStatuses_mismatchCount (l : List migrationStatus) (counts : statusCounts) :
    (countStatuses l counts).mismatchCount =
      counts.mismatchCount + l.countP (fun s => s.applied && !s.checksumMatch) := by
  induction l generalizing counts with
  | nil => simp [countStatuses]
  | cons s rest ih =>
    simp only [countStatuses]
    cases ha : s.applied <;> cases hc : s.checksumMatch <;>
      simp [ih, List.countP_cons, ha, hc]
    all_goals omega

theorem fileStatus_mismatch (rows : List (String × String)) (m : migration) :
    ((fileStatus (scanRows rows []) m).applied &&
      !(fileStatus (scanRows rows []) m).checksumMatch) = fileMismatch rows m := by
  unfold fileStatus fileMismatch ledgerChecksum
  cases List.lookup m.version (scanRows rows []) with
  | none => rfl
  | some c =>
    by_cases hc : c = m.checksum
    · simp [hc]
    · simp [hc]

theorem orphanStatuses_countP (ms : List migration) (applied : List (String × String)) :
    (orphanStatuses ms applied).countP (fun s => s.applied && !s.checksumMatch) =
      applied.countP (fun e => !hasFile ms e.1) := by
  induction applied with
  | nil => rfl
  | cons e rest ih =>
    obtain ⟨v, c⟩ := e
    simp only [orphanStatuses]
    by_cases hf : hasFile ms v = true
    · have hf2 : (ms.any (fun m => m.version == v)) = true := hf
      simp only [hf2, Bool.not_true, Bool.false_eq_true, if_false]
      rw [ih, List.countP_cons_of_neg]
      simp [hf]
    · have hf2 : (ms.any (fun m => m.version == v)) = false := by
        simpa [hasFile] using hf
      simp only [hf2, Bool.not_false, if_true]
      rw [List.countP_cons_of_pos, List.countP_cons_of_pos, ih]
      · simpa using hf
      · rfl

theorem orphanStatuses_mem (ms : List migration) (applied : List (String × String))
    (v c : String) (he : (v, c) ∈ applied) (hf : hasFile ms v = false) :
    ({ version := v, applied := true, appliedChecksum := c, checksumMatch := false,
       currentChecksum := "" } : migrationStatus) ∈ orphanStatuses ms applied := by
  induction applied with
  | nil => cases he
  | cons e rest ih =>
    obtain ⟨v2, c2⟩ := e
    simp only [orphanStatuses]
    rcases List.mem_cons.1 he with heq | hrest
    · cases heq
      have hf2 : (ms.any (fun m => m.version == v)) = false := hf
      simp [hf2]
    · split
      · exact List.mem_cons_of_mem _ (ih hrest)
      · exact ih hrest

theorem loadMigrations_fsThree_up :
    loadMigrations sampleEnv fsThree migrationsDir ".up.sql" = .ok upsThree := by decide

theorem loadMigrations_fsThree_down :
    loadMigrations sampleEnv fsThree migrationsDir ".down.sql" = .ok downsThree := by decide

/-! ## The Apply Engine: forward runs -/

/-- C1. When the loop of `migrateUp` reaches a migration whose version the ledger
holds with a checksum other than the checksum of the file, `migrateUp` returns
the mismatch error and leaves the state exactly as it was when that migration
was reached: no statement of it or of a later migration is executed, and no
ledger entry is recorded for them. -/
theorem migrateUp_stops_at_mismatch (E : Env) (fs : FS) (st stp : State E)
    (pre post : List migration) (m : migration) (appliedChecksum : String)
    (hload : loadMigrations E fs migrationsDir ".up.sql" = .ok (pre ++ m :: post))
    (hentry : ledgerChecksum st.ledger m.version = some appliedChecksum)
    (hdiff : appliedChecksum ≠ m.checksum)
    (hreach : migrateUpLoop E (scanRows st.ledger []) pre st = (.ok (), stp)) :
    migrateUp E fs st =
      (.error (checksumMismatchError m.version appliedChecksum m.checksum), stp) := by
  unfold migrateUp
  rw [hload]
  simp only [getAppliedMigrations_eq]
  rw [if_neg (by simp), migrateUpLoop_append E _ pre (m :: post) st stp hreach]
  unfold ledgerChecksum at hentry
  simp only [migrateUpLoop, hentry]
  rw [if_pos hdiff]

/-- C1 on a run: the first file is applied, the second is in the ledger with a stale
checksum, and the run stops there with the third file untouched. -/
theorem migrateUp_stops_at_mismatch_witness :
    migrateUp sampleEnv fsThree (sampleState [("0002_users", "stale")]) =
      (.error (checksumMismatchError "0002_users" "stale"
          (calculateChecksum sampleEnv "CREATE TABLE users (id INT); CREATE INDEX i ON users (id);")),
        { schema := ["CREATE TABLE products (id INT)"]
          ledger := [("0002_users", "stale"),
            ("0001_init", calculateChecksum sampleEnv "CREATE TABLE products (id INT);")]
          history := [.exec "CREATE TABLE products (id INT)" true,
            .insert "0001_init" (calculateChecksum sampleEnv "CREATE TABLE products (id INT);") true]
          log := [.applying "0001_init", .applied "0001_init"] }) :=
  migrateUp_stops_at_mismatch sampleEnv fsThree (sampleState [("0002_users", "stale")]) _
    [sampleMigration "0001_init" ".up.sql" "CREATE TABLE products (id INT);"]
    [sampleMigration "0003_images" ".up.sql" "CREATE TABLE images (id INT);"]
    (sampleMigration "0002_users" ".up.sql" "CREATE TABLE users (id INT); CREATE INDEX i ON users (id);")
    "stale" loadMigrations_fsThree_up (by decide) (by decide) (by rfl)

/-- C2. When `migrateUp` succeeds, the ledger it leaves is the ledger it found
followed by one row, version and file checksum, for each loaded version that
had no entry; as a mapping it sends every loaded version to the checksum of its
file, keeps every entry it had with the same checksum, and holds no version
that was neither in the ledger before nor loaded; versions stay unique in the
ledger when they were. -/
theorem migrateUp_success_ledger (E : Env) (fs : FS) (st st' : State E) (ms : List migration)
    (hload : loadMigrations E fs migrationsDir ".up.sql" = .ok ms)
    (hrun : migrateUp E fs st = (.ok (), st')) :
    st'.ledger = st.ledger ++ newRows st.ledger ms ∧
    (∀ m ∈ ms, ledgerChecksum st'.ledger m.version = some m.checksum) ∧
    (∀ v c, ledgerChecksum st.ledger v = some c → ledgerChecksum st'.ledger v = some c) ∧
    (∀ v, v ∈ keys st'.ledger → v ∈ keys st.ledger ∨ ∃ m ∈ ms, m.version = v) ∧
    ((keys st.ledger).Nodup → (keys st'.ledger).Nodup) := by
  obtain ⟨hledger, hfiles, hkept, hkeys, hfresh, hnodup⟩ :=
    migrateUp_ok_spec E fs st st' ms hload hrun
  refine ⟨hledger, hfiles, hkept, hkeys, ?_⟩
  intro hnd
  have hsplit : keys st'.ledger = keys st.ledger ++ keys (newRows st.ledger ms) := by
    rw [hledger]; exact List.map_append _ _ _
  rw [hsplit, List.nodup_append]
  exact ⟨hnd, hnodup, fun v hv hv2 => hfresh v hv2 hv⟩

/-- C2 on a run over three forward files and a ledger with one other version. -/
theorem migrateUp_success_ledger_witness :
    (migrateUp sampleEnv fsThree (sampleState [("0000_legacy", "feed")])).2.ledger =
        [("0000_legacy", "feed")] ++ newRows [("0000_legacy", "feed")] upsThree ∧
    (∀ m ∈ upsThree,
      ledgerChecksum (migrateUp sampleEnv fsThree (sampleState [("0000_legacy", "feed")])).2.ledger
        m.version = some m.checksum) ∧
    (∀ v c, ledgerChecksum [("0000_legacy", "feed")] v = some c →
      ledgerChecksum (migrateUp sampleEnv fsThree (sampleState [("0000_legacy", "feed")])).2.ledger
        v = some c) ∧
    (∀ v, v ∈ keys (migrateUp sampleEnv fsThree (sampleState [("0000_legacy", "feed")])).2.ledger →
      v ∈ keys [("0000_legacy", "feed")] ∨ ∃ m ∈ upsThree, m.version = v) ∧
    ((keys [("0000_legacy", "feed")]).Nodup →
      (keys (migrateUp sampleEnv fsThree (sampleState [("0000_legacy", "feed")])).2.ledger).Nodup) :=
  migrateUp_success_ledger sampleEnv fsThree (sampleState [("0000_legacy", "feed")]) _ upsThree
    loadMigrations_fsThree_up (by rfl)

/-- C3. After a successful `migrateUp`, a second `migrateUp` over the same files
succeeds, logs one skip line per loaded version (or that no migrations were
found), and leaves the schema, the ledger and the history of requests as they
were: no statement is executed. -/
theorem migrateUp_idempotent (E : Env) (fs : FS) (st st1 : State E) (ms : List migration)
    (hload : loadMigrations E fs migrationsDir ".up.sql" = .ok ms)
    (hrun : migrateUp E fs st = (.ok (), st1)) :
    migrateUp E fs st1 =
      (.ok (),
        { st1 with
          log := st1.log ++
            (if ms.length = 0 then [LogEntry.noMigrations]
             else ms.map (fun m => LogEntry.skipApplied m.version)) }) := by
  obtain ⟨_, hall, _, _⟩ := migrateUp_ok_spec E fs st st1 ms hload hrun
  unfold migrateUp
  rw [hload]
  simp only [getAppliedMigrations_eq]
  by_cases hlen : ms.length = 0
  · simp [hlen, State.logLine]
  · rw [if_neg hlen, if_neg hlen]
    exact migrateUpLoop_all_applied E _ ms st1 hall

/-- C3 on a run over three forward files, from an empty ledger. -/
theorem migrateUp_idempotent_witness :
    migrateUp sampleEnv fsThree (migrateUp sampleEnv fsThree (sampleState [])).2 =
      (.ok (),
        { (migrateUp sampleEnv fsThree (sampleState [])).2 with
          log := (migrateUp sampleEnv fsThree (sampleState [])).2.log ++
            (if upsThree.length = 0 then [LogEntry.noMigrations]
             else upsThree.map (fun m => LogEntry.skipApplied m.version)) }) :=
  migrateUp_idempotent sampleEnv fsThree (sampleState []) _ upsThree
    loadMigrations_fsThree_up (by rfl)

/-! ## The Apply Engine: reverse runs -/

/-- C4. When `migrateDown` succeeds, the ledger it leaves is the ledger it found
without the rows of the versions that have a loaded reverse file, and the rows
of the other versions are kept; the requests made are, for each loaded reverse
migration whose version the ledger held, from the last loaded to the first, its
statements followed by the delete of its row, so that a reverse migration whose
version the ledger did not hold has no statement executed and is logged as
skipped. -/
theorem migrateDown_success_ledger (E : Env) (fs : FS) (st st' : State E) (ms : List migration)
    (hload : loadMigrations E fs migrationsDir ".down.sql" = .ok ms)
    (hrun : migrateDown E fs st = (.ok (), st')) :
    st'.ledger = st.ledger.filter (fun row => !hasFile ms row.1) ∧
    (∀ row ∈ st.ledger, (∀ m ∈ ms, m.version ≠ row.1) → row ∈ st'.ledger) ∧
    (∀ v, (∃ m ∈ ms, m.version = v) → v ∉ keys st'.ledger) ∧
    st'.history = st.history ++
      ((ms.reverse.filter (fun m => decide (m.version ∈ keys st.ledger))).map downCalls).flatten ∧
    (∀ m ∈ ms, m.version ∉ keys st.ledger → LogEntry.skipNotApplied m.version ∈ st'.log) := by
  have hledger := migrateDown_ok_spec E fs st st' ms hload hrun
  obtain ⟨hhist, hlog⟩ := migrateDown_ok_loop E fs st st' ms hload hrun
  refine ⟨hledger, ?_, ?_, hhist, hlog⟩
  · intro row hrow hno
    rw [hledger, List.mem_filter]
    refine ⟨hrow, ?_⟩
    have : hasFile ms row.1 = false := by
      cases h : hasFile ms row.1 with
      | false => rfl
      | true =>
        obtain ⟨m, hm, hv⟩ := (hasFile_iff ms row.1).1 h
        exact absurd hv (hno m hm)
    simp [this]
  · intro v hv hk
    obtain ⟨c, hc⟩ := (mem_keys_iff _ _).1 hk
    rw [hledger, List.mem_filter] at hc
    have : hasFile ms v = true := (hasFile_iff ms v).2 hv
    simp [this] at hc

/-- C4 on a run over two reverse files: one version is rolled back, one reverse
file is skipped, and one ledger entry has no reverse file. -/
theorem migrateDown_success_ledger_witness :
    (migrateDown sampleEnv fsThree
        (sampleState [("0002_users", "aa"), ("0003_images", "bb")])).2.ledger =
      [("0002_users", "aa"), ("0003_images", "bb")].filter (fun row => !hasFile downsThree row.1) ∧
    (∀ row ∈ [("0002_users", "aa"), ("0003_images", "bb")],
      (∀ m ∈ downsThree, m.version ≠ row.1) →
      row ∈ (migrateDown sampleEnv fsThree
        (sampleState [("0002_users", "aa"), ("0003_images", "bb")])).2.ledger) ∧
    (∀ v, (∃ m ∈ downsThree, m.version = v) →
      v ∉ keys (migrateDown sampleEnv fsThree
        (sampleState [("0002_users", "aa"), ("0003_images", "bb")])).2.ledger) ∧
    (migrateDown sampleEnv fsThree
        (sampleState [("0002_users", "aa"), ("0003_images", "bb")])).2.history =
      [] ++ ((downsThree.reverse.filter (fun m =>
        decide (m.version ∈ keys [("0002_users", "aa"), ("0003_images", "bb")]))).map
          downCalls).flatten ∧
    (∀ m ∈ downsThree, m.version ∉ keys [("0002_users", "aa"), ("0003_images", "bb")] →
      LogEntry.skipNotApplied m.version ∈ (migrateDown sampleEnv fsThree
        (sampleState [("0002_users", "aa"), ("0003_images", "bb")])).2.log) :=
  migrateDown_success_ledger sampleEnv fsThree
    (sampleState [("0002_users", "aa"), ("0003_images", "bb")]) _ downsThree
    loadMigrations_fsThree_down (by rfl)

/-- C5 (amended). `migrateDown` visits the loaded reverse migrations from the last
of the loaded list to the first, and `migrateUp` the loaded forward migrations
from the first to the last: in every run the versions whose roll-back (or
application) is started are an initial part of the loaded versions that have
(or have not) a ledger entry, taken in that order, and all of them when the run
succeeds.  When the loaded list is strictly ascending by version, that order is
strictly descending by version for `migrateDown` and strictly ascending for
`migrateUp`. -/
theorem visit_order (E : Env) (fs : FS) (st : State E) (ups downs : List migration)
    (hup : loadMigrations E fs migrationsDir ".up.sql" = .ok ups)
    (hdown : loadMigrations E fs migrationsDir ".down.sql" = .ok downs) :
    (∃ pre rest, downTargets st.ledger downs = pre ++ rest ∧
      startedVersions (migrateDown E fs st).2.log = startedVersions st.log ++ pre ∧
      ((migrateDown E fs st).1 = .ok () → rest = [])) ∧
    (downs.Pairwise (fun a b => strLt a.version b.version) →
      (downTargets st.ledger downs).Pairwise (fun a b => strLt b a)) ∧
    (∃ pre rest, upTargets st.ledger ups = pre ++ rest ∧
      startedVersions (migrateUp E fs st).2.log = startedVersions st.log ++ pre ∧
      ((migrateUp E fs st).1 = .ok () → rest = [])) ∧
    (ups.Pairwise (fun a b => strLt a.version b.version) →
      (upTargets st.ledger ups).Pairwise (fun a b => strLt a b)) := by
  refine ⟨?_, ?_, ?_, ?_⟩
  · unfold migrateDown
    rw [hdown]
    simp only [getAppliedMigrations_eq]
    by_cases hlen : downs.length = 0
    · have hnil : downs = [] := List.length_eq_zero.1 hlen
      subst hnil
      exact ⟨[], [], by simp [downTargets], by simp [State.logLine, startedVersions], fun _ => rfl⟩
    · rw [if_neg hlen, ← downTargets_eq]
      exact migrateDownLoop_started E _ _ st
  · intro hsorted
    unfold downTargets
    rw [List.pairwise_map]
    apply List.Pairwise.filter
    rw [List.pairwise_reverse]
    exact hsorted
  · unfold migrateUp
    rw [hup]
    simp only [getAppliedMigrations_eq]
    by_cases hlen : ups.length = 0
    · have hnil : ups = [] := List.length_eq_zero.1 hlen
      subst hnil
      exact ⟨[], [], by simp [upTargets], by simp [State.logLine, startedVersions], fun _ => rfl⟩
    · rw [if_neg hlen, ← upTargets_eq]
      exact migrateUpLoop_started E _ _ st
  · intro hsorted
    unfold upTargets
    rw [List.pairwise_map]
    exact List.Pairwise.filter _ hsorted

/-- C5 (amended) on the files of `fsThree`, with the second version in the ledger. -/
theorem visit_order_witness :
    (∃ pre rest, downTargets [("0002_users", "aa")] downsThree = pre ++ rest ∧
      startedVersions (migrateDown sampleEnv fsThree (sampleState [("0002_users", "aa")])).2.log =
        startedVersions [] ++ pre ∧
      ((migrateDown sampleEnv fsThree (sampleState [("0002_users", "aa")])).1 = .ok () →
        rest = [])) ∧
    (downsThree.Pairwise (fun a b => strLt a.version b.version) →
      (downTargets [("0002_users", "aa")] downsThree).Pairwise (fun a b => strLt b a)) ∧
    (∃ pre rest, upTargets [("0002_users", "aa")] upsThree = pre ++ rest ∧
      startedVersions (migrateUp sampleEnv fsThree (sampleState [("0002_users", "aa")])).2.log =
        startedVersions [] ++ pre ∧
      ((migrateUp sampleEnv fsThree (sampleState [("0002_users", "aa")])).1 = .ok () →
        rest = [])) ∧
    (upsThree.Pairwise (fun a b => strLt a.version b.version) →
      (upTargets [("0002_users", "aa")] upsThree).Pairwise (fun a b => strLt a b)) :=
  visit_order sampleEnv fsThree (sampleState [("0002_users", "aa")]) upsThree downsThree
    loadMigrations_fsThree_up loadMigrations_fsThree_down

/-- C5, as stated, fails: with the files `0001-a` and `0001` both directions
succeed, `migrateDown` rolls back `0001` before `0001-a`, in ascending version
order, and `migrateUp` applies `0001-a` before `0001`, in descending version
order (the roll-back is run on the database the forward run leaves, with a fresh
log). -/
theorem visit_order_not_by_version :
    (migrateUp sampleEnv fsOrder (sampleState [])).1 = .ok () ∧
    startedVersions (migrateUp sampleEnv fsOrder (sampleState [])).2.log = ["0001-a", "0001"] ∧
    (migrateDown sampleEnv fsOrder
      { (migrateUp sampleEnv fsOrder (sampleState [])).2 with log := [] }).1 = .ok () ∧
    startedVersions (migrateDown sampleEnv fsOrder
      { (migrateUp sampleEnv fsOrder (sampleState [])).2 with log := [] }).2.log =
        ["0001", "0001-a"] ∧
    strLt "0001" "0001-a" := by
  decide

/-- C6. After a successful `migrateDown`, a second `migrateDown` over the same
files succeeds, logs one skip line per loaded version (or that no down
migrations were found), and leaves the schema, the ledger and the history of
requests as they were: no statement is executed. -/
theorem migrateDown_idempotent (E : Env) (fs : FS) (st st1 : State E) (ms : List migration)
    (hload : loadMigrations E fs migrationsDir ".down.sql" = .ok ms)
    (hrun : migrateDown E fs st = (.ok (), st1)) :
    migrateDown E fs st1 =
      (.ok (),
        { st1 with
          log := st1.log ++
            (if ms.length = 0 then [LogEntry.noDownMigrations]
             else ms.reverse.map (fun m => LogEntry.skipNotApplied m.version)) }) := by
  have hledger := migrateDown_ok_spec E fs st st1 ms hload hrun
  unfold migrateDown
  rw [hload]
  simp only [getAppliedMigrations_eq]
  by_cases hlen : ms.length = 0
  · simp [hlen, State.logLine]
  · rw [if_neg hlen, if_neg hlen]
    apply migrateDownLoop_none_applied
    intro m hm
    apply (ledgerChecksum_eq_none_iff st1.ledger m.version).2
    intro hk
    obtain ⟨c, hc⟩ := (mem_keys_iff _ _).1 hk
    rw [hledger, List.mem_filter] at hc
    have : hasFile ms m.version = true := (hasFile_iff ms m.version).2 ⟨m, List.mem_reverse.1 hm, rfl⟩
    simp [this] at hc

/-- C6 on a run over two reverse files. -/
theorem migrateDown_idempotent_witness :
    migrateDown sampleEnv fsThree
        (migrateDown sampleEnv fsThree (sampleState [("0001_init", "aa"), ("0009_other", "bb")])).2 =
      (.ok (),
        { (migrateDown sampleEnv fsThree
            (sampleState [("0001_init", "aa"), ("0009_other", "bb")])).2 with
          log := (migrateDown sampleEnv fsThree
              (sampleState [("0001_init", "aa"), ("0009_other", "bb")])).2.log ++
            (if downsThree.length = 0 then [LogEntry.noDownMigrations]
             else downsThree.reverse.map (fun m => LogEntry.skipNotApplied m.version)) }) :=
  migrateDown_idempotent sampleEnv fsThree
    (sampleState [("0001_init", "aa"), ("0009_other", "bb")]) _ downsThree
    loadMigrations_fsThree_down (by rfl)

/-! ## Forward, reverse, forward -/

/-- C7 (amended). When `migrateUp`, `migrateDown` and `migrateUp` are run in
succession over the same files and all three succeed, and every loaded reverse
file whose version the starting ledger holds has a forward file, the ledger
after the third run is, as a mapping from versions to checksums, the ledger
after the first run. -/
theorem up_down_up_ledger (E : Env) (fs : FS) (st st1 st2 st3 : State E)
    (ups downs : List migration)
    (hup : loadMigrations E fs migrationsDir ".up.sql" = .ok ups)
    (hdown : loadMigrations E fs migrationsDir ".down.sql" = .ok downs)
    (h1 : migrateUp E fs st = (.ok (), st1))
    (h2 : migrateDown E fs st1 = (.ok (), st2))
    (h3 : migrateUp E fs st2 = (.ok (), st3))
    (hforward : ∀ m ∈ downs, m.version ∈ keys st.ledger → ∃ f ∈ ups, f.version = m.version)
    (v : String) :
    ledgerChecksum st3.ledger v = ledgerChecksum st1.ledger v := by
  obtain ⟨_, a1, _, d1, _, _⟩ := migrateUp_ok_spec E fs st st1 ups hup h1
  obtain ⟨_, a3, c3, d3, _, _⟩ := migrateUp_ok_spec E fs st2 st3 ups hup h3
  have hl2 := migrateDown_ok_spec E fs st1 st2 downs hdown h2
  by_cases hf : ∃ f ∈ ups, f.version = v
  · obtain ⟨f, hfm, rfl⟩ := hf
    rw [a1 f hfm, a3 f hfm]
  · have h2v : ledgerChecksum st2.ledger v =
        if hasFile downs v then none else ledgerChecksum st1.ledger v := by
      rw [hl2]; exact ledgerChecksum_after_down st1.ledger downs v
    have hnone3 : ledgerChecksum st2.ledger v = none → ledgerChecksum st3.ledger v = none := by
      intro hn
      apply (ledgerChecksum_eq_none_iff _ _).2
      intro hk
      rcases d3 v hk with hk2 | hk2
      · exact (ledgerChecksum_eq_none_iff _ _).1 hn hk2
      · exact hf hk2
    cases hr : hasFile downs v with
    | true =>
      rw [hr] at h2v
      simp only [if_true] at h2v
      rw [hnone3 h2v]
      symm
      apply (ledgerChecksum_eq_none_iff _ _).2
      intro hk
      rcases d1 v hk with hk0 | hk0
      · obtain ⟨m, hm, hv⟩ := (hasFile_iff downs v).1 hr
        obtain ⟨f, hfm, hfv⟩ := hforward m hm (by rw [hv]; exact hk0)
        exact hf ⟨f, hfm, by rw [hfv, hv]⟩
      · exact hf hk0
    | false =>
      rw [hr] at h2v
      simp only [Bool.false_eq_true, if_false] at h2v
      cases hc : ledgerChecksum st1.ledger v with
      | none =>
        rw [hc] at h2v
        exact hnone3 h2v
      | some c =>
        rw [hc] at h2v
        exact c3 v c h2v

/-- C7 (amended) on the files of `fsThree`, from a ledger whose only entry has no
reverse file, at a version that is rolled back and applied again. -/
theorem up_down_up_ledger_witness :
    ledgerChecksum (migrateUp sampleEnv fsThree (migrateDown sampleEnv fsThree
      (migrateUp sampleEnv fsThree (sampleState [("0009_other", "bb")])).2).2).2.ledger
        "0002_users" =
    ledgerChecksum (migrateUp sampleEnv fsThree (sampleState [("0009_other", "bb")])).2.ledger
        "0002_users" :=
  up_down_up_ledger sampleEnv fsThree (sampleState [("0009_other", "bb")]) _ _ _
    upsThree downsThree loadMigrations_fsThree_up loadMigrations_fsThree_down
    (by rfl) (by rfl) (by rfl) (by decide) "0002_users"

/-- C7, as stated, fails: the ledger holds `0000_seed`, which has a reverse file
and no forward file; the three runs succeed, the first leaves the entry in
place, the roll-back deletes it, and the last run does not bring it back. -/
theorem up_down_up_loses_entry :
    (migrateUp sampleEnv fsStray (sampleState seedLedger)).1 = .ok () ∧
    (migrateDown sampleEnv fsStray
      (migrateUp sampleEnv fsStray (sampleState seedLedger)).2).1 = .ok () ∧
    (migrateUp sampleEnv fsStray (migrateDown sampleEnv fsStray
      (migrateUp sampleEnv fsStray (sampleState seedLedger)).2).2).1 = .ok () ∧
    ledgerChecksum (migrateUp sampleEnv fsStray (sampleState seedLedger)).2.ledger "0000_seed" =
      some (calculateChecksum sampleEnv "CREATE TABLE seed (id INT);") ∧
    ledgerChecksum
      (migrateUp sampleEnv fsStray (migrateDown sampleEnv fsStray
        (migrateUp sampleEnv fsStray (sampleState seedLedger)).2).2).2.ledger
      "0000_seed" = none := by
  decide

/-! ## The Status Reporter -/

/-- C8. For every forward file `showStatus` loads, the report holds the status
built for it and its printed row; the status carries the version and the
checksum of the file, and the checksum of the ledger entry when there is one;
the row reads pending exactly when the ledger has no entry for the version,
applied and OK exactly when the entry has the checksum of the file, applied and
mismatch exactly when the entry has another checksum. -/
theorem showStatus_file_row (E : Env) (fs : FS) (st : State E) (ms : List migration)
    (m : migration)
    (hload : loadMigrations E fs migrationsDir ".up.sql" = .ok ms) (hm : m ∈ ms) :
    showStatus E fs st = (.ok (some (statusReportOf ms st.ledger)), st) ∧
    fileStatus (scanRows st.ledger []) m ∈ (statusReportOf ms st.ledger).statuses ∧
    (m.version, statusColumns (fileStatus (scanRows st.ledger []) m)) ∈
      (statusReportOf ms st.ledger).rows ∧
    (fileStatus (scanRows st.ledger []) m).version = m.version ∧
    (fileStatus (scanRows st.ledger []) m).currentChecksum = m.checksum ∧
    (∀ c, ledgerChecksum st.ledger m.version = some c →
      (fileStatus (scanRows st.ledger []) m).appliedChecksum = c) ∧
    (statusColumns (fileStatus (scanRows st.ledger []) m) = ("⏳ PENDING", "—") ↔
      ledgerChecksum st.ledger m.version = none) ∧
    (statusColumns (fileStatus (scanRows st.ledger []) m) = ("✓ APPLIED", "OK") ↔
      ledgerChecksum st.ledger m.version = some m.checksum) ∧
    (statusColumns (fileStatus (scanRows st.ledger []) m) = ("❌ APPLIED", "⚠️  MISMATCH") ↔
      ∃ c, ledgerChecksum st.ledger m.version = some c ∧ c ≠ m.checksum) := by
  have hne : ms ≠ [] := List.ne_nil_of_mem hm
  have hmem := fileStatus_mem ms st.ledger m hm
  refine ⟨showStatus_eq E fs st ms hload hne, hmem, ?_, ?_⟩
  · have : (statusReportOf ms st.ledger).rows =
        (statusReportOf ms st.ledger).statuses.map
          (fun s => (s.version, (statusColumns s).1, (statusColumns s).2)) := rfl
    rw [this, List.mem_map]
    refine ⟨_, hmem, ?_⟩
    unfold fileStatus
    cases List.lookup m.version (scanRows st.ledger []) <;> rfl
  · have hpo : (("⏳ PENDING", "—") : String × String) ≠ ("✓ APPLIED", "OK") := by decide
    have hpm : (("⏳ PENDING", "—") : String × String) ≠ ("❌ APPLIED", "⚠️  MISMATCH") := by decide
    have hmo : (("❌ APPLIED", "⚠️  MISMATCH") : String × String) ≠ ("✓ APPLIED", "OK") := by decide
    unfold ledgerChecksum fileStatus
    cases hl : List.lookup m.version (scanRows st.ledger []) with
    | none =>
      have hcols := statusColumns_pending
        { version := m.version, currentChecksum := m.checksum, applied := false,
          checksumMatch := true, appliedChecksum := "" } rfl
      simp only at hcols ⊢
      rw [hcols]
      refine ⟨trivial, trivial, ?_, ?_, ?_, ?_⟩
      · intro c hc; cases hc
      · simp
      · exact ⟨fun h => absurd h hpo, fun h => by cases h⟩
      · exact ⟨fun h => absurd h hpm, fun ⟨c, hc, _⟩ => by cases hc⟩
    | some c =>
      simp only
      refine ⟨trivial, trivial, ?_, ?_⟩
      · intro c2 hc; cases hc; rfl
      · by_cases hc : c = m.checksum
        · rw [statusColumns_ok _ rfl (by simp [hc])]
          refine ⟨?_, ?_, ?_⟩
          · exact ⟨fun h => absurd h.symm hpo, fun h => by cases h⟩
          · exact ⟨fun _ => by rw [hc], fun _ => rfl⟩
          · exact ⟨fun h => absurd h.symm hmo, fun ⟨c2, h2, h3⟩ => by
              cases h2; exact absurd hc h3⟩
        · rw [statusColumns_mismatch _ rfl (by simp [hc])]
          refine ⟨?_, ?_, ?_⟩
          · exact ⟨fun h => absurd h.symm hpm, fun h => by cases h⟩
          · exact ⟨fun h => absurd h hmo, fun h => by cases h; exact absurd rfl hc⟩
          · exact ⟨fun _ => ⟨c, rfl, hc⟩, fun _ => rfl⟩

/-- C8 on the file of `fsThree` whose ledger entry has a stale checksum. -/
theorem showStatus_file_row_witness :
    showStatus sampleEnv fsThree (sampleState driftLedger) =
      (.ok (some (statusReportOf upsThree driftLedger)), sampleState driftLedger) ∧
    fileStatus (scanRows driftLedger []) usersUp ∈ (statusReportOf upsThree driftLedger).statuses ∧
    (usersUp.version, statusColumns (fileStatus (scanRows driftLedger []) usersUp)) ∈
      (statusReportOf upsThree driftLedger).rows ∧
    (fileStatus (scanRows driftLedger []) usersUp).version = usersUp.version ∧
    (fileStatus (scanRows driftLedger []) usersUp).currentChecksum = usersUp.checksum ∧
    (∀ c, ledgerChecksum driftLedger usersUp.version = some c →
      (fileStatus (scanRows driftLedger []) usersUp).appliedChecksum = c) ∧
    (statusColumns (fileStatus (scanRows driftLedger []) usersUp) = ("⏳ PENDING", "—") ↔
      ledgerChecksum driftLedger usersUp.version = none) ∧
    (statusColumns (fileStatus (scanRows driftLedger []) usersUp) = ("✓ APPLIED", "OK") ↔
      ledgerChecksum driftLedger usersUp.version = some usersUp.checksum) ∧
    (statusColumns (fileStatus (scanRows driftLedger []) usersUp) =
        ("❌ APPLIED", "⚠️  MISMATCH") ↔
      ∃ c, ledgerChecksum driftLedger usersUp.version = some c ∧ c ≠ usersUp.checksum) :=
  showStatus_file_row sampleEnv fsThree (sampleState driftLedger) upsThree usersUp
    loadMigrations_fsThree_up (by decide)

/-- C9 (amended). When at least one forward file is loaded, the report of
`showStatus` has a row for a version exactly when the version has a loaded
forward file or a ledger entry, and one printed line per row; when moreover
the loaded versions are pairwise distinct, no version has two rows. -/
theorem showStatus_rows (E : Env) (fs : FS) (st : State E) (ms : List migration)
    (hload : loadMigrations E fs migrationsDir ".up.sql" = .ok ms) (hne : ms ≠ []) :
    showStatus E fs st = (.ok (some (statusReportOf ms st.ledger)), st) ∧
    (∀ v, v ∈ (statusReportOf ms st.ledger).statuses.map (fun s => s.version) ↔
      ((∃ m ∈ ms, m.version = v) ∨ v ∈ keys st.ledger)) ∧
    ((statusReportOf ms st.ledger).rows.map (fun row => row.1) =
      (statusReportOf ms st.ledger).statuses.map (fun s => s.version)) ∧
    ((ms.map (fun m => m.version)).Nodup →
      ((statusReportOf ms st.ledger).statuses.map (fun s => s.version)).Nodup) := by
  have hperm := statuses_versions_perm ms st.ledger
  refine ⟨showStatus_eq E fs st ms hload hne, ?_, ?_, ?_⟩
  · intro v
    rw [hperm.mem_iff, List.mem_append, List.mem_filter, mem_keys_scanRows]
    constructor
    · rintro (h | ⟨h, _⟩)
      · obtain ⟨m, hm, hv⟩ := List.mem_map.1 h
        exact Or.inl ⟨m, hm, hv⟩
      · exact Or.inr h
    · rintro (⟨m, hm, hv⟩ | h)
      · exact Or.inl (List.mem_map.2 ⟨m, hm, hv⟩)
      · by_cases hf : hasFile ms v = true
        · obtain ⟨m, hm, hv⟩ := (hasFile_iff ms v).1 hf
          exact Or.inl (List.mem_map.2 ⟨m, hm, hv⟩)
        · exact Or.inr ⟨h, by simpa using hf⟩
  · have : (statusReportOf ms st.ledger).rows =
        (statusReportOf ms st.ledger).statuses.map
          (fun s => (s.version, (statusColumns s).1, (statusColumns s).2)) := rfl
    rw [this, List.map_map]
    rfl
  · intro hnd
    rw [hperm.nodup_iff, List.nodup_append]
    refine ⟨hnd, List.Nodup.filter _ (keys_scanRows_nodup st.ledger [] List.nodup_nil), ?_⟩
    intro v hv hv2
    rw [List.mem_filter] at hv2
    obtain ⟨m, hm, hmv⟩ := List.mem_map.1 hv
    have : hasFile ms v = true := (hasFile_iff ms v).2 ⟨m, hm, hmv⟩
    simp [this] at hv2

/-- C9 (amended) on the files of `fsThree` and a ledger with one version without a file. -/
theorem showStatus_rows_witness :
    showStatus sampleEnv fsThree (sampleState driftLedger) =
      (.ok (some (statusReportOf upsThree driftLedger)), sampleState driftLedger) ∧
    (∀ v, v ∈ (statusReportOf upsThree driftLedger).statuses.map (fun s => s.version) ↔
      ((∃ m ∈ upsThree, m.version = v) ∨ v ∈ keys driftLedger)) ∧
    ((statusReportOf upsThree driftLedger).rows.map (fun row => row.1) =
      (statusReportOf upsThree driftLedger).statuses.map (fun s => s.version)) ∧
    ((upsThree.map (fun m => m.version)).Nodup →
      ((statusReportOf upsThree driftLedger).statuses.map (fun s => s.version)).Nodup) :=
  showStatus_rows sampleEnv fsThree (sampleState driftLedger) upsThree
    loadMigrations_fsThree_up (by decide)

/-- C9, as stated, fails.  With no forward file on disk `showStatus` returns
before it reads the ledger and prints no report, so the ledger entry `0000_seed`
gets no row; and with the file name `0001_init.up.sql` in two subdirectories the
report has two rows for the version `0001_init`. -/
theorem showStatus_rows_not_union :
    (showStatus sampleEnv fsEmpty (sampleState seedLedger)).1 = .ok none ∧
    "0000_seed" ∈ keys (sampleState seedLedger).ledger ∧
    (showStatus sampleEnv fsTwin (sampleState [])).1 = .ok (some (statusReportOf upsTwin [])) ∧
    (statusReportOf upsTwin []).statuses.map (fun s => s.version) = ["0001_init", "0001_init"] := by
  decide

/-- C10 (amended). When at least one forward file is loaded, the mismatch count of
the summary is the number of loaded forward files whose version the ledger holds
with another checksum, plus the number of ledger entries whose version has no
loaded forward file; each such entry is printed as an applied row with a
checksum mismatch. -/
theorem showStatus_mismatchCount (E : Env) (fs : FS) (st : State E) (ms : List migration)
    (hload : loadMigrations E fs migrationsDir ".up.sql" = .ok ms) (hne : ms ≠ []) :
    showStatus E fs st = (.ok (some (statusReportOf ms st.ledger)), st) ∧
    (statusReportOf ms st.ledger).mismatchCount =
      ms.countP (fileMismatch st.ledger) +
        (scanRows st.ledger []).countP (fun e => !hasFile ms e.1) ∧
    (∀ e ∈ scanRows st.ledger [], hasFile ms e.1 = false →
      (e.1, "❌ APPLIED", "⚠️  MISMATCH") ∈ (statusReportOf ms st.ledger).rows) := by
  refine ⟨showStatus_eq E fs st ms hload hne, ?_, ?_⟩
  · have hcount : (statusReportOf ms st.ledger).mismatchCount =
        (countStatuses (buildStatuses ms (scanRows st.ledger []))
          { pendingCount := 0, appliedCount := 0, mismatchCount := 0 }).mismatchCount := rfl
    rw [hcount, countStatuses_mismatchCount,
      (buildStatuses_perm ms (scanRows st.ledger [])).countP_eq, List.countP_append,
      List.countP_map, orphanStatuses_countP]
    have hf : ((fun s : migrationStatus => s.applied && !s.checksumMatch) ∘
        fileStatus (scanRows st.ledger [])) = fileMismatch st.ledger := by
      funext m; exact fileStatus_mismatch st.ledger m
    rw [hf]
    simp
  · intro e he hf
    have hrows : (statusReportOf ms st.ledger).rows =
        (buildStatuses ms (scanRows st.ledger [])).map
          (fun s => (s.version, (statusColumns s).1, (statusColumns s).2)) := rfl
    rw [hrows, List.mem_map]
    refine ⟨{ version := e.1, applied := true, appliedChecksum := e.2, checksumMatch := false,
              currentChecksum := "" }, ?_, ?_⟩
    · rw [(buildStatuses_perm ms _).mem_iff]
      exact List.mem_append_right _ (orphanStatuses_mem ms _ e.1 e.2 he hf)
    · rw [statusColumns_mismatch _ rfl rfl]

/-- C10 (amended) on the files of `fsThree` and a ledger with one stale checksum and
one version without a file. -/
theorem showStatus_mismatchCount_witness :
    showStatus sampleEnv fsThree (sampleState driftLedger) =
      (.ok (some (statusReportOf upsThree driftLedger)), sampleState driftLedger) ∧
    (statusReportOf upsThree driftLedger).mismatchCount =
      upsThree.countP (fileMismatch driftLedger) +
        (scanRows driftLedger []).countP (fun e => !hasFile upsThree e.1) ∧
    (∀ e ∈ scanRows driftLedger [], hasFile upsThree e.1 = false →
      (e.1, "❌ APPLIED", "⚠️  MISMATCH") ∈ (statusReportOf upsThree driftLedger).rows) :=
  showStatus_mismatchCount sampleEnv fsThree (sampleState driftLedger) upsThree
    loadMigrations_fsThree_up (by decide)

/-- C10, as stated, fails: every forward file is applied with its own checksum, so
no version has a file and a ledger entry with differing checksums, yet the
summary counts one mismatch, the ledger entry `0000_legacy` that has no forward
file, and prints it as an applied row with a checksum mismatch. -/
theorem showStatus_counts_orphan_as_mismatch :
    (showStatus sampleEnv fsThree (sampleState legacyLedger)).1 =
      .ok (some (statusReportOf upsThree legacyLedger)) ∧
    upsThree.countP (fileMismatch legacyLedger) = 0 ∧
    (statusReportOf upsThree legacyLedger).mismatchCount = 1 ∧
    (statusReportOf upsThree legacyLedger).warning = true ∧
    ("0000_legacy", "❌ APPLIED", "⚠️  MISMATCH") ∈ (statusReportOf upsThree legacyLedger).rows := by
  decide

/-! ## Lemmas on the order of strings and on sorted reports -/

theorem strLt_iff (a b : String) : strLt a b ↔ a < b := by
  unfold strLt
  rw [String.lt_iff_toList_lt]
  rfl

theorem strLe_iff (a b : String) : strLe a b ↔ a ≤ b := by
  unfold strLe
  rw [strLt_iff, not_lt]

theorem strLe_total (a b : String) : strLe a b ∨ strLe b a := by
  rw [strLe_iff, strLe_iff]; exact le_total a b

theorem strLe_trans (a b c : String) (h1 : strLe a b) (h2 : strLe b c) : strLe a c := by
  rw [strLe_iff] at *; exact le_trans h1 h2

theorem strLt_of_strLe_of_ne (a b : String) (h1 : strLe a b) (h2 : a ≠ b) : strLt a b := by
  rw [strLe_iff] at h1; rw [strLt_iff]; exact lt_of_le_of_ne h1 h2

theorem strLt_asymm (a b : String) (h1 : strLt a b) (h2 : strLt b a) : False := by
  rw [strLt_iff] at *; exact lt_asymm h1 h2

theorem buildStatuses_sorted (ms : List migration) (applied : List (String × String)) :
    (buildStatuses ms applied).Sorted statusLe :=
  @List.sorted_insertionSort _ statusLe _ ⟨fun a b => strLe_total a.version b.version⟩
    ⟨fun a b c => strLe_trans a.version b.version c.version⟩ _

theorem lookup_perm (l1 l2 : List (String × String)) (hp : l1.Perm l2) (hnd : (keys l1).Nodup)
    (v : String) : l1.lookup v = l2.lookup v := by
  have hnd2 : (keys l2).Nodup := ((hp.map Prod.fst).nodup_iff).1 hnd
  cases h : l2.lookup v with
  | none =>
    rw [lookup_eq_none_iff_not_mem_keys] at h ⊢
    intro hk; apply h
    exact ((hp.map Prod.fst).mem_iff).1 hk
  | some c =>
    have hmem : (v, c) ∈ l2 := by
      rw [List.lookup_eq_some_iff] at h
      obtain ⟨a, b, rfl, _⟩ := h
      simp
    exact lookup_of_mem_of_nodup l1 v c (hp.mem_iff.2 hmem) hnd

theorem orphanStatuses_perm (ms : List migration) (l1 l2 : List (String × String))
    (hp : l1.Perm l2) : (orphanStatuses ms l1).Perm (orphanStatuses ms l2) := by
  induction hp with
  | nil => exact List.Perm.refl _
  | cons x _ ih =>
    obtain ⟨v, c⟩ := x
    simp only [orphanStatuses]
    split
    · exact List.Perm.cons _ ih
    · exact ih
  | swap x y l =>
    obtain ⟨v, c⟩ := x
    obtain ⟨w, d⟩ := y
    simp only [orphanStatuses]
    split <;> split
    · exact List.Perm.swap _ _ _
    · exact List.Perm.refl _
    · exact List.Perm.refl _
    · exact List.Perm.refl _
  | trans _ _ ih1 ih2 => exact ih1.trans ih2

theorem statuses_unsorted_perm (ms : List migration) (l1 l2 : List (String × String))
    (hp : l1.Perm l2) (hnd : (keys l1).Nodup) :
    (ms.map (fileStatus l1) ++ orphanStatuses ms l1).Perm
      (ms.map (fileStatus l2) ++ orphanStatuses ms l2) := by
  have hf : ms.map (fileStatus l1) = ms.map (fileStatus l2) := by
    apply List.map_congr_left
    intro m _
    unfold fileStatus
    rw [lookup_perm l1 l2 hp hnd m.version]
  rw [hf]
  exact List.Perm.append_left _ (orphanStatuses_perm ms l1 l2 hp)

theorem mem_iff_lookup_of_nodup (l : List (String × String)) (hnd : (keys l).Nodup)
    (k c : String) : (k, c) ∈ l ↔ l.lookup k = some c := by
  constructor
  · intro h; exact lookup_of_mem_of_nodup l k c h hnd
  · intro h
    rw [List.lookup_eq_some_iff] at h
    obtain ⟨a, b, rfl, _⟩ := h
    simp

theorem perm_of_lookup_eq (l1 l2 : List (String × String)) (h1 : (keys l1).Nodup)
    (h2 : (keys l2).Nodup) (h : ∀ v, l1.lookup v = l2.lookup v) : l1.Perm l2 := by
  rw [List.perm_ext_iff_of_nodup (List.Nodup.of_map _ h1) (List.Nodup.of_map _ h2)]
  rintro ⟨k, c⟩
  rw [mem_iff_lookup_of_nodup l1 h1, mem_iff_lookup_of_nodup l2 h2, h]

theorem buildStatuses_versions_nodup (ms : List migration) (applied : List (String × String))
    (h1 : (ms.map (fun m => m.version)).Nodup) (h2 : (keys applied).Nodup) :
    ((buildStatuses ms applied).map (fun s => s.version)).Nodup := by
  have h := (buildStatuses_perm ms applied).map (fun s => s.version)
  rw [List.map_append, List.map_map, orphanStatuses_versions] at h
  have hf : (fun s : migrationStatus => s.version) ∘ fileStatus applied =
      fun m => m.version := by
    funext m; exact fileStatus_version _ m
  rw [hf] at h
  rw [h.nodup_iff, List.nodup_append]
  refine ⟨h1, List.Nodup.filter _ h2, ?_⟩
  intro v hv hv2
  rw [List.mem_filter] at hv2
  obtain ⟨m, hm, hmv⟩ := List.mem_map.1 hv
  have : hasFile ms v = true := (hasFile_iff ms v).2 ⟨m, hm, hmv⟩
  simp [this] at hv2

theorem buildStatuses_strictly_sorted (ms : List migration) (applied : List (String × String))
    (h1 : (ms.map (fun m => m.version)).Nodup) (h2 : (keys applied).Nodup) :
    (buildStatuses ms applied).Sorted statusLt := by
  have hs : List.Pairwise statusLe (buildStatuses ms applied) := buildStatuses_sorted ms applied
  have hn : List.Pairwise (fun a b : migrationStatus => a.version ≠ b.version)
      (buildStatuses ms applied) := by
    have := buildStatuses_versions_nodup ms applied h1 h2
    rw [List.Nodup, List.pairwise_map] at this
    exact this
  exact (hs.and hn).imp (fun h => strLt_of_strLe_of_ne _ _ h.1 h.2)

theorem buildStatuses_eq_of_perm (ms : List migration) (l1 l2 : List (String × String))
    (hp : l1.Perm l2) (hms : (ms.map (fun m => m.version)).Nodup) (hnd : (keys l1).Nodup) :
    buildStatuses ms l1 = buildStatuses ms l2 := by
  have hnd2 : (keys l2).Nodup := ((hp.map Prod.fst).nodup_iff).1 hnd
  apply @List.eq_of_perm_of_sorted _ statusLt
    ⟨fun a b h1 h2 => (strLt_asymm a.version b.version h1 h2).elim⟩
  · exact ((buildStatuses_perm ms l1).trans (statuses_unsorted_perm ms l1 l2 hp hnd)).trans
      (buildStatuses_perm ms l2).symm
  · exact buildStatuses_strictly_sorted ms l1 hms hnd
  · exact buildStatuses_strictly_sorted ms l2 hms hnd2

/-! ## Lemmas on the walk and on the Loader -/

theorem loadFiles_ok (E : Env) (fs : FS) (dir suffix : String) (files : List String)
    (acc ms : List migration) (h : loadFiles E fs dir suffix files acc = .ok ms) :
    ∃ new, ms = acc ++ new ∧ new.map (fun m => m.path) = files ∧
      ∀ m ∈ new, loadedFrom E fs dir suffix m := by
  induction files generalizing acc with
  | nil =>
    simp only [loadFiles, Except.ok.injEq] at h
    exact ⟨[], by simp [h], rfl, by simp⟩
  | cons path rest ih =>
    simp only [loadFiles] at h
    cases hr : readFile fs dir path with
    | error e => simp [hr] at h
    | ok content =>
      simp only [hr] at h
      obtain ⟨new, h1, h2, h3⟩ := ih _ h
      refine ⟨{ version := trimSuffix (base path) suffix, path := path,
                checksum := calculateChecksum E content, content := content } :: new,
        by rw [h1]; simp, by simp [h2], ?_⟩
      intro m hm
      rcases List.mem_cons.1 hm with rfl | hm
      · exact ⟨rfl, hr, rfl⟩
      · exact h3 m hm

theorem listSQLWithSuffix_sorted (fs : FS) (dir suffix : String) (files : List String)
    (h : listSQLWithSuffix fs dir suffix = .ok files) : files.Sorted strLe := by
  unfold listSQLWithSuffix at h
  cases hw : WalkDir fs dir (listSQLWithSuffixFn suffix) [] with
  | error e => simp [hw] at h
  | ok walked =>
    simp only [hw, Except.ok.injEq] at h
    rw [← h]
    exact @List.sorted_insertionSort _ strLe _ ⟨strLe_total⟩ ⟨strLe_trans⟩ walked

theorem loadMigrations_ok (E : Env) (fs : FS) (dir suffix : String) (ms : List migration)
    (h : loadMigrations E fs dir suffix = .ok ms) :
    listSQLWithSuffix fs dir suffix = .ok (ms.map (fun m => m.path)) ∧
      ∀ m ∈ ms, loadedFrom E fs dir suffix m := by
  unfold loadMigrations at h
  cases hl : listSQLWithSuffix fs dir suffix with
  | error e => simp [hl] at h
  | ok files =>
    simp only [hl] at h
    obtain ⟨new, h1, h2, h3⟩ := loadFiles_ok E fs dir suffix files [] ms h
    simp only [List.nil_append] at h1
    subst h1
    exact ⟨by rw [h2], h3⟩

mutual
theorem walkDir_readable (suffix : String) :
    ∀ (node : Node) (path : String) (files : List String), node.readable = true →
      walkDir (listSQLWithSuffixFn suffix) path node files =
        .ok (files ++ qualifyingPaths suffix path node)
  | .file name content, path, files, _ => by
    simp only [walkDir, listSQLWithSuffixFn, qualifyingPaths, Node.leaves]
    by_cases h : hasSuffix (toLower name) suffix = true
    · simp [h]
    · simp [h]
  | .dir name readErr entries, path, files, h => by
    simp only [Node.readable, Bool.and_eq_true, Option.isNone_iff_eq_none] at h
    obtain ⟨h1, h2⟩ := h
    subst h1
    simp only [walkDir, listSQLWithSuffixFn]
    have := walkEntries_readable suffix entries path files h2
    simpa [qualifyingPaths, qualifyingPathsOfEntries, Node.leaves] using this
theorem walkEntries_readable (suffix : String) :
    ∀ (entries : List Node) (path : String) (files : List String),
      Node.allReadable entries = true →
      walkEntries (listSQLWithSuffixFn suffix) path entries files =
        .ok (files ++ qualifyingPathsOfEntries suffix path entries)
  | [], path, files, _ => by
    simp [walkEntries, qualifyingPathsOfEntries, Node.leavesOfEntries]
  | d1 :: rest, path, files, h => by
    simp only [Node.allReadable, Bool.and_eq_true] at h
    obtain ⟨h1, h2⟩ := h
    simp only [walkEntries]
    rw [walkDir_readable suffix d1 (joinPath path d1.name) files h1]
    simp only
    rw [walkEntries_readable suffix rest path _ h2]
    simp [qualifyingPaths, qualifyingPathsOfEntries, Node.leavesOfEntries]
end

mutual
theorem walkDir_unreadable (suffix : String) :
    ∀ (node : Node) (path : String) (files : List String), node.readable = false →
      ∃ e, walkDir (listSQLWithSuffixFn suffix) path node files = .error e
  | .file name content, path, files, h => by
    simp [Node.readable] at h
  | .dir name readErr entries, path, files, h => by
    simp only [walkDir, listSQLWithSuffixFn]
    cases readErr with
    | some e => exact ⟨e, rfl⟩
    | none =>
      simp only [Node.readable, Option.isNone_none, Bool.true_and] at h
      exact walkEntries_unreadable suffix entries path files h
theorem walkEntries_unreadable (suffix : String) :
    ∀ (entries : List Node) (path : String) (files : List String),
      Node.allReadable entries = false →
      ∃ e, walkEntries (listSQLWithSuffixFn suffix) path entries files = .error e
  | [], path, files, h => by
    simp [Node.allReadable] at h
  | d1 :: rest, path, files, h => by
    simp only [walkEntries]
    cases h1 : d1.readable with
    | false =>
      obtain ⟨e, he⟩ := walkDir_unreadable suffix d1 (joinPath path d1.name) files h1
      rw [he]
      exact ⟨e, rfl⟩
    | true =>
      simp only [Node.allReadable, h1, Bool.true_and] at h
      rw [walkDir_readable suffix d1 (joinPath path d1.name) files h1]
      simp only
      exact walkEntries_unreadable suffix rest path _ h
end

theorem withName_readable (name : String) (node : Node) :
    (node.withName name).readable = node.readable := by
  cases node <;> simp [Node.withName, Node.readable]

theorem listSQLWithSuffix_readable (node : Node) (dir suffix : String)
    (h : node.readable = true) :
    listSQLWithSuffix (.ok node) dir suffix =
      .ok ((qualifyingPaths suffix dir (node.withName (base dir))).insertionSort strLe) := by
  unfold listSQLWithSuffix WalkDir
  simp only
  rw [walkDir_readable suffix _ dir [] (by rw [withName_readable]; exact h)]
  simp

theorem listSQLWithSuffix_unreadable (node : Node) (dir suffix : String)
    (h : node.readable = false) :
    ∃ e, listSQLWithSuffix (.ok node) dir suffix = .error e := by
  unfold listSQLWithSuffix WalkDir
  simp only
  obtain ⟨e, he⟩ := walkDir_unreadable suffix (node.withName (base dir)) dir []
    (by rw [withName_readable]; exact h)
  rw [he]
  exact ⟨e, rfl⟩

theorem listSQLWithSuffix_missing (err dir suffix : String) :
    listSQLWithSuffix (.error err) dir suffix = .error err := by
  simp [listSQLWithSuffix, WalkDir, listSQLWithSuffixFn]

theorem loadFiles_unreadable (E : Env) (fs : FS) (dir suffix : String) (files : List String)
    (acc : List migration)
    (h : ∃ p ∈ files, ∃ e, readFile fs dir p = .error e) :
    ∃ e, loadFiles E fs dir suffix files acc = .error e := by
  induction files generalizing acc with
  | nil => obtain ⟨p, hp, _⟩ := h; cases hp
  | cons path rest ih =>
    simp only [loadFiles]
    cases hr : readFile fs dir path with
    | error e => exact ⟨_, rfl⟩
    | ok content =>
      simp only
      apply ih
      obtain ⟨p, hp, e, he⟩ := h
      rcases List.mem_cons.1 hp with rfl | hp
      · rw [hr] at he; cases he
      · exact ⟨p, hp, e, he⟩

theorem loadMigrations_fsTwin_up :
    loadMigrations sampleEnv fsTwin migrationsDir ".up.sql" = .ok upsTwin := by decide

/-! ## Lemmas on checksums and statements -/

theorem hexValue_hexDigit (n : Fin 16) : hexValue (hexDigit n.val) = some n.val := by
  revert n; decide

theorem hexDigit_mem (n : Fin 16) : hexDigit n.val ∈ "0123456789abcdef".data := by
  revert n; decide

theorem hexByte_digits (b : Fin 256) :
    ∀ c ∈ hexByte b, c ∈ "0123456789abcdef".data := by
  intro c hc
  unfold hexByte at hc
  have h1 : b.val / 16 < 16 := by omega
  have h2 : b.val % 16 < 16 := by omega
  rcases List.mem_cons.1 hc with rfl | hc
  · exact hexDigit_mem ⟨b.val / 16, h1⟩
  · rw [List.mem_singleton] at hc
    subst hc
    exact hexDigit_mem ⟨b.val % 16, h2⟩

theorem decodeHex_hexBytes (bytes : List (Fin 256)) :
    decodeHex (bytes.map hexByte).flatten = some (bytes.map (fun b => b.val)) := by
  induction bytes with
  | nil => rfl
  | cons b rest ih =>
    have h1 : b.val / 16 < 16 := by omega
    have h2 : b.val % 16 < 16 := by omega
    have e1 := hexValue_hexDigit ⟨b.val / 16, h1⟩
    have e2 := hexValue_hexDigit ⟨b.val % 16, h2⟩
    simp only at e1 e2
    have hb : 16 * (b.val / 16) + b.val % 16 = b.val := Nat.div_add_mod _ _
    have hflat : (List.map hexByte (b :: rest)).flatten =
        hexDigit (b.val / 16) :: hexDigit (b.val % 16) :: (List.map hexByte rest).flatten := rfl
    rw [hflat]
    simp only [decodeHex, e1, e2, ih, hb, List.map_cons]

theorem length_hexBytes (bytes : List (Fin 256)) :
    (bytes.map hexByte).flatten.length = 2 * bytes.length := by
  induction bytes with
  | nil => rfl
  | cons b rest ih =>
    simp only [List.map_cons, List.flatten_cons, List.length_append, ih, hexByte,
      List.length_cons, List.length_nil]
    omega

theorem statementsOf_cons_empty (piece : String) (rest : List String)
    (h : trimSpace piece = "") : statementsOf (piece :: rest) = statementsOf rest := by
  simp [statementsOf, h]

theorem statementsOf_cons_stmt (piece : String) (rest : List String)
    (h : ¬ trimSpace piece = "") :
    statementsOf (piece :: rest) = trimSpace piece :: statementsOf rest := by
  simp [statementsOf, h]

theorem applyStatements_all_ok (E : Env) (pieces : List String) (st : State E)
    (schema1 : E.Schema)
    (h : runStatements E st.schema (statementsOf pieces) = some schema1) :
    applyStatements E pieces st =
      (.ok (),
        { st with
          schema := schema1
          history := st.history ++ (statementsOf pieces).map (fun stmt => DbCall.exec stmt true) }) := by
  induction pieces generalizing st with
  | nil =>
    simp only [statementsOf, List.map_nil, List.filter_nil, runStatements,
      Option.some.injEq] at h
    subst h
    simp [applyStatements, statementsOf]
  | cons piece rest ih =>
    simp only [applyStatements]
    by_cases hempty : trimSpace piece = ""
    · rw [if_pos hempty]
      rw [statementsOf_cons_empty piece rest hempty] at h ⊢
      exact ih st h
    · rw [if_neg hempty]
      rw [statementsOf_cons_stmt piece rest hempty] at h ⊢
      simp only [runStatements] at h
      unfold dbExec
      cases hx : E.exec st.schema (trimSpace piece) with
      | error err => simp [hx] at h
      | ok schema2 =>
        simp only [hx] at h ⊢
        rw [ih _ h]
        simp

theorem applyStatements_fails_at (E : Env) (pieces : List String) (st : State E)
    (pre post : List String) (stmt err : String) (schema1 : E.Schema)
    (hsplit : statementsOf pieces = pre ++ stmt :: post)
    (hpre : runStatements E st.schema pre = some schema1)
    (hfail : E.exec schema1 stmt = .error err) :
    applyStatements E pieces st =
      (.error (statementError err stmt),
        { st with
          schema := schema1
          history := st.history ++ pre.map (fun s => DbCall.exec s true) ++
            [DbCall.exec stmt false] }) := by
  induction pieces generalizing st pre with
  | nil => simp [statementsOf] at hsplit
  | cons piece rest ih =>
    simp only [applyStatements]
    by_cases hempty : trimSpace piece = ""
    · rw [if_pos hempty]
      rw [statementsOf_cons_empty piece rest hempty] at hsplit
      exact ih st pre hsplit hpre
    · rw [if_neg hempty]
      rw [statementsOf_cons_stmt piece rest hempty] at hsplit
      unfold dbExec
      cases pre with
      | nil =>
        simp only [List.nil_append, List.cons.injEq] at hsplit
        simp only [runStatements, Option.some.injEq] at hpre
        subst hpre
        rw [hsplit.1, hfail]
        simp [statementError]
      | cons p pre1 =>
        simp only [List.cons_append, List.cons.injEq] at hsplit
        simp only [runStatements] at hpre
        rw [hsplit.1]
        cases hx : E.exec st.schema p with
        | error e => simp [hx] at hpre
        | ok schema2 =>
          simp only [hx] at hpre ⊢
          rw [ih _ pre1 hsplit.2 hpre]
          simp

theorem applyStatements_ok_runs (E : Env) (pieces : List String) (st st1 : State E)
    (h : applyStatements E pieces st = (.ok (), st1)) :
    runStatements E st.schema (statementsOf pieces) = some st1.schema := by
  induction pieces generalizing st with
  | nil =>
    simp only [applyStatements, Prod.mk.injEq, true_and] at h
    subst h
    rfl
  | cons piece rest ih =>
    simp only [applyStatements] at h
    by_cases hempty : trimSpace piece = ""
    · rw [if_pos hempty] at h
      rw [statementsOf_cons_empty piece rest hempty]
      exact ih st h
    · rw [if_neg hempty] at h
      rw [statementsOf_cons_stmt piece rest hempty]
      unfold dbExec at h
      simp only [runStatements]
      cases hx : E.exec st.schema (trimSpace piece) with
      | error err => simp [hx] at h
      | ok schema2 =>
        simp only [hx] at h ⊢
        exact ih _ h

/-! ## Lemmas on runs over two ledgers -/

theorem applyStatements_congr (E : Env) (pieces : List String) (st1 st2 : State E)
    (hs : st1.schema = st2.schema) :
    (applyStatements E pieces st1).1 = (applyStatements E pieces st2).1 ∧
    (applyStatements E pieces st1).2.schema = (applyStatements E pieces st2).2.schema ∧
    ∃ calls, (applyStatements E pieces st1).2.history = st1.history ++ calls ∧
      (applyStatements E pieces st2).2.history = st2.history ++ calls := by
  induction pieces generalizing st1 st2 with
  | nil => exact ⟨rfl, hs, [], by simp [applyStatements], by simp [applyStatements]⟩
  | cons piece rest ih =>
    simp only [applyStatements]
    split
    · exact ih st1 st2 hs
    · unfold dbExec
      rw [← hs]
      cases hx : E.exec st1.schema (trimSpace piece) with
      | error err =>
        simp only
        refine ⟨trivial, trivial, [.exec (trimSpace piece) false], ?_, ?_⟩ <;> rfl
      | ok schema1 =>
        simp only
        obtain ⟨h1, h2, calls, h3, h4⟩ := ih
          { st1 with schema := schema1, history := st1.history ++ [.exec (trimSpace piece) true] }
          { st2 with schema := schema1, history := st2.history ++ [.exec (trimSpace piece) true] }
          rfl
        refine ⟨h1, h2, .exec (trimSpace piece) true :: calls, ?_, ?_⟩
        · rw [h3]; simp
        · rw [h4]; simp

theorem migrateDownLoop_congr (E : Env) (a1 a2 : List (String × String)) (l : List migration)
    (st1 st2 : State E)
    (hlook : ∀ m ∈ l, (a1.lookup m.version).isSome = (a2.lookup m.version).isSome)
    (hs : st1.schema = st2.schema) :
    (migrateDownLoop E a1 l st1).1 = (migrateDownLoop E a2 l st2).1 ∧
    (migrateDownLoop E a1 l st1).2.schema = (migrateDownLoop E a2 l st2).2.schema ∧
    ∃ (calls : List DbCall) (dels : List String),
      (migrateDownLoop E a1 l st1).2.history = st1.history ++ calls ∧
      (migrateDownLoop E a2 l st2).2.history = st2.history ++ calls ∧
      (migrateDownLoop E a1 l st1).2.ledger =
        st1.ledger.filter (fun row => decide (row.1 ∉ dels)) ∧
      (migrateDownLoop E a2 l st2).2.ledger =
        st2.ledger.filter (fun row => decide (row.1 ∉ dels)) ∧
      ∀ v ∈ dels, ∃ m ∈ l, m.version = v := by
  induction l generalizing st1 st2 with
  | nil => exact ⟨rfl, hs, [], [], by simp [migrateDownLoop], by simp [migrateDownLoop],
      by simp [migrateDownLoop], by simp [migrateDownLoop], by simp⟩
  | cons m rest ih =>
    have hlook' : ∀ m' ∈ rest, (a1.lookup m'.version).isSome = (a2.lookup m'.version).isSome :=
      fun m' hm' => hlook m' (List.mem_cons_of_mem _ hm')
    have hm0 := hlook m (List.mem_cons_self _ _)
    simp only [migrateDownLoop]
    cases hl1 : a1.lookup m.version with
    | none =>
      rw [hl1] at hm0
      cases hl2 : a2.lookup m.version with
      | some c => rw [hl2] at hm0; cases hm0
      | none =>
        simp only
        obtain ⟨e1, e2, calls, dels, e3, e4, e5, e6, e7⟩ := ih
          (st1.logLine (.skipNotApplied m.version)) (st2.logLine (.skipNotApplied m.version))
          hlook' hs
        exact ⟨e1, e2, calls, dels, e3, e4, e5, e6,
          fun v hv => by
            obtain ⟨m', hm', hv'⟩ := e7 v hv
            exact ⟨m', List.mem_cons_of_mem _ hm', hv'⟩⟩
    | some c1 =>
      rw [hl1] at hm0
      cases hl2 : a2.lookup m.version with
      | none => rw [hl2] at hm0; cases hm0
      | some c2 =>
        simp only
        have hc := applyStatements_congr E (splitStatements m.content)
          (st1.logLine (.rollingBack m.version)) (st2.logLine (.rollingBack m.version)) hs
        have l1 := (applyStatements_ledger E (splitStatements m.content)
          (st1.logLine (.rollingBack m.version))).1
        have l2 := (applyStatements_ledger E (splitStatements m.content)
          (st2.logLine (.rollingBack m.version))).1
        unfold applyMigration
        rcases h1 : applyStatements E (splitStatements m.content)
          (st1.logLine (.rollingBack m.version)) with ⟨r1, s1⟩
        rcases h2 : applyStatements E (splitStatements m.content)
          (st2.logLine (.rollingBack m.version)) with ⟨r2, s2⟩
        rw [h1, h2] at hc
        rw [h1] at l1
        rw [h2] at l2
        obtain ⟨hr, hsch, calls, hh1, hh2⟩ := hc
        simp only [State.logLine] at hr hsch hh1 hh2 l1 l2
        subst hr
        cases r1 with
        | error err =>
          exact ⟨rfl, hsch, calls, [], hh1, hh2, by simp [l1], by simp [l2], by simp⟩
        | ok u =>
          simp only [removeMigrationRecord]
          obtain ⟨e1, e2, calls2, dels, e3, e4, e5, e6, e7⟩ := ih
            (State.logLine { s1 with
              ledger := s1.ledger.filter (fun row => row.1 != m.version)
              history := s1.history ++ [.delete m.version] } (.rolledBack m.version))
            (State.logLine { s2 with
              ledger := s2.ledger.filter (fun row => row.1 != m.version)
              history := s2.history ++ [.delete m.version] } (.rolledBack m.version))
            hlook' hsch
          simp only [State.logLine] at e1 e2 e3 e4 e5 e6 ⊢
          have hfilter : ∀ rows : List (String × String),
              (rows.filter (fun row => row.1 != m.version)).filter
                (fun row => decide (row.1 ∉ dels)) =
              rows.filter (fun row => decide (row.1 ∉ m.version :: dels)) := by
            intro rows
            rw [List.filter_filter]
            apply List.filter_congr
            intro row _
            by_cases hv : row.1 = m.version
            · simp [hv]
            · simp [hv]
          refine ⟨e1, e2, calls ++ [.delete m.version] ++ calls2, m.version :: dels,
            ?_, ?_, ?_, ?_, ?_⟩
          · rw [e3, hh1]; simp
          · rw [e4, hh2]; simp
          · rw [e5, l1]; exact hfilter _
          · rw [e6, l2]; exact hfilter _
          · intro v hv
            rcases List.mem_cons.1 hv with rfl | hv
            · exact ⟨m, List.mem_cons_self _ _, rfl⟩
            · obtain ⟨m', hm', hv'⟩ := e7 v hv
              exact ⟨m', List.mem_cons_of_mem _ hm', hv'⟩

theorem callsSince_eq {E : Env} (before after : State E) (calls : List DbCall)
    (h : after.history = before.history ++ calls) : callsSince before after = calls := by
  unfold callsSince
  rw [h, List.drop_left]

theorem mem_keys_iff_of_ledgerChecksum_eq (l1 l2 : List (String × String)) (v : String)
    (h : ledgerChecksum l1 v = ledgerChecksum l2 v) : v ∈ keys l1 ↔ v ∈ keys l2 := by
  have h1 := ledgerChecksum_eq_none_iff l1 v
  have h2 := ledgerChecksum_eq_none_iff l2 v
  rw [h] at h1
  constructor
  · intro hk; by_contra hn; exact (h1.1 (h2.2 hn)) hk
  · intro hk; by_contra hn; exact (h2.1 (h1.2 hn)) hk

/-! ## The Status Reporter: order of the rows, frame -/

/-- C11. The rows of the report `showStatus` prints are in ascending order of
version, strictly so when the loaded versions are pairwise distinct; and then
the report is the same for every ledger with the same mapping from versions to
checksums and every order in which the entries of the map are enumerated. -/
theorem showStatus_sorted_determined (E : Env) (fs : FS) (st : State E) (ms : List migration)
    (report : statusReport)
    (hload : loadMigrations E fs migrationsDir ".up.sql" = .ok ms)
    (hreport : (showStatus E fs st).1 = .ok (some report)) :
    report = statusReportOf ms st.ledger ∧
    (report.rows.map (fun row => row.1)).Sorted strLe ∧
    ((ms.map (fun m => m.version)).Nodup →
      (report.rows.map (fun row => row.1)).Sorted strLt) ∧
    ((ms.map (fun m => m.version)).Nodup →
      ∀ rows applied : List (String × String),
        (∀ v, ledgerChecksum rows v = ledgerChecksum st.ledger v) →
        applied.Perm (scanRows rows []) →
        printStatuses (buildStatuses ms applied) = report) := by
  have hne : ms ≠ [] := by
    intro hnil
    subst hnil
    unfold showStatus at hreport
    rw [hload] at hreport
    simp at hreport
  have heq : report = statusReportOf ms st.ledger := by
    rw [showStatus_eq E fs st ms hload hne] at hreport
    simp only [Except.ok.injEq, Option.some.injEq] at hreport
    exact hreport.symm
  subst heq
  have hrows : (statusReportOf ms st.ledger).rows.map (fun row => row.1) =
      (buildStatuses ms (scanRows st.ledger [])).map (fun s => s.version) := by
    have : (statusReportOf ms st.ledger).rows =
        (buildStatuses ms (scanRows st.ledger [])).map
          (fun s => (s.version, (statusColumns s).1, (statusColumns s).2)) := rfl
    rw [this, List.map_map]
    rfl
  have hkeys := keys_scanRows_nodup st.ledger [] List.nodup_nil
  refine ⟨rfl, ?_, ?_, ?_⟩
  · rw [hrows, List.Sorted, List.pairwise_map]
    exact buildStatuses_sorted ms _
  · intro hms
    rw [hrows, List.Sorted, List.pairwise_map]
    exact buildStatuses_strictly_sorted ms _ hms hkeys
  · intro hms rows applied hmap hperm
    have hkeys2 := keys_scanRows_nodup rows [] List.nodup_nil
    have hp2 : (scanRows rows []).Perm (scanRows st.ledger []) :=
      perm_of_lookup_eq _ _ hkeys2 hkeys hmap
    have hkeys3 : (keys applied).Nodup := ((hperm.map Prod.fst).nodup_iff).2 hkeys2
    unfold statusReportOf
    rw [buildStatuses_eq_of_perm ms applied _ (hperm.trans hp2) hms hkeys3]

/-- C11 on the files of `fsThree` and a ledger with one stale checksum and one
version without a file. -/
theorem showStatus_sorted_determined_witness :
    statusReportOf upsThree driftLedger = statusReportOf upsThree driftLedger ∧
    ((statusReportOf upsThree driftLedger).rows.map (fun row => row.1)).Sorted strLe ∧
    ((upsThree.map (fun m => m.version)).Nodup →
      ((statusReportOf upsThree driftLedger).rows.map (fun row => row.1)).Sorted strLt) ∧
    ((upsThree.map (fun m => m.version)).Nodup →
      ∀ rows applied : List (String × String),
        (∀ v, ledgerChecksum rows v = ledgerChecksum driftLedger v) →
        applied.Perm (scanRows rows []) →
        printStatuses (buildStatuses upsThree applied) = statusReportOf upsThree driftLedger) :=
  showStatus_sorted_determined sampleEnv fsThree (sampleState driftLedger) upsThree
    (statusReportOf upsThree driftLedger) loadMigrations_fsThree_up (by decide)

/-- C12. Whatever the files and the database, and whether it succeeds or fails,
`showStatus` leaves the ledger, the schema and the history of requests as they
were: it makes no request that changes the database. -/
theorem showStatus_read_only (E : Env) (fs : FS) (st : State E) :
    (showStatus E fs st).2.ledger = st.ledger ∧
    (showStatus E fs st).2.history = st.history ∧
    (showStatus E fs st).2.schema = st.schema := by
  unfold showStatus
  cases loadMigrations E fs migrationsDir ".up.sql" with
  | error e => exact ⟨rfl, rfl, rfl⟩
  | ok ms =>
    simp only [getAppliedMigrations_eq]
    split
    · exact ⟨rfl, rfl, rfl⟩
    · exact ⟨rfl, rfl, rfl⟩

/-! ## Ledger entries without a file do not affect the runs -/

/-- C14 (amended). The sequence `loadMigrations` returns is sorted ascending by
path: of any two migrations in it, the earlier one's path is not greater than
the later one's, and the paths are those `listSQLWithSuffix` lists. -/
theorem loadMigrations_sorted_by_path (E : Env) (fs : FS) (dir suffix : String)
    (ms : List migration) (h : loadMigrations E fs dir suffix = .ok ms) :
    listSQLWithSuffix fs dir suffix = .ok (ms.map (fun m => m.path)) ∧
    ms.Pairwise (fun a b => strLe a.path b.path) := by
  obtain ⟨hlist, _⟩ := loadMigrations_ok E fs dir suffix ms h
  refine ⟨hlist, ?_⟩
  have := listSQLWithSuffix_sorted fs dir suffix _ hlist
  rw [List.Sorted, List.pairwise_map] at this
  exact this

/-- C14 (amended) on the forward files of `fsThree`. -/
theorem loadMigrations_sorted_by_path_witness :
    listSQLWithSuffix fsThree migrationsDir ".up.sql" = .ok (upsThree.map (fun m => m.path)) ∧
    upsThree.Pairwise (fun a b => strLe a.path b.path) :=
  loadMigrations_sorted_by_path sampleEnv fsThree migrationsDir ".up.sql" upsThree
    loadMigrations_fsThree_up

/-- C14, as stated, fails: the two forward files of `fsOrder` are loaded with the
version `0001-a` before the version `0001`, and those of `fsNested` with the
version `0002_users` before the version `0001_init`; in both the first version
is greater than the second. -/
theorem loadMigrations_not_sorted_by_version :
    (loadMigrations sampleEnv fsOrder migrationsDir ".up.sql").map
      (fun ms => ms.map (fun m => m.version)) = .ok ["0001-a", "0001"] ∧
    strLt "0001" "0001-a" ∧
    (loadMigrations sampleEnv fsNested migrationsDir ".up.sql").map
      (fun ms => ms.map (fun m => m.version)) = .ok ["0002_users", "0001_init"] ∧
    strLt "0001_init" "0002_users" := by
  decide

/-- C15 at the failing input: the file `0001_INIT.UP.SQL` qualifies for the suffix
`.up.sql`, and the version `loadMigrations` gives it is the whole file name, 16
characters long, the suffix of 7 characters not stripped; the reverse file
`0001_INIT.DOWN.SQL` gets another version, so that the two never meet in the
ledger. -/
theorem loadMigrations_upper_case_suffix :
    hasSuffix (toLower "0001_INIT.UP.SQL") ".up.sql" = true ∧
    (loadMigrations sampleEnv fsUpper migrationsDir ".up.sql").map
      (fun ms => ms.map (fun m => m.version)) = .ok ["0001_INIT.UP.SQL"] ∧
    "0001_INIT.UP.SQL".data.length = 16 ∧
    ".up.sql".data.length = 7 ∧
    (loadMigrations sampleEnv fsUpper migrationsDir ".down.sql").map
      (fun ms => ms.map (fun m => m.version)) = .ok ["0001_INIT.DOWN.SQL"] := by
  decide

/-- C16. On a tree whose directories can all be read, `listSQLWithSuffix` returns
the sorted list of the paths of the entries that are not directories, at any
depth, and whose name, lower-cased, ends with the suffix: the list is a
permutation of these paths, each entry counted once, and a path is in it
exactly when it is the path of such an entry. -/
theorem listSQLWithSuffix_exact (node : Node) (dir suffix : String)
    (h : node.readable = true) :
    listSQLWithSuffix (.ok node) dir suffix =
      .ok ((qualifyingPaths suffix dir (node.withName (base dir))).insertionSort strLe) ∧
    ((qualifyingPaths suffix dir (node.withName (base dir))).insertionSort strLe).Perm
      (qualifyingPaths suffix dir (node.withName (base dir))) ∧
    (∀ p, p ∈ (qualifyingPaths suffix dir (node.withName (base dir))).insertionSort strLe ↔
      ∃ name, (p, name) ∈ (node.withName (base dir)).leaves dir ∧
        hasSuffix (toLower name) suffix = true) := by
  refine ⟨listSQLWithSuffix_readable node dir suffix h, List.perm_insertionSort _ _, ?_⟩
  intro p
  rw [(List.perm_insertionSort strLe _).mem_iff]
  unfold qualifyingPaths
  rw [List.mem_map]
  constructor
  · rintro ⟨⟨p2, name⟩, hmem, rfl⟩
    rw [List.mem_filter] at hmem
    exact ⟨name, hmem.1, hmem.2⟩
  · rintro ⟨name, hmem, hq⟩
    exact ⟨(p, name), List.mem_filter.2 ⟨hmem, hq⟩, rfl⟩

/-- C16 on a tree with qualifying files at three depths. -/
theorem listSQLWithSuffix_exact_witness :
    listSQLWithSuffix (.ok treeMixed) "migrations" ".up.sql" =
      .ok ((qualifyingPaths ".up.sql" "migrations"
        (treeMixed.withName (base "migrations"))).insertionSort strLe) ∧
    ((qualifyingPaths ".up.sql" "migrations"
        (treeMixed.withName (base "migrations"))).insertionSort strLe).Perm
      (qualifyingPaths ".up.sql" "migrations" (treeMixed.withName (base "migrations"))) ∧
    (∀ p, p ∈ (qualifyingPaths ".up.sql" "migrations"
        (treeMixed.withName (base "migrations"))).insertionSort strLe ↔
      ∃ name, (p, name) ∈ (treeMixed.withName (base "migrations")).leaves "migrations" ∧
        hasSuffix (toLower name) ".up.sql" = true) :=
  listSQLWithSuffix_exact treeMixed "migrations" ".up.sql" (by decide)

/-- C17. On a tree whose directories can all be read and that holds no
qualifying file, `loadMigrations` returns the empty sequence and no error.  When
the walk fails, as it does when the root cannot be found or a directory cannot
be read, `loadMigrations` returns the error of the walk; when the walk lists a
file that cannot be read, `loadMigrations` returns an error.  An error comes
without any migration. -/
theorem loadMigrations_empty_or_error (E : Env) (fs : FS) (dir suffix : String) :
    (∀ node, fs = .ok node → node.readable = true →
      qualifyingPaths suffix dir (node.withName (base dir)) = [] →
      loadMigrations E fs dir suffix = .ok []) ∧
    (∀ e, listSQLWithSuffix fs dir suffix = .error e →
      loadMigrations E fs dir suffix = .error e) ∧
    (∀ e, fs = .error e → listSQLWithSuffix fs dir suffix = .error e) ∧
    (∀ node, fs = .ok node → node.readable = false →
      ∃ e, listSQLWithSuffix fs dir suffix = .error e) ∧
    (∀ files, listSQLWithSuffix fs dir suffix = .ok files →
      (∃ p ∈ files, ∃ e, readFile fs dir p = .error e) →
      ∃ e, loadMigrations E fs dir suffix = .error e) := by
  refine ⟨?_, ?_, ?_, ?_, ?_⟩
  · intro node hfs hr hq
    subst hfs
    unfold loadMigrations
    rw [listSQLWithSuffix_readable node dir suffix hr, hq]
    rfl
  · intro e he
    unfold loadMigrations
    rw [he]
  · intro e hfs
    subst hfs
    exact listSQLWithSuffix_missing e dir suffix
  · intro node hfs hr
    subst hfs
    exact listSQLWithSuffix_unreadable node dir suffix hr
  · intro files hl hbad
    unfold loadMigrations
    rw [hl]
    exact loadFiles_unreadable E fs dir suffix files [] hbad

/-- C17 on a directory without files, a directory with a subdirectory that cannot
be read, and a directory with a file that cannot be read. -/
theorem loadMigrations_empty_or_error_witness :
    loadMigrations sampleEnv fsEmpty migrationsDir ".up.sql" = .ok [] ∧
    loadMigrations sampleEnv fsLocked migrationsDir ".up.sql" =
      .error "open migrations/private: permission denied" ∧
    (∃ e, loadMigrations sampleEnv fsBroken migrationsDir ".up.sql" = .error e) :=
  ⟨(loadMigrations_empty_or_error sampleEnv fsEmpty migrationsDir ".up.sql").1
      (.dir "migrations" none []) rfl (by decide) (by decide),
    (loadMigrations_empty_or_error sampleEnv fsLocked migrationsDir ".up.sql").2.1
      "open migrations/private: permission denied" (by decide),
    (loadMigrations_empty_or_error sampleEnv fsBroken migrationsDir ".up.sql").2.2.2.2
      ["migrations/0001_init.up.sql", "migrations/0002_users.up.sql"] (by decide)
      ⟨"migrations/0002_users.up.sql", by decide,
        "open migrations/0002_users.up.sql: permission denied", by decide⟩⟩

/-- C18. For every migration `loadMigrations` returns, the content is what
`os.ReadFile` returns for its path, unchanged, and the checksum is
`calculateChecksum` of that content; so two loaded migrations with the same
content, from the same or from another directory, file name or run, have the
same checksum. -/
theorem loadMigrations_checksum (E : Env) (fs fs2 : FS) (dir suffix dir2 suffix2 : String)
    (ms ms2 : List migration)
    (h : loadMigrations E fs dir suffix = .ok ms)
    (h2 : loadMigrations E fs2 dir2 suffix2 = .ok ms2) :
    (∀ m ∈ ms, readFile fs dir m.path = .ok m.content ∧
      m.checksum = calculateChecksum E m.content) ∧
    (∀ m ∈ ms, ∀ m2 ∈ ms2, m.content = m2.content → m.checksum = m2.checksum) := by
  obtain ⟨_, hl⟩ := loadMigrations_ok E fs dir suffix ms h
  obtain ⟨_, hl2⟩ := loadMigrations_ok E fs2 dir2 suffix2 ms2 h2
  refine ⟨fun m hm => ⟨(hl m hm).2.1, (hl m hm).2.2⟩, ?_⟩
  intro m hm m2 hm2 hc
  rw [(hl m hm).2.2, (hl2 m2 hm2).2.2, hc]

/-- C18 on the three forward files of `fsThree` and the two files of `fsTwin`,
one of which has the content of the first under another path. -/
theorem loadMigrations_checksum_witness :
    (∀ m ∈ upsThree, readFile fsThree migrationsDir m.path = .ok m.content ∧
      m.checksum = calculateChecksum sampleEnv m.content) ∧
    (∀ m ∈ upsThree, ∀ m2 ∈ upsTwin, m.content = m2.content → m.checksum = m2.checksum) :=
  loadMigrations_checksum sampleEnv fsThree fsTwin migrationsDir ".up.sql" migrationsDir ".up.sql"
    upsThree upsTwin loadMigrations_fsThree_up loadMigrations_fsTwin_up

/-! ## Checksums -/

/-- C19. For every content, `calculateChecksum` returns exactly 64 characters,
each one of `0123456789abcdef`, and they are the hexadecimal encoding, two
digits a byte, of the 32 bytes of the digest. -/
theorem calculateChecksum_hex (E : Env) (content : String) :
    (calculateChecksum E content).length = 64 ∧
    (∀ c ∈ (calculateChecksum E content).data, c ∈ "0123456789abcdef".data) ∧
    decodeHex (calculateChecksum E content).data =
      some ((E.sum256 content).map (fun b => b.val)) ∧
    (E.sum256 content).length = 32 := by
  refine ⟨?_, ?_, ?_, E.sum256_length content⟩
  · show ((E.sum256 content).map hexByte).flatten.length = 64
    rw [length_hexBytes, E.sum256_length]
  · intro c hc
    have hc2 : c ∈ ((E.sum256 content).map hexByte).flatten := hc
    rw [List.mem_flatten] at hc2
    obtain ⟨l, hl, hcl⟩ := hc2
    obtain ⟨b, _, rfl⟩ := List.mem_map.1 hl
    exact hexByte_digits b c hcl
  · exact decodeHex_hexBytes _

/-! ## The statements of a migration -/

/-- C20. The statements of a migration are the pieces of its content between
the `;`, trimmed of white space, without the empty ones.  When the database
runs them all, in order, `applyMigration` succeeds, leaves the schema they
produce and has made exactly these requests.  When the database rejects one of
them after running those before it, `applyMigration` returns the error made of
the database error and the text of that statement, the schema is the one the
earlier statements produced, and the requests made are the earlier statements
and the rejected one: no later statement is executed.  It succeeds exactly when
the database runs every statement. -/
theorem applyMigration_statements (E : Env) (st : State E) (m : migration) :
    (∀ schema1, runStatements E st.schema (statementsOf (splitStatements m.content)) = some schema1 →
      applyMigration E st m =
        (.ok (),
          { st with
            schema := schema1
            history := st.history ++
              (statementsOf (splitStatements m.content)).map (fun stmt => DbCall.exec stmt true) })) ∧
    (∀ pre post stmt err schema1,
      statementsOf (splitStatements m.content) = pre ++ stmt :: post →
      runStatements E st.schema pre = some schema1 →
      E.exec schema1 stmt = .error err →
      applyMigration E st m =
        (.error (statementError err stmt),
          { st with
            schema := schema1
            history := st.history ++ pre.map (fun s => DbCall.exec s true) ++
              [DbCall.exec stmt false] })) ∧
    ((applyMigration E st m).1 = .ok () ↔
      (runStatements E st.schema (statementsOf (splitStatements m.content))).isSome = true) := by
  refine ⟨?_, ?_, ?_⟩
  · intro schema1 h
    exact applyStatements_all_ok E _ st schema1 h
  · intro pre post stmt err schema1 h1 h2 h3
    exact applyStatements_fails_at E _ st pre post stmt err schema1 h1 h2 h3
  · constructor
    · intro h
      have : applyMigration E st m = (.ok (), (applyMigration E st m).2) := by
        rw [← h]
      rw [applyStatements_ok_runs E _ st _ this]
      rfl
    · intro h
      cases hr : runStatements E st.schema (statementsOf (splitStatements m.content)) with
      | none => rw [hr] at h; cases h
      | some schema1 =>
        unfold applyMigration
        rw [applyStatements_all_ok E _ st schema1 hr]

/-- C20 on a migration of three statements, the second of which the database
rejects. -/
theorem applyMigration_statements_witness :
    applyMigration sampleEnv (sampleState []) badMigration =
      (.error (statementError "syntax error" "BOOM"),
        { schema := ["CREATE TABLE a (id INT)"]
          ledger := []
          history := [.exec "CREATE TABLE a (id INT)" true, .exec "BOOM" false]
          log := [] }) :=
  (applyMigration_statements sampleEnv (sampleState []) badMigration).2.1
    ["CREATE TABLE a (id INT)"] ["CREATE TABLE b (id INT)"] "BOOM" "syntax error"
    ["CREATE TABLE a (id INT)"] (by decide) (by rfl) (by rfl)

/-! ## Lemmas on failed forward runs -/

theorem applyStatements_calls (E : Env) (pieces : List String) (st : State E) :
    ∃ calls, (applyStatements E pieces st).2.history = st.history ++ calls ∧
      ∀ c ∈ calls, ∃ stmt ok, c = DbCall.exec stmt ok ∧ stmt ∈ statementsOf pieces := by
  induction pieces generalizing st with
  | nil => exact ⟨[], by simp [applyStatements], by simp⟩
  | cons piece rest ih =>
    simp only [applyStatements]
    by_cases hempty : trimSpace piece = ""
    · rw [if_pos hempty, statementsOf_cons_empty piece rest hempty]
      exact ih st
    · rw [if_neg hempty, statementsOf_cons_stmt piece rest hempty]
      unfold dbExec
      cases hx : E.exec st.schema (trimSpace piece) with
      | error err =>
        simp only
        exact ⟨[.exec (trimSpace piece) false], rfl, by simp⟩
      | ok schema1 =>
        simp only
        obtain ⟨calls, h1, h2⟩ := ih
          { st with schema := schema1, history := st.history ++ [.exec (trimSpace piece) true] }
        refine ⟨.exec (trimSpace piece) true :: calls, by rw [h1]; simp, ?_⟩
        intro c hc
        rcases List.mem_cons.1 hc with rfl | hc
        · exact ⟨_, _, rfl, List.mem_cons_self _ _⟩
        · obtain ⟨stmt, ok, e1, e2⟩ := h2 c hc
          exact ⟨stmt, ok, e1, List.mem_cons_of_mem _ e2⟩

theorem recordMigration_error {E : Env} (st st2 : State E) (v c err : String)
    (h : recordMigration st v c = (.error err, st2)) :
    st2.ledger = st.ledger ∧ st2.history = st.history ++ [.insert v c false] := by
  unfold recordMigration at h
  split at h
  · simp only [Prod.mk.injEq] at h
    obtain ⟨_, rfl⟩ := h
    exact ⟨rfl, rfl⟩
  · simp at h

theorem migrateUpLoop_error_append (E : Env) (applied : List (String × String))
    (l rest : List migration) (st stf : State E) (err : String)
    (h : migrateUpLoop E applied l st = (.error err, stf)) :
    migrateUpLoop E applied (l ++ rest) st = (.error err, stf) := by
  induction l generalizing st with
  | nil => simp [migrateUpLoop] at h
  | cons m l ih =>
    simp only [migrateUpLoop, List.cons_append] at h ⊢
    cases hl : applied.lookup m.version with
    | some c =>
      simp only [hl] at h ⊢
      split
      · rename_i hc
        rw [if_pos hc] at h
        exact h
      · rename_i hc
        rw [if_neg hc] at h
        exact ih _ h
    | none =>
      simp only [hl] at h ⊢
      rcases ha : applyMigration E (st.logLine (.applying m.version)) m with ⟨_ | _, st1⟩
      · simp only [ha] at h ⊢
        exact h
      · simp only [ha] at h ⊢
        rcases hr : recordMigration st1 m.version m.checksum with ⟨_ | _, st2⟩
        · simp only [hr] at h ⊢
          exact h
        · simp only [hr] at h ⊢
          exact ih _ h

theorem migrateUpLoop_single_fails (E : Env) (applied : List (String × String)) (m : migration)
    (st stf : State E) (err : String)
    (hpending : applied.lookup m.version = none)
    (h : migrateUpLoop E applied [m] st = (.error err, stf)) :
    stf.ledger = st.ledger ∧
    ∃ calls, stf.history = st.history ++ calls ∧
      ∀ c ∈ calls, (∃ stmt ok, c = DbCall.exec stmt ok ∧
          stmt ∈ statementsOf (splitStatements m.content)) ∨
        c = DbCall.insert m.version m.checksum false := by
  simp only [migrateUpLoop, hpending] at h
  have hl := (applyStatements_ledger E (splitStatements m.content)
    (st.logLine (.applying m.version))).1
  obtain ⟨calls, hc1, hc2⟩ := applyStatements_calls E (splitStatements m.content)
    (st.logLine (.applying m.version))
  unfold applyMigration at h
  rcases ha : applyStatements E (splitStatements m.content)
    (st.logLine (.applying m.version)) with ⟨_ | _, st1⟩
  · rw [ha] at hl hc1
    simp only [ha, Prod.mk.injEq] at h
    obtain ⟨_, rfl⟩ := h
    exact ⟨hl, calls, hc1, fun c hc => Or.inl (hc2 c hc)⟩
  · rw [ha] at hl hc1
    have hl2 : st1.ledger = st.ledger := hl
    have hc3 : st1.history = st.history ++ calls := hc1
    simp only [ha] at h
    rcases hr : recordMigration st1 m.version m.checksum with ⟨_ | _, st2⟩
    · simp only [hr, Prod.mk.injEq] at h
      obtain ⟨_, rfl⟩ := h
      obtain ⟨r1, r2⟩ := recordMigration_error st1 st2 _ _ _ hr
      refine ⟨by rw [r1, hl2], calls ++ [.insert m.version m.checksum false], ?_, ?_⟩
      · rw [r2, hc3, List.append_assoc]
      · intro c hc
        rcases List.mem_append.1 hc with hc | hc
        · exact Or.inl (hc2 c hc)
        · rw [List.mem_singleton] at hc
          exact Or.inr hc
    · simp [hr, migrateUpLoop] at h

theorem loadMigrations_fsFailing_up :
    loadMigrations sampleEnv fsFailing migrationsDir ".up.sql" = .ok upsFailing := by decide

theorem insertsAccepted_append (a b : List DbCall) (ha : insertsAccepted a)
    (hb : insertsAccepted b) : insertsAccepted (a ++ b) := by
  intro c hc
  rcases List.mem_append.1 hc with h | h
  · exact ha c h
  · exact hb c h

theorem insertsAccepted_of_exec (calls : List DbCall)
    (h : ∀ c ∈ calls, ∃ stmt ok, c = DbCall.exec stmt ok) : insertsAccepted calls := by
  intro c hc v cs ok he
  obtain ⟨stmt, ok2, he2⟩ := h c hc
  rw [he2] at he
  cases he

theorem migrateUpLoop_frame (E : Env) (applied : List (String × String)) (l : List migration)
    (st : State E) :
    ∃ new calls,
      (migrateUpLoop E applied l st).2.ledger = st.ledger ++ new ∧
      (migrateUpLoop E applied l st).2.history = st.history ++ calls ∧
      (∀ row ∈ new, row.1 ∉ keys st.ledger) ∧
      ((l.map (fun m => E.weightString m.version)).Nodup →
        (∀ m ∈ l, applied.lookup m.version = none → holdsKey E st.ledger m.version = false) →
        insertsAccepted calls) ∧
      (∀ c ∈ calls, ∀ v cs ok, c = DbCall.insert v cs ok →
        ∃ m ∈ l, applied.lookup m.version = none ∧ m.version = v ∧ m.checksum = cs) ∧
      (keysDistinct E st.ledger → keysDistinct E (migrateUpLoop E applied l st).2.ledger) := by
  induction l generalizing st with
  | nil => exact ⟨[], [], by simp [migrateUpLoop], by simp [migrateUpLoop], by simp,
      (fun _ _ c hc => by cases hc), (fun c hc => by cases hc), fun h => h⟩
  | cons m rest ih =>
    simp only [migrateUpLoop]
    cases hl : applied.lookup m.version with
    | some c =>
      simp only
      split
      · exact ⟨[], [], by simp, by simp, by simp, (fun _ _ c hc => by cases hc),
          (fun c hc => by cases hc), fun h => h⟩
      · obtain ⟨new, calls, h1, h2, h3, h4, h5, h6⟩ := ih (st.logLine (.skipApplied m.version))
        refine ⟨new, calls, h1, h2, h3, ?_, ?_, h6⟩
        · intro hnd hfresh
          exact h4 (List.nodup_cons.1 hnd).2
            (fun m' hm' hp => hfresh m' (List.mem_cons_of_mem _ hm') hp)
        · intro c0 hc0 v cs ok he
          obtain ⟨m', hm', e⟩ := h5 c0 hc0 v cs ok he
          exact ⟨m', List.mem_cons_of_mem _ hm', e⟩
    | none =>
      simp only
      have hled := (applyStatements_ledger E (splitStatements m.content)
        (st.logLine (.applying m.version))).1
      obtain ⟨calls0, hc1, hc2⟩ := applyStatements_calls E (splitStatements m.content)
        (st.logLine (.applying m.version))
      have hexec0 : ∀ c ∈ calls0, ∃ stmt ok, c = DbCall.exec stmt ok := fun c hc => by
        obtain ⟨stmt, ok, e, _⟩ := hc2 c hc
        exact ⟨stmt, ok, e⟩
      have hexec : insertsAccepted calls0 := insertsAccepted_of_exec calls0 hexec0
      have hnoins : ∀ c ∈ calls0, ∀ v cs ok, c = DbCall.insert v cs ok →
          ∃ m' ∈ m :: rest, applied.lookup m'.version = none ∧ m'.version = v ∧
            m'.checksum = cs := by
        intro c hc v cs ok he
        obtain ⟨stmt, ok2, e⟩ := hexec0 c hc
        rw [e] at he
        cases he
      unfold applyMigration
      rcases ha : applyStatements E (splitStatements m.content)
        (st.logLine (.applying m.version)) with ⟨_ | _, st1⟩
      · rw [ha] at hled hc1
        refine ⟨[], calls0, by simpa using hled, hc1, by simp, fun _ _ => hexec, hnoins, ?_⟩
        intro hd
        have hl0 : st1.ledger = st.ledger := hled
        show keysDistinct E st1.ledger
        rw [hl0]; exact hd
      · rw [ha] at hled hc1
        have hl2 : st1.ledger = st.ledger := hled
        have hc3 : st1.history = st.history ++ calls0 := hc1
        simp only
        rcases hr : recordMigration st1 m.version m.checksum with ⟨_ | _, st2⟩
        · obtain ⟨r1, r2⟩ := recordMigration_error st1 st2 _ _ _ hr
          simp only
          refine ⟨[], calls0 ++ [.insert m.version m.checksum false], by simp [r1, hl2],
            by rw [r2, hc3, List.append_assoc], by simp, ?_, ?_, ?_⟩
          · intro _ hfresh
            exfalso
            have hk : holdsKey E st1.ledger m.version = false := by
              rw [hl2]; exact hfresh m (List.mem_cons_self _ _) hl
            unfold recordMigration at hr
            rw [if_neg (by
              intro h
              have h2 : holdsKey E st1.ledger m.version = true := h
              rw [hk] at h2
              cases h2)] at hr
            simp at hr
          · intro c hc v cs ok he
            rcases List.mem_append.1 hc with hc | hc
            · exact hnoins c hc v cs ok he
            · rw [List.mem_singleton] at hc
              rw [hc] at he
              simp only [DbCall.insert.injEq] at he
              exact ⟨m, List.mem_cons_self _ _, hl, he.1, he.2.1⟩
          · intro hd
            show keysDistinct E st2.ledger
            rw [r1, hl2]; exact hd
        · obtain ⟨rk, r1, r2, _, _⟩ := recordMigration_ok st1 st2 _ _ hr
          have rfresh := recordMigration_ok_fresh st1 st2 _ _ hr
          simp only
          obtain ⟨new, calls, h1, h2, h3, h4, h5, h6⟩ := ih (st2.logLine (.applied m.version))
          have hl3 : (st2.logLine (.applied m.version)).ledger =
              st.ledger ++ [(m.version, m.checksum)] := by
            show st2.ledger = _
            rw [r1, hl2]
          have hh3 : (st2.logLine (.applied m.version)).history =
              st.history ++ (calls0 ++ [.insert m.version m.checksum true]) := by
            show st2.history = _
            rw [r2, hc3, List.append_assoc]
          refine ⟨(m.version, m.checksum) :: new,
            calls0 ++ [.insert m.version m.checksum true] ++ calls, ?_, ?_, ?_, ?_, ?_, ?_⟩
          · rw [h1, hl3]; simp
          · rw [h2, hh3]; simp
          · intro row hrow
            rcases List.mem_cons.1 hrow with rfl | hrow
            · rw [← hl2]; exact rk
            · have := h3 row hrow
              rw [hl3] at this
              intro hk; apply this
              simp only [keys, List.map_append, List.mem_append] at hk ⊢
              exact Or.inl hk
          · intro hnd hfresh
            have hnd2 := List.nodup_cons.1 hnd
            apply insertsAccepted_append
            · apply insertsAccepted_append _ _ hexec
              intro c hc v cs ok he
              rw [List.mem_singleton] at hc
              rw [hc] at he
              cases he
              rfl
            · apply h4 hnd2.2
              intro m' hm' hp
              rw [hl3, holdsKey_append, hfresh m' (List.mem_cons_of_mem _ hm') hp,
                Bool.false_or, Bool.eq_false_iff]
              intro hw
              rw [holdsKey_singleton] at hw
              exact hnd2.1 (List.mem_map.2 ⟨m', hm', hw.symm⟩)
          · intro c hc v cs ok he
            rcases List.mem_append.1 hc with hc | hc
            · rcases List.mem_append.1 hc with hc | hc
              · exact hnoins c hc v cs ok he
              · rw [List.mem_singleton] at hc
                rw [hc] at he
                simp only [DbCall.insert.injEq] at he
                exact ⟨m, List.mem_cons_self _ _, hl, he.1, he.2.1⟩
            · obtain ⟨m', hm', e⟩ := h5 c hc v cs ok he
              exact ⟨m', List.mem_cons_of_mem _ hm', e⟩
          · intro hd
            apply h6
            rw [hl3]
            unfold keysDistinct at hd ⊢
            rw [List.map_append, List.nodup_append]
            refine ⟨hd, by simp, ?_⟩
            intro w hw1 hw2
            simp only [List.map_cons, List.map_nil, List.mem_singleton] at hw2
            obtain ⟨row, hrow, hroww⟩ := List.mem_map.1 hw1
            have : holdsKey E st.ledger m.version = true := by
              unfold holdsKey
              rw [List.any_eq_true]
              exact ⟨row, hrow, by simp [hroww, hw2]⟩
            rw [← hl2, rfresh] at this
            cases this

theorem mem_keys_filter (rows : List (String × String)) (p : String → Bool) (v : String) :
    v ∈ keys (rows.filter (fun row => p row.1)) ↔ v ∈ keys rows ∧ p v = true := by
  simp only [mem_keys_iff, List.mem_filter]
  constructor
  · rintro ⟨c, hc, hp⟩
    exact ⟨⟨c, hc⟩, hp⟩
  · rintro ⟨⟨c, hc⟩, hp⟩
    exact ⟨c, hc, hp⟩

theorem migrateUp_frame (E : Env) (fs : FS) (st : State E) :
    ∃ new calls,
      (migrateUp E fs st).2.ledger = st.ledger ++ new ∧
      (migrateUp E fs st).2.history = st.history ++ calls ∧
      (∀ row ∈ new, row.1 ∉ keys st.ledger) ∧
      (∀ ms, loadMigrations E fs migrationsDir ".up.sql" = .ok ms →
        ((ms.map (fun m => E.weightString m.version)).Nodup →
          (∀ m ∈ ms, m.version ∉ keys st.ledger → holdsKey E st.ledger m.version = false) →
          insertsAccepted calls) ∧
        (∀ c ∈ calls, ∀ v cs ok, c = DbCall.insert v cs ok →
          ∃ m ∈ ms, m.version ∉ keys st.ledger ∧ m.version = v ∧ m.checksum = cs)) ∧
      (keysDistinct E st.ledger → keysDistinct E (migrateUp E fs st).2.ledger) := by
  unfold migrateUp
  cases hload : loadMigrations E fs migrationsDir ".up.sql" with
  | error e =>
    exact ⟨[], [], by simp, by simp, by simp,
      fun _ _ => ⟨(fun _ _ c hc => by cases hc), (fun c hc => by cases hc)⟩, fun h => h⟩
  | ok ms =>
    simp only [getAppliedMigrations_eq]
    split
    · exact ⟨[], [], by simp [State.logLine], by simp [State.logLine], by simp,
        fun _ _ => ⟨(fun _ _ c hc => by cases hc), (fun c hc => by cases hc)⟩, fun h => h⟩
    · obtain ⟨new, calls, h1, h2, h3, h4, h5, h6⟩ :=
        migrateUpLoop_frame E (scanRows st.ledger []) ms st
      refine ⟨new, calls, h1, h2, h3, ?_, h6⟩
      intro ms2 hms2
      simp only [Except.ok.injEq] at hms2
      subst hms2
      refine ⟨fun hnd hfresh => h4 hnd (fun m hm hp =>
        hfresh m hm ((ledgerChecksum_eq_none_iff st.ledger m.version).1 hp)), ?_⟩
      intro c hc v cs ok he
      obtain ⟨m, hm, hp, e⟩ := h5 c hc v cs ok he
      exact ⟨m, hm, (ledgerChecksum_eq_none_iff st.ledger m.version).1 hp, e⟩

theorem migrateDown_frame (E : Env) (fs : FS) (st : State E) :
    ∃ dels : List String,
      (migrateDown E fs st).2.ledger = st.ledger.filter (fun row => decide (row.1 ∉ dels)) := by
  unfold migrateDown
  cases hload : loadMigrations E fs migrationsDir ".down.sql" with
  | error e => exact ⟨[], by simp⟩
  | ok ms =>
    simp only [getAppliedMigrations_eq]
    split
    · exact ⟨[], by simp [State.logLine]⟩
    · obtain ⟨_, _, _, dels, _, _, h, _, _⟩ :=
        migrateDownLoop_congr E (scanRows st.ledger []) (scanRows st.ledger []) ms.reverse st st
          (fun _ _ => rfl) rfl
      exact ⟨dels, h⟩

theorem migrateUpLoop_mismatch_fails (E : Env) (applied : List (String × String))
    (l : List migration) (st : State E) (m : migration) (c : String)
    (hm : m ∈ l) (hl : applied.lookup m.version = some c) (hc : c ≠ m.checksum) :
    ∃ err, (migrateUpLoop E applied l st).1 = .error err := by
  induction l generalizing st with
  | nil => cases hm
  | cons m0 rest ih =>
    simp only [migrateUpLoop]
    cases hl0 : applied.lookup m0.version with
    | some c0 =>
      simp only []
      by_cases hc0 : c0 ≠ m0.checksum
      · rw [if_pos hc0]; exact ⟨_, rfl⟩
      · rw [if_neg hc0]
        rcases List.mem_cons.1 hm with rfl | hm
        · rw [hl] at hl0
          simp only [Option.some.injEq] at hl0
          subst hl0
          exact absurd hc hc0
        · exact ih _ hm
    | none =>
      simp only []
      rcases ha : applyMigration E (st.logLine (.applying m0.version)) m0 with ⟨r, s⟩
      cases r with
      | error e => exact ⟨_, rfl⟩
      | ok u =>
        simp only []
        rcases hr : recordMigration s m0.version m0.checksum with ⟨r2, s2⟩
        cases r2 with
        | error e => exact ⟨_, rfl⟩
        | ok u2 =>
          simp only []
          rcases List.mem_cons.1 hm with rfl | hm
          · rw [hl] at hl0; cases hl0
          · exact ih _ hm

/-! ## Lemmas on the pieces of a content, the mismatch message, the counters -/

theorem splitOn_no_sep (sep : Char) (l : List Char) :
    ∀ piece ∈ l.splitOn sep, sep ∉ piece := by
  unfold List.splitOn
  induction l with
  | nil => simp
  | cons c rest ih =>
    rw [List.splitOnP_cons]
    by_cases h : (c == sep) = true
    · rw [if_pos h]
      intro piece hp
      rcases List.mem_cons.1 hp with rfl | hp
      · simp
      · exact ih piece hp
    · rw [if_neg h]
      cases hs : List.splitOnP (fun x => x == sep) rest with
      | nil => exact absurd hs (List.splitOnP_ne_nil _ _)
      | cons first others =>
        rw [hs] at ih
        intro piece hp
        simp only [List.modifyHead, List.mem_cons] at hp
        rcases hp with rfl | hp
        · intro hmem
          rcases List.mem_cons.1 hmem with heq | hmem
          · exact h (by simp [heq])
          · exact ih first (List.mem_cons_self _ _) hmem
        · exact ih piece (List.mem_cons_of_mem _ hp)

theorem splitOn_length (sep : Char) (l : List Char) :
    (l.splitOn sep).length = l.count sep + 1 := by
  unfold List.splitOn
  induction l with
  | nil => simp
  | cons c rest ih =>
    rw [List.splitOnP_cons]
    by_cases h : (c == sep) = true
    · rw [if_pos h, List.length_cons, ih, List.count_cons]
      simp [h]
    · rw [if_neg h, List.count_cons]
      have hlen : ∀ (ls : List (List Char)), (ls.modifyHead (List.cons c)).length = ls.length := by
        intro ls; cases ls <;> rfl
      rw [hlen, ih]
      simp [h]

theorem checksumMismatchError_contains (version appliedChecksum currentChecksum : String) :
    containsText (checksumMismatchError version appliedChecksum currentChecksum) version ∧
    containsText (checksumMismatchError version appliedChecksum currentChecksum) appliedChecksum ∧
    containsText (checksumMismatchError version appliedChecksum currentChecksum)
      currentChecksum := by
  unfold checksumMismatchError containsText
  refine ⟨⟨"❌ CHECKSUM MISMATCH for ", "\nApplied: " ++ appliedChecksum ++ "\nCurrent: " ++
      currentChecksum ++ "\nMigration file was modified after being applied!", ?_⟩,
    ⟨"❌ CHECKSUM MISMATCH for " ++ version ++ "\nApplied: ", "\nCurrent: " ++
      currentChecksum ++ "\nMigration file was modified after being applied!", ?_⟩,
    ⟨"❌ CHECKSUM MISMATCH for " ++ version ++ "\nApplied: " ++ appliedChecksum ++
      "\nCurrent: ", "\nMigration file was modified after being applied!", ?_⟩⟩ <;>
  simp only [String.append_assoc]

theorem countStatuses_total (l : List migrationStatus) (counts : statusCounts) :
    (countStatuses l counts).appliedCount + (countStatuses l counts).pendingCount +
      (countStatuses l counts).mismatchCount =
      counts.appliedCount + counts.pendingCount + counts.mismatchCount + l.length := by
  induction l generalizing counts with
  | nil => simp [countStatuses]
  | cons s rest ih =>
    simp only [countStatuses]
    cases ha : s.applied <;> cases hc : s.checksumMatch <;>
      simp [ih, ha, hc]
    all_goals omega

theorem countStatuses_pendingCount (l : List migrationStatus) (counts : statusCounts) :
    (countStatuses l counts).pendingCount =
      counts.pendingCount + l.countP (fun s => !s.applied) := by
  induction l generalizing counts with
  | nil => simp [countStatuses]
  | cons s rest ih =>
    simp only [countStatuses]
    cases ha : s.applied <;> cases hc : s.checksumMatch <;>
      simp [ih, List.countP_cons, ha, hc]
    all_goals omega

theorem orphanStatuses_applied (ms : List migration) (applied : List (String × String)) :
    ∀ s ∈ orphanStatuses ms applied, s.applied = true := by
  induction applied with
  | nil => intro s hs; cases hs
  | cons e rest ih =>
    obtain ⟨v, c⟩ := e
    intro s hs
    simp only [orphanStatuses] at hs
    split at hs
    · rcases List.mem_cons.1 hs with rfl | hs
      · rfl
      · exact ih s hs
    · exact ih s hs

theorem fileStatus_pending (rows : List (String × String)) (m : migration) :
    (!(fileStatus (scanRows rows []) m).applied) = decide (m.version ∉ keys rows) := by
  have h := ledgerChecksum_eq_none_iff rows m.version
  unfold ledgerChecksum at h
  unfold fileStatus
  cases hl : List.lookup m.version (scanRows rows []) with
  | none => simp [h.1 hl]
  | some c =>
    have : m.version ∈ keys rows := by
      by_contra hk
      rw [h.2 hk] at hl; cases hl
    simp [this]

/-! ## Failed runs, the writes to the ledger -/

/-- C21 (amended). When `migrateUp` fails while applying a pending migration, it
returns that error in the state the failed application leaves: the ledger is
the starting ledger followed by the rows recorded for the pending migrations
before it in the list, and nothing else; the requests made before the
migration was reached are those of the pending migrations before it, and the
requests made since are statements of that migration and, when the recording
is what failed, the rejected insert, so that no statement of a later
migration is executed; and the ledger holds no entry for its version when no
migration before it in the list has the same version. -/
theorem migrateUp_fails_while_applying (E : Env) (fs : FS) (st stp stf : State E)
    (pre post : List migration) (m : migration) (err : String)
    (hload : loadMigrations E fs migrationsDir ".up.sql" = .ok (pre ++ m :: post))
    (hreach : migrateUpLoop E (scanRows st.ledger []) pre st = (.ok (), stp))
    (hpending : ledgerChecksum st.ledger m.version = none)
    (hfail : migrateUpLoop E (scanRows st.ledger []) [m] stp = (.error err, stf)) :
    migrateUp E fs st = (.error err, stf) ∧
    stf.ledger = st.ledger ++ newRows st.ledger pre ∧
    callsSince st stp =
      ((pre.filter (fun p => decide (p.version ∉ keys st.ledger))).map upCalls).flatten ∧
    (∀ c ∈ callsSince stp stf,
      (∃ stmt ok, c = DbCall.exec stmt ok ∧ stmt ∈ statementsOf (splitStatements m.content)) ∨
        c = DbCall.insert m.version m.checksum false) ∧
    ((∀ p ∈ pre, p.version ≠ m.version) → m.version ∉ keys stf.ledger) := by
  obtain ⟨hl, calls, hc1, hc2⟩ :=
    migrateUpLoop_single_fails E _ m stp stf err hpending hfail
  obtain ⟨hp, _, _, _, hhist, _⟩ := migrateUpLoop_ok E _ pre st stp hreach
  rw [pendingFiles_eq] at hp hhist
  have hledger : stf.ledger = st.ledger ++ newRows st.ledger pre := by
    rw [hl, hp]; rfl
  refine ⟨?_, hledger, ?_, ?_, ?_⟩
  · unfold migrateUp
    rw [hload]
    simp only [getAppliedMigrations_eq]
    rw [if_neg (by simp), migrateUpLoop_append E _ pre (m :: post) st stp hreach]
    exact migrateUpLoop_error_append E _ [m] post stp stf err hfail
  · rw [callsSince_eq st stp _ hhist]
  · rw [callsSince_eq stp stf calls hc1]
    exact hc2
  · intro hdistinct hk
    rw [hledger] at hk
    obtain ⟨c, hc⟩ := (mem_keys_iff _ _).1 hk
    rcases List.mem_append.1 hc with hc | hc
    · exact (ledgerChecksum_eq_none_iff _ _).1 hpending ((mem_keys_iff _ _).2 ⟨c, hc⟩)
    · obtain ⟨p, hp2, _, hv, _⟩ := (mem_newRows _ _ _ _).1 hc
      exact hdistinct p hp2 hv

/-- C21, as stated, fails. In `fsFailing` the second file is pending and its second
statement is rejected, and the ledger holds the version of the third file: the
run fails while applying `0002_bad`, and the resulting ledger still holds the
entry of `0003_users`, a version after it in the list. In `fsTwin` the
recording of the second file fails, and the resulting ledger holds an entry
for its version, recorded for the first file. -/
theorem migrateUp_failure_keeps_entries :
    (migrateUp sampleEnv fsFailing (sampleState usersLedger)).1 =
      .error ("failed to apply 0002_bad: " ++ statementError "syntax error" "BOOM") ∧
    "0003_users" ∈ keys (migrateUp sampleEnv fsFailing (sampleState usersLedger)).2.ledger ∧
    (migrateUp sampleEnv fsTwin (sampleState [])).1 =
      .error ("failed to record 0001_init: Error 1062 (23000): Duplicate entry 0001_init" ++
        " for key schema_migrations.version") ∧
    "0001_init" ∈ keys (migrateUp sampleEnv fsTwin (sampleState [])).2.ledger := by
  decide

/-- C21 (amended) on the files of `fsFailing`, from an empty ledger: the first
file is applied and recorded, the second statement of the second is rejected. -/
theorem migrateUp_fails_while_applying_witness :
    migrateUp sampleEnv fsFailing (sampleState []) =
      (.error ("failed to apply 0002_bad: " ++ statementError "syntax error" "BOOM"),
        failingFinal) ∧
    failingFinal.ledger = (sampleState []).ledger ++ newRows (sampleState []).ledger
      [sampleMigration "0001_init" ".up.sql" "CREATE TABLE products (id INT);"] ∧
    callsSince (sampleState []) failingReached =
      (([sampleMigration "0001_init" ".up.sql" "CREATE TABLE products (id INT);"].filter
        (fun p => decide (p.version ∉ keys (sampleState []).ledger))).map upCalls).flatten ∧
    (∀ c ∈ callsSince failingReached failingFinal,
      (∃ stmt ok, c = DbCall.exec stmt ok ∧
          stmt ∈ statementsOf (splitStatements badUp.content)) ∨
        c = DbCall.insert badUp.version badUp.checksum false) ∧
    ((∀ p ∈ [sampleMigration "0001_init" ".up.sql" "CREATE TABLE products (id INT);"],
        p.version ≠ badUp.version) → badUp.version ∉ keys failingFinal.ledger) :=
  migrateUp_fails_while_applying sampleEnv fsFailing (sampleState []) failingReached failingFinal
    [sampleMigration "0001_init" ".up.sql" "CREATE TABLE products (id INT);"]
    [sampleMigration "0003_users" ".up.sql" "CREATE TABLE users (id INT);"]
    badUp ("failed to apply 0002_bad: " ++ statementError "syntax error" "BOOM")
    loadMigrations_fsFailing_up (by rfl) (by decide) (by rfl)

/-- C23. In every run of `migrateUp`, `migrateDown` or `showStatus`, successful or
failed, a version the ledger holds before and after the run has the same
checksum after as before: `migrateUp` only appends rows, for versions the
ledger did not hold, `migrateDown` only removes rows, and `showStatus` leaves
the rows as they are. -/
theorem ledger_entries_not_mutated (E : Env) (fs : FS) (st : State E) :
    (∀ v c c2, ledgerChecksum st.ledger v = some c →
      ledgerChecksum (migrateUp E fs st).2.ledger v = some c2 → c = c2) ∧
    (∀ v c c2, ledgerChecksum st.ledger v = some c →
      ledgerChecksum (migrateDown E fs st).2.ledger v = some c2 → c = c2) ∧
    (∀ v c c2, ledgerChecksum st.ledger v = some c →
      ledgerChecksum (showStatus E fs st).2.ledger v = some c2 → c = c2) ∧
    (∃ new, (migrateUp E fs st).2.ledger = st.ledger ++ new ∧
      ∀ row ∈ new, row.1 ∉ keys st.ledger) ∧
    (migrateDown E fs st).2.ledger.Sublist st.ledger ∧
    (showStatus E fs st).2.ledger = st.ledger := by
  obtain ⟨new, _, h1, _, h3, _⟩ := migrateUp_frame E fs st
  obtain ⟨dels, hd⟩ := migrateDown_frame E fs st
  have hs : (showStatus E fs st).2.ledger = st.ledger := by
    unfold showStatus
    cases loadMigrations E fs migrationsDir ".up.sql" with
    | error e => rfl
    | ok ms =>
      simp only [getAppliedMigrations_eq]
      split <;> rfl
  refine ⟨?_, ?_, ?_, ⟨new, h1, h3⟩, ?_, hs⟩
  · intro v c c2 hc hc2
    rw [h1, ledgerChecksum_append] at hc2
    have hk : v ∈ keys st.ledger := by
      by_contra hk
      rw [(ledgerChecksum_eq_none_iff _ _).2 hk] at hc; cases hc
    have hnone : ledgerChecksum new v = none := by
      apply (ledgerChecksum_eq_none_iff _ _).2
      intro hv
      obtain ⟨c3, h⟩ := (mem_keys_iff _ _).1 hv
      exact h3 (v, c3) h hk
    rw [hnone, hc] at hc2
    simpa using hc2
  · intro v c c2 hc hc2
    rw [hd, ledgerChecksum_filter_key st.ledger (fun k => decide (k ∉ dels)) v] at hc2
    split at hc2
    · rw [hc] at hc2; simpa using hc2
    · cases hc2
  · intro v c c2 hc hc2
    rw [hs, hc] at hc2
    simpa using hc2
  · rw [hd]
    exact List.filter_sublist _

/-! ## The empty directory, the mismatch message, the pieces of a content -/

/-- C24. When no forward file and no reverse file is loaded, then for every
database `migrateUp` and `migrateDown` succeed after logging that no migrations
were found, and `showStatus` succeeds after logging the same and prints no
table, hence no row; none of them makes a request to the database, and the
schema and the ledger are as they were. -/
theorem empty_directory_runs (E : Env) (fs : FS) (st : State E)
    (hup : loadMigrations E fs migrationsDir ".up.sql" = .ok [])
    (hdown : loadMigrations E fs migrationsDir ".down.sql" = .ok []) :
    migrateUp E fs st = (.ok (), { st with log := st.log ++ [LogEntry.noMigrations] }) ∧
    migrateDown E fs st = (.ok (), { st with log := st.log ++ [LogEntry.noDownMigrations] }) ∧
    showStatus E fs st =
      (.ok none, { st with log := st.log ++ [LogEntry.noMigrationsIn migrationsDir] }) := by
  refine ⟨?_, ?_, ?_⟩
  · unfold migrateUp; rw [hup]; rfl
  · unfold migrateDown; rw [hdown]; rfl
  · unfold showStatus; rw [hup]; rfl

/-- C24 on the empty directory `fsEmpty` and a ledger of three entries. -/
theorem empty_directory_runs_witness :
    migrateUp sampleEnv fsEmpty (sampleState strayLedger) =
      (.ok (), { sampleState strayLedger with
        log := (sampleState strayLedger).log ++ [LogEntry.noMigrations] }) ∧
    migrateDown sampleEnv fsEmpty (sampleState strayLedger) =
      (.ok (), { sampleState strayLedger with
        log := (sampleState strayLedger).log ++ [LogEntry.noDownMigrations] }) ∧
    showStatus sampleEnv fsEmpty (sampleState strayLedger) =
      (.ok none, { sampleState strayLedger with
        log := (sampleState strayLedger).log ++ [LogEntry.noMigrationsIn migrationsDir] }) :=
  empty_directory_runs sampleEnv fsEmpty (sampleState strayLedger) (by decide) (by decide)

/-- C25. When `migrateUp` stops at a migration whose version the ledger holds with
another checksum, the error it returns is the mismatch message built from the
version of that migration, the checksum of its ledger entry and the checksum of
its file, and of nothing else: whatever the migrations before and after it; the
three stand in the message. -/
theorem migrateUp_mismatch_message (E : Env) (fs : FS) (st stp : State E)
    (pre post : List migration) (m : migration) (appliedChecksum : String)
    (hload : loadMigrations E fs migrationsDir ".up.sql" = .ok (pre ++ m :: post))
    (hentry : ledgerChecksum st.ledger m.version = some appliedChecksum)
    (hdiff : appliedChecksum ≠ m.checksum)
    (hreach : migrateUpLoop E (scanRows st.ledger []) pre st = (.ok (), stp)) :
    (migrateUp E fs st).1 =
      .error (checksumMismatchError m.version appliedChecksum m.checksum) ∧
    checksumMismatchError m.version appliedChecksum m.checksum =
      "❌ CHECKSUM MISMATCH for " ++ m.version ++ "\nApplied: " ++ appliedChecksum ++
        "\nCurrent: " ++ m.checksum ++ "\nMigration file was modified after being applied!" ∧
    containsText (checksumMismatchError m.version appliedChecksum m.checksum) m.version ∧
    containsText (checksumMismatchError m.version appliedChecksum m.checksum) appliedChecksum ∧
    containsText (checksumMismatchError m.version appliedChecksum m.checksum) m.checksum := by
  refine ⟨?_, rfl, checksumMismatchError_contains _ _ _⟩
  unfold migrateUp
  rw [hload]
  simp only [getAppliedMigrations_eq]
  rw [if_neg (by simp), migrateUpLoop_append E _ pre (m :: post) st stp hreach]
  unfold ledgerChecksum at hentry
  simp only [migrateUpLoop, hentry]
  rw [if_pos hdiff]

/-- C25 on the files of `fsThree` and the ledger `driftLedger`: the run stops at
the second file, and the message names it and its two checksums. -/
theorem migrateUp_mismatch_message_witness :
    (migrateUp sampleEnv fsThree (sampleState driftLedger)).1 =
      .error (checksumMismatchError usersUp.version "stale" usersUp.checksum) ∧
    checksumMismatchError usersUp.version "stale" usersUp.checksum =
      "❌ CHECKSUM MISMATCH for " ++ usersUp.version ++ "\nApplied: " ++ "stale" ++
        "\nCurrent: " ++ usersUp.checksum ++ "\nMigration file was modified after being applied!" ∧
    containsText (checksumMismatchError usersUp.version "stale" usersUp.checksum)
      usersUp.version ∧
    containsText (checksumMismatchError usersUp.version "stale" usersUp.checksum) "stale" ∧
    containsText (checksumMismatchError usersUp.version "stale" usersUp.checksum)
      usersUp.checksum :=
  migrateUp_mismatch_message sampleEnv fsThree (sampleState driftLedger)
    { sampleState driftLedger with log := [.skipApplied "0001_init"] }
    [sampleMigration "0001_init" ".up.sql" "CREATE TABLE products (id INT);"]
    [sampleMigration "0003_images" ".up.sql" "CREATE TABLE images (id INT);"]
    usersUp "stale" loadMigrations_fsThree_up (by decide) (by decide) (by rfl)

/-- C26. For every string, joining the pieces `splitStatements` returns with `;`
gives the string back, no piece contains a `;`, and there is one piece more
than there are `;` in the string, whatever stands around them: a `;` inside a
quoted literal splits the statement it belongs to. -/
theorem splitStatements_lossless (sql : String) :
    joinStrings (splitStatements sql) ";" = sql ∧
    (∀ piece ∈ splitStatements sql, ';' ∉ piece.data) ∧
    (splitStatements sql).length = sql.data.count ';' + 1 ∧
    splitStatements "INSERT INTO t VALUES ('a;b')" = ["INSERT INTO t VALUES ('a", "b')"] := by
  refine ⟨?_, ?_, ?_, by decide⟩
  · unfold joinStrings splitStatements
    rw [List.map_map]
    have : (String.data ∘ String.mk) = id := by funext l; rfl
    rw [this, List.map_id]
    show String.mk ([';'].intercalate (sql.data.splitOn ';')) = sql
    rw [List.intercalate_splitOn]
  · intro piece hp
    unfold splitStatements at hp
    obtain ⟨l, hl, rfl⟩ := List.mem_map.1 hp
    exact splitOn_no_sep ';' sql.data l hl
  · unfold splitStatements
    rw [List.length_map, splitOn_length]

/-! ## The warning and the counters of the Status Reporter -/

/-- C27. The warning of `showStatus` is printed for a ledger entry without a file,
and `migrateUp` then succeeds: for the three forward files of `fsThree` and the
ledger `legacyLedger`, which holds each of them with the checksum of its file
and the version `0000_legacy` without a file, `showStatus` prints one mismatch
and the warning, and `migrateUp` returns success. The warning is sound for the
files: when a loaded forward file has a ledger entry with another checksum,
`migrateUp` returns an error. -/
theorem showStatus_warning_unsound :
    ((showStatus sampleEnv fsThree (sampleState legacyLedger)).1.map
        (Option.map (fun report => (report.mismatchCount, report.warning))) =
      .ok (some (1, true)) ∧
     (upsThree.all (fun m => !fileMismatch legacyLedger m)) = true ∧
     migrateUp sampleEnv fsThree (sampleState legacyLedger) =
       (.ok (), { sampleState legacyLedger with
          log := [.skipApplied "0001_init", .skipApplied "0002_users",
            .skipApplied "0003_images"] })) ∧
    (∀ (E : Env) (fs : FS) (st : State E) (ms : List migration) (m : migration),
      loadMigrations E fs migrationsDir ".up.sql" = .ok ms → m ∈ ms →
      fileMismatch st.ledger m = true → ∃ err, (migrateUp E fs st).1 = .error err) := by
  refine ⟨⟨by decide, by decide, by rfl⟩, ?_⟩
  intro E fs st ms m hload hm hmis
  unfold fileMismatch at hmis
  cases hl : ledgerChecksum st.ledger m.version with
  | none => rw [hl] at hmis; cases hmis
  | some c =>
    rw [hl] at hmis
    have hc : c ≠ m.checksum := by simpa using hmis
    unfold migrateUp
    rw [hload]
    simp only [getAppliedMigrations_eq]
    rw [if_neg (by
      intro h0
      rw [List.length_eq_zero] at h0
      subst h0; cases hm)]
    exact migrateUpLoop_mismatch_fails E _ ms st m c hm hl hc

/-- C28. When `showStatus` prints a table, the value printed as Total is the
number of rows and is the sum of the values printed as Applied, Pending and
Mismatches; and the value printed as Pending is the number of loaded forward
files whose version has no ledger entry. -/
theorem showStatus_counts_partition (E : Env) (fs : FS) (st : State E) (ms : List migration)
    (report : statusReport)
    (hload : loadMigrations E fs migrationsDir ".up.sql" = .ok ms)
    (hreport : (showStatus E fs st).1 = .ok (some report)) :
    report.total = report.rows.length ∧
    report.total = report.appliedCount + report.pendingCount + report.mismatchCount ∧
    report.pendingCount = ms.countP (fun m => decide (m.version ∉ keys st.ledger)) ∧
    report.pendingCount =
      ((ms.map (fun m => m.version)).filter (fun v => decide (v ∉ keys st.ledger))).length := by
  have hne : ms ≠ [] := by
    intro hnil
    subst hnil
    unfold showStatus at hreport
    rw [hload] at hreport
    simp at hreport
  have heq : report = statusReportOf ms st.ledger := by
    rw [showStatus_eq E fs st ms hload hne] at hreport
    simp only [Except.ok.injEq, Option.some.injEq] at hreport
    exact hreport.symm
  subst heq
  have hpending : (statusReportOf ms st.ledger).pendingCount =
      ms.countP (fun m => decide (m.version ∉ keys st.ledger)) := by
    have hcount : (statusReportOf ms st.ledger).pendingCount =
        (countStatuses (buildStatuses ms (scanRows st.ledger []))
          { pendingCount := 0, appliedCount := 0, mismatchCount := 0 }).pendingCount := rfl
    rw [hcount, countStatuses_pendingCount,
      (buildStatuses_perm ms (scanRows st.ledger [])).countP_eq, List.countP_append,
      List.countP_map]
    have horph : (orphanStatuses ms (scanRows st.ledger [])).countP (fun s => !s.applied) = 0 := by
      rw [List.countP_eq_zero]
      intro s hs
      simp [orphanStatuses_applied ms _ s hs]
    have hf : ((fun s : migrationStatus => !s.applied) ∘ fileStatus (scanRows st.ledger [])) =
        fun m => decide (m.version ∉ keys st.ledger) := by
      funext m; exact fileStatus_pending st.ledger m
    rw [horph, hf]
    simp
  refine ⟨?_, ?_, hpending, ?_⟩
  · show (buildStatuses ms (scanRows st.ledger [])).length =
      ((buildStatuses ms (scanRows st.ledger [])).map _).length
    rw [List.length_map]
  · have h := countStatuses_total (buildStatuses ms (scanRows st.ledger []))
      { pendingCount := 0, appliedCount := 0, mismatchCount := 0 }
    simp only [Nat.zero_add] at h
    exact h.symm
  · rw [hpending, List.countP_eq_length_filter, List.filter_map, List.length_map]
    rfl

/-- C28 on the files of `fsThree` and the ledger `driftLedger`: four rows, one
applied, one pending, two counted as mismatches. -/
theorem showStatus_counts_partition_witness :
    (statusReportOf upsThree driftLedger).total =
      (statusReportOf upsThree driftLedger).rows.length ∧
    (statusReportOf upsThree driftLedger).total =
      (statusReportOf upsThree driftLedger).appliedCount +
        (statusReportOf upsThree driftLedger).pendingCount +
        (statusReportOf upsThree driftLedger).mismatchCount ∧
    (statusReportOf upsThree driftLedger).pendingCount =
      upsThree.countP (fun m => decide (m.version ∉ keys (sampleState driftLedger).ledger)) ∧
    (statusReportOf upsThree driftLedger).pendingCount =
      ((upsThree.map (fun m => m.version)).filter
        (fun v => decide (v ∉ keys (sampleState driftLedger).ledger))).length :=
  showStatus_counts_partition sampleEnv fsThree (sampleState driftLedger) upsThree
    (statusReportOf upsThree driftLedger) loadMigrations_fsThree_up (by decide)

/-! ## Runs that are not atomic, reverse runs and checksums -/

/-- C29. A failed forward run is not atomic: for the forward files of `fsThree`
and a ledger that holds the second version with a stale checksum, `migrateUp`
executes the statement of the pending first version and records it, and then
returns the mismatch error of the second. In general, when the loop reaches a
mismatched migration after the migrations before it succeeded, the run ends
with the mismatch error, and the pending migrations before it have been
executed and recorded: the check of a migration is made when the loop reaches
it. -/
theorem migrateUp_not_atomic :
    (loadMigrations sampleEnv fsThree migrationsDir ".up.sql" =
        .ok ([sampleMigration "0001_init" ".up.sql" "CREATE TABLE products (id INT);"] ++
          usersUp :: [sampleMigration "0003_images" ".up.sql" "CREATE TABLE images (id INT);"]) ∧
     ledgerChecksum [("0002_users", "stale")] "0001_init" = none ∧
     ledgerChecksum [("0002_users", "stale")] usersUp.version = some "stale" ∧
     "stale" ≠ usersUp.checksum ∧
     (migrateUp sampleEnv fsThree (sampleState [("0002_users", "stale")])).1 =
       .error (checksumMismatchError "0002_users" "stale" usersUp.checksum) ∧
     (migrateUp sampleEnv fsThree (sampleState [("0002_users", "stale")])).2.history =
       [.exec "CREATE TABLE products (id INT)" true,
        .insert "0001_init" (calculateChecksum sampleEnv "CREATE TABLE products (id INT);") true] ∧
     (migrateUp sampleEnv fsThree (sampleState [("0002_users", "stale")])).2.ledger =
       [("0002_users", "stale"),
        ("0001_init", calculateChecksum sampleEnv "CREATE TABLE products (id INT);")] ∧
     (migrateUp sampleEnv fsThree (sampleState [("0002_users", "stale")])).2.schema =
       ["CREATE TABLE products (id INT)"]) ∧
    (∀ (E : Env) (fs : FS) (st stp : State E) (pre post : List migration) (m : migration)
        (appliedChecksum : String),
      loadMigrations E fs migrationsDir ".up.sql" = .ok (pre ++ m :: post) →
      ledgerChecksum st.ledger m.version = some appliedChecksum →
      appliedChecksum ≠ m.checksum →
      migrateUpLoop E (scanRows st.ledger []) pre st = (.ok (), stp) →
      (migrateUp E fs st).1 =
        .error (checksumMismatchError m.version appliedChecksum m.checksum) ∧
      (migrateUp E fs st).2.ledger = st.ledger ++ newRows st.ledger pre ∧
      callsSince st (migrateUp E fs st).2 =
        ((pre.filter (fun p => decide (p.version ∉ keys st.ledger))).map upCalls).flatten) := by
  refine ⟨⟨by decide, by decide, by decide, by decide, by rfl, by decide, by decide, by rfl⟩, ?_⟩
  intro E fs st stp pre post m appliedChecksum hload hentry hdiff hreach
  have hrun : migrateUp E fs st =
      (.error (checksumMismatchError m.version appliedChecksum m.checksum), stp) := by
    unfold migrateUp
    rw [hload]
    simp only [getAppliedMigrations_eq]
    rw [if_neg (by simp), migrateUpLoop_append E _ pre (m :: post) st stp hreach]
    unfold ledgerChecksum at hentry
    simp only [migrateUpLoop, hentry]
    rw [if_pos hdiff]
  obtain ⟨hled, _, _, _, hhist, _⟩ := migrateUpLoop_ok E _ pre st stp hreach
  rw [hrun]
  refine ⟨rfl, ?_, ?_⟩
  · show stp.ledger = _
    rw [hled, pendingFiles_eq]
    rfl
  · show callsSince st stp = _
    rw [callsSince_eq st stp _ hhist, pendingFiles_eq]

/-- C30. What `migrateDown` does depends on the ledger through its versions only:
run on two databases with the same schema whose ledgers hold the same versions,
with whatever checksums, it returns the same result, sends the same requests
to the database, statements and deletes, leaves the same schema, removes the
entries of the same versions, and leaves ledgers that hold the same versions. -/
theorem migrateDown_ignores_checksums (E : Env) (fs : FS) (st1 st2 : State E)
    (hschema : st1.schema = st2.schema)
    (hkeys : ∀ v, v ∈ keys st1.ledger ↔ v ∈ keys st2.ledger) :
    (migrateDown E fs st1).1 = (migrateDown E fs st2).1 ∧
    (migrateDown E fs st1).2.schema = (migrateDown E fs st2).2.schema ∧
    callsSince st1 (migrateDown E fs st1).2 = callsSince st2 (migrateDown E fs st2).2 ∧
    (∃ dels : List String,
      (migrateDown E fs st1).2.ledger = st1.ledger.filter (fun row => decide (row.1 ∉ dels)) ∧
      (migrateDown E fs st2).2.ledger = st2.ledger.filter (fun row => decide (row.1 ∉ dels))) ∧
    (∀ v, v ∈ keys (migrateDown E fs st1).2.ledger ↔ v ∈ keys (migrateDown E fs st2).2.ledger) := by
  have hfinal : ∀ (r1 r2 : State E) (dels : List String),
      r1.ledger = st1.ledger.filter (fun row => decide (row.1 ∉ dels)) →
      r2.ledger = st2.ledger.filter (fun row => decide (row.1 ∉ dels)) →
      ∀ v, v ∈ keys r1.ledger ↔ v ∈ keys r2.ledger := by
    intro r1 r2 dels h1 h2 v
    rw [h1, h2, mem_keys_filter st1.ledger (fun k => decide (k ∉ dels)) v,
      mem_keys_filter st2.ledger (fun k => decide (k ∉ dels)) v, hkeys v]
  unfold migrateDown
  cases hload : loadMigrations E fs migrationsDir ".down.sql" with
  | error e =>
    refine ⟨rfl, hschema, by simp [callsSince], ⟨[], by simp, by simp⟩, hkeys⟩
  | ok ms =>
    simp only [getAppliedMigrations_eq]
    split
    · refine ⟨rfl, hschema, by simp [callsSince, State.logLine],
        ⟨[], by simp [State.logLine], by simp [State.logLine]⟩, ?_⟩
      simpa [State.logLine] using hkeys
    · have hlook : ∀ m ∈ ms.reverse,
          ((scanRows st1.ledger []).lookup m.version).isSome =
            ((scanRows st2.ledger []).lookup m.version).isSome := by
        intro m _
        have h1 := ledgerChecksum_eq_none_iff st1.ledger m.version
        have h2 := ledgerChecksum_eq_none_iff st2.ledger m.version
        unfold ledgerChecksum at h1 h2
        have hk := hkeys m.version
        cases hl1 : (scanRows st1.ledger []).lookup m.version with
        | none =>
          have : (scanRows st2.ledger []).lookup m.version = none :=
            h2.2 (fun h => h1.1 hl1 (hk.2 h))
          rw [this]
        | some c1 =>
          cases hl2 : (scanRows st2.ledger []).lookup m.version with
          | none =>
            have : (scanRows st1.ledger []).lookup m.version = none :=
              h1.2 (fun h => h2.1 hl2 (hk.1 h))
            rw [this] at hl1; cases hl1
          | some c2 => rfl
      obtain ⟨hres, hsch, calls, dels, hh1, hh2, hl1, hl2, _⟩ :=
        migrateDownLoop_congr E _ _ ms.reverse st1 st2 hlook hschema
      refine ⟨hres, hsch, ?_, ⟨dels, hl1, hl2⟩, hfinal _ _ dels hl1 hl2⟩
      rw [callsSince_eq st1 _ calls hh1, callsSince_eq st2 _ calls hh2]

/-- C30 on the files of `fsThree` and two ledgers with the same two versions, one
with the checksums of the forward files and one with checksums of no file. -/
theorem migrateDown_ignores_checksums_witness :
    (migrateDown sampleEnv fsThree (sampleState cleanLedger)).1 =
      (migrateDown sampleEnv fsThree (sampleState forgedLedger)).1 ∧
    (migrateDown sampleEnv fsThree (sampleState cleanLedger)).2.schema =
      (migrateDown sampleEnv fsThree (sampleState forgedLedger)).2.schema ∧
    callsSince (sampleState cleanLedger)
        (migrateDown sampleEnv fsThree (sampleState cleanLedger)).2 =
      callsSince (sampleState forgedLedger)
        (migrateDown sampleEnv fsThree (sampleState forgedLedger)).2 ∧
    (∃ dels : List String,
      (migrateDown sampleEnv fsThree (sampleState cleanLedger)).2.ledger =
        (sampleState cleanLedger).ledger.filter (fun row => decide (row.1 ∉ dels)) ∧
      (migrateDown sampleEnv fsThree (sampleState forgedLedger)).2.ledger =
        (sampleState forgedLedger).ledger.filter (fun row => decide (row.1 ∉ dels))) ∧
    (∀ v, v ∈ keys (migrateDown sampleEnv fsThree (sampleState cleanLedger)).2.ledger ↔
      v ∈ keys (migrateDown sampleEnv fsThree (sampleState forgedLedger)).2.ledger) :=
  migrateDown_ignores_checksums sampleEnv fsThree (sampleState cleanLedger)
    (sampleState forgedLedger) rfl
    (fun v => by
      show v ∈ ["0001_init", "0002_users"] ↔ v ∈ ["0002_users", "0001_init"]
      simp only [List.mem_cons, List.mem_singleton, List.mem_nil_iff, or_false]
      exact Or.comm)

end Migrate
